import Mathlib

/-!
# psf2gfxfont: PSF font loading and GFX glyph emission

A shallow embedding of `src/psf2gfxfont.c` (with the constants and header
layouts of `src/psf.h`).  C integers are natural numbers reduced modulo
`2 ^ w` wherever the C code stores into a `w`-bit variable; loops are
recursions over their trip count that carry the loop variables explicitly.
A read of `data` at or beyond the bytes that were read from the file, and a
read of `colMask` outside its four entries, end the run with an error result.

A `while` loop is a recursion over a bound on the number of tests of its
condition; the functions that have one are shown to return a result for
every accepted font.

The file has the model of `LoadPsf`, of the glyph loop of `main`, of
`DisplayGlyph` and of the Unicode table lookups, the notions in which the
properties are stated, concrete font files, lemmas on the loops, and then
the properties: as a theorem over all fonts where the code has the
property, and otherwise as the evaluation of the code at a font where it
departs from it, with the theorem that holds on well-formed fonts.
-/

namespace Psf2GfxFont

/-! ## Machine integers -/

/-- One byte of a font file. -/
abbrev Byte := Fin 256

/-- Conversion to `uint8_t`. -/
def u8 (n : Nat) : Nat := n % 256

/-- Conversion to `uint16_t`. -/
def u16 (n : Nat) : Nat := n % 65536

/-- Conversion to `uint32_t` (`unsigned int`). -/
def u32 (n : Nat) : Nat := n % 4294967296

/-- Conversion of an `int` value to `uint8_t`. -/
def u8OfInt (z : Int) : Nat := (z % 256).toNat

/-- Conversion of an 8-bit value to `int8_t` (two's complement). -/
def i8 (n : Nat) : Int := if n % 256 < 128 then ((n % 256 : Nat) : Int) else ((n % 256 : Nat) : Int) - 256

/-! ## Constants of `psf.h` and `psf2gfxfont.c` -/

def PSF_BUFFER_SIZE : Nat := 32768

def PSF1_MAGIC0 : Nat := 0x36
def PSF1_MAGIC1 : Nat := 0x04
def PSF1_MODE512 : Nat := 0x01
def PSF1_MODEHASTAB : Nat := 0x02
def PSF1_SEPARATOR : Nat := 0xFFFF

def PSF2_MAGIC0 : Nat := 0x72
def PSF2_MAGIC1 : Nat := 0xb5
def PSF2_MAGIC2 : Nat := 0x4a
def PSF2_MAGIC3 : Nat := 0x86
def PSF2_HAS_UNICODE_TABLE : Nat := 0x01
def PSF2_SEPARATOR : Nat := 0xFF

/-- The value of `sizeof(psf1_header)`: four `unsigned char` fields. -/
def sizeofPsf1Header : Nat := 4

/-- The value of `sizeof(psf2_header)`: `magic[4]` and seven `unsigned int` fields. -/
def sizeofPsf2Header : Nat := 32

def UINT8_MAX : Nat := 255

def UINT16_MAX : Nat := 65535

def maxPsfByteWidth : Nat := 4

/-- First character code of the emitted range (`first` in `main`). -/
def first : Nat := 32

/-- Last character code of the emitted range (`last` in `main`). -/
def last : Nat := 126

/-! ## Data model -/

/-- The content of the input stream handed to `LoadPsf`: `size` bytes, byte `i`
being `byte i` for `i < size`. -/
structure FileData where
  size : Nat
  byte : Nat → Byte

/-- A stream holding exactly the bytes of a list. -/
def FileData.ofList (l : List Byte) : FileData := ⟨l.length, fun i => l.getD i 0⟩

/-- The struct `PSF`.  `data i` is `data[i]`; only the first `dataLen` bytes were
read from the file. -/
structure PSF where
  data : Nat → Byte
  dataLen : Nat
  format : Nat
  glyphDataOffset : Nat
  count : Nat
  height : Nat
  width : Nat
  widthBytes : Nat
  charSize : Nat
  unicodeTableOffset : Nat

/-- The diagnostics with which `LoadPsf` returns `false`. -/
inductive LoadError where
  | incompleteHeader
  | dataTooLarge
  | incompletePsf2Header
  | unrecognizedMagic
  | incompleteGlyphData
  deriving DecidableEq

/-- A read of `psf.data[i]`.  Bytes at or beyond `dataLen` were never read from the
file, so such a read has no defined value: `none`. -/
def PSF.read (p : PSF) (i : Nat) : Option Nat :=
  if i < p.dataLen then some (p.data i).val else none

/-- An `unsigned int` header field overlaid on the bytes at `off` (little-endian). -/
def le32 (d : Nat → Byte) (off : Nat) : Nat :=
  (d off).val + 256 * (d (off + 1)).val + 65536 * (d (off + 2)).val
    + 16777216 * (d (off + 3)).val

/-- The statement `memcpy(&x, p->data + offset, 2)` into a `uint16_t x`: the two bytes
at `offset`, the low byte first (the byte order of the header overlay in `LoadPsf`). -/
def PSF.read16 (p : PSF) (offset : Nat) : Option Nat :=
  match p.read offset, p.read (offset + 1) with
  | some lo, some hi => some (lo + 256 * hi)
  | _, _ => none

/-! ## `LoadPsf` -/

/-- Lines 84-95 of `LoadPsf`: the glyph data bounds check and the Unicode table
offset, after either header was decoded. -/
def finishLoad (data : Nat → Byte) (dataLen format glyphDataOffset count height width
    widthBytes : Nat) (haveUnicodeTable : Bool) : Except LoadError PSF :=
  let charSize := u16 (height * widthBytes)
  let glyphDataSize := u32 (count * charSize)
  if u32 (glyphDataOffset + glyphDataSize) > dataLen then
    .error .incompleteGlyphData
  else
    .ok { data := data, dataLen := dataLen, format := format,
          glyphDataOffset := glyphDataOffset, count := count, height := height,
          width := width, widthBytes := widthBytes, charSize := charSize,
          unicodeTableOffset :=
            if haveUnicodeTable then u32 (glyphDataOffset + glyphDataSize) else 0 }

/-- The function `LoadPsf`: read at most `PSF_BUFFER_SIZE` bytes, decode the header,
check that the glyph data is complete. -/
def LoadPsf (f : FileData) : Except LoadError PSF :=
  let dataLen := min f.size PSF_BUFFER_SIZE
  let data := f.byte
  if dataLen < sizeofPsf1Header then
    .error .incompleteHeader
  else if dataLen = PSF_BUFFER_SIZE ∧ PSF_BUFFER_SIZE < f.size then
    .error .dataTooLarge
  else if (data 0).val = PSF1_MAGIC0 ∧ (data 1).val = PSF1_MAGIC1 then
    let mode := (data 2).val
    let charsize := (data 3).val
    finishLoad data dataLen 1 sizeofPsf1Header
      (if mode &&& PSF1_MODE512 ≠ 0 then 512 else 256) charsize 8 1
      (mode &&& PSF1_MODEHASTAB != 0)
  else if (data 0).val = PSF2_MAGIC0 ∧ (data 1).val = PSF2_MAGIC1
      ∧ (data 2).val = PSF2_MAGIC2 ∧ (data 3).val = PSF2_MAGIC3 then
    if dataLen < sizeofPsf2Header then
      .error .incompletePsf2Header
    else
      finishLoad data dataLen 2 (u16 (le32 data 8)) (u16 (le32 data 16))
        (u16 (le32 data 24)) (u16 (le32 data 28)) (u16 (u32 (le32 data 28 + 7) / 8))
        (le32 data 12 &&& PSF2_HAS_UNICODE_TABLE != 0)
  else
    .error .unrecognizedMagic

/-! ## The glyph emission of `main` -/

/-- Modelled from the spec: `gfxfont.h`, which declares `GFXglyph`, is not among the
sources.  The spec gives the entry as `{bitmapOffset, width, height, xAdvance,
xOffset, yOffset}`, "signed for offsets"; the field widths are those of the Adafruit
GFX header (`uint16_t bitmapOffset`, `uint8_t width, height, xAdvance`,
`int8_t xOffset, yOffset`). -/
structure GFXglyph where
  bitmapOffset : Nat
  width : Nat
  height : Nat
  xAdvance : Nat
  xOffset : Int
  yOffset : Int
  deriving DecidableEq

/-- Lines 382-387: the bytes of one row.  `n` iterations remain, `col` is the loop
variable, `p` the `uint16_t` read position. -/
def scanRowBytes (psf : PSF) : Nat → Nat → Bool → List Nat → Nat →
    Option (Bool × List Nat × Nat)
  | 0, _, rowUsed, colMask, p => some (rowUsed, colMask, p)
  | n + 1, col, rowUsed, colMask, p =>
    match psf.read p with
    | none => none
    | some b =>
      scanRowBytes psf n (col + 1) (rowUsed || (b != 0))
        (colMask.set col (colMask.getD col 0 ||| b)) (u16 (p + 1))

/-- Lines 378-401: the row loop that finds `startRow`, `endRow` and fills `colMask`.
`n` iterations remain, `row` is the loop variable. -/
def scanRows (psf : PSF) : Nat → Nat → Nat → Nat → List Nat → Nat →
    Option (Nat × Nat × List Nat)
  | 0, _, startRow, endRow, colMask, _ => some (startRow, endRow, colMask)
  | n + 1, row, startRow, endRow, colMask, p =>
    match scanRowBytes psf psf.widthBytes 0 false colMask p with
    | none => none
    | some (rowUsed, colMask', p') =>
      if rowUsed then
        if startRow = UINT8_MAX then
          scanRows psf n (row + 1) (u8 row) (u8 row) colMask' p'
        else
          scanRows psf n (row + 1) startRow (u8 row) colMask' p'
      else
        scanRows psf n (row + 1) startRow endRow colMask' p'

/-- Lines 415-429: the column loop over `colMask`.  A `colMask` index outside the
four-entry array has no defined value: `none`. -/
def scanCols (colMask : List Nat) : Nat → Nat → Nat → Nat → Option (Nat × Nat)
  | 0, _, startCol, endCol => some (startCol, endCol)
  | n + 1, col, startCol, endCol =>
    match colMask[col >>> 3]? with
    | none => none
    | some m =>
      if m &&& (1 <<< (7 - (col &&& 7))) ≠ 0 then
        if startCol = UINT8_MAX then
          scanCols colMask n (col + 1) (u8 col) (u8 col)
        else
          scanCols colMask n (col + 1) startCol (u8 col)
      else
        scanCols colMask n (col + 1) startCol endCol

/-- The variables of the repacking loop: `wbit`, `bitmapByte`, the running
`bitmapOffset`, and the bytes printed so far for this glyph. -/
structure Packer where
  wbit : Nat
  bitmapByte : Nat
  bitmapOffset : Nat
  out : List Nat
  deriving DecidableEq

/-- Lines 444-462: the columns of one row of the crop, read at row position `p`. -/
def packCols (psf : PSF) (p : Nat) : Nat → Nat → Packer → Option Packer
  | 0, _, s => some s
  | n + 1, col, s =>
    match psf.read (p + (col >>> 3)) with
    | none => none
    | some b =>
      let bitmapByte :=
        if b &&& (1 <<< (7 - (col &&& 7))) ≠ 0 then u8 (s.bitmapByte ||| (1 <<< s.wbit))
        else s.bitmapByte
      if s.wbit = 0 then
        packCols psf p n (col + 1) ⟨7, 0, u16 (s.bitmapOffset + 1), s.out ++ [bitmapByte]⟩
      else
        packCols psf p n (col + 1) ⟨s.wbit - 1, bitmapByte, s.bitmapOffset, s.out⟩

/-- Lines 442-465: the rows of the crop; `p` advances by `widthBytes` per row. -/
def packRows (psf : PSF) (startCol endCol : Nat) : Nat → Nat → Packer → Option Packer
  | 0, _, s => some s
  | n + 1, p, s =>
    match packCols psf p (endCol + 1 - startCol) startCol s with
    | none => none
    | some s' => packRows psf startCol endCol n (u16 (p + psf.widthBytes)) s'

/-- Lines 467-471: the final partial byte. -/
def flushPacker (s : Packer) : Packer :=
  if s.wbit ≠ 7 then ⟨s.wbit, s.bitmapByte, u16 (s.bitmapOffset + 1), s.out ++ [s.bitmapByte]⟩
  else s

/-- Lines 367-472: one iteration of the glyph loop, for character code `charCode`
with the running `bitmapOffset`.  The result is the table entry, the bytes printed
for the glyph, and the new `bitmapOffset`. -/
def cropGlyph (psf : PSF) (charCode bitmapOffset : Nat) :
    Option (GFXglyph × List Nat × Nat) :=
  let psfOffset := u16 (psf.glyphDataOffset + charCode * psf.charSize)
  match scanRows psf psf.height 0 UINT8_MAX UINT8_MAX [0, 0, 0, 0] psfOffset with
  | none => none
  | some (startRow, endRow, colMask) =>
    if startRow = UINT8_MAX then
      some (⟨bitmapOffset, 0, 0, u8 psf.width, 0, 0⟩, [], bitmapOffset)
    else
      match scanCols colMask psf.width 0 UINT8_MAX UINT8_MAX with
      | none => none
      | some (startCol, endCol) =>
        match packRows psf startCol endCol (endRow + 1 - startRow)
            (u16 (psfOffset + startRow * psf.widthBytes)) ⟨7, 0, bitmapOffset, []⟩ with
        | none => none
        | some s =>
          some (⟨bitmapOffset, u8OfInt ((endCol : Int) - startCol + 1),
                 u8OfInt ((endRow : Int) - startRow + 1), u8 psf.width,
                 i8 startCol, i8 startRow⟩,
                (flushPacker s).out, (flushPacker s).bitmapOffset)

/-- Lines 365-475: the loop over `i`; `n` iterations remain.  The result is the glyph
table and the block of bytes printed for each glyph. -/
def glyphLoop (psf : PSF) : Nat → Nat → Nat → Option (List GFXglyph × List (List Nat))
  | 0, _, _ => some ([], [])
  | n + 1, i, bitmapOffset =>
    match cropGlyph psf (first + i) bitmapOffset with
    | none => none
    | some (g, bytes, bitmapOffset') =>
      match glyphLoop psf n (i + 1) bitmapOffset' with
      | none => none
      | some (gs, bs) => some (g :: gs, bytes :: bs)

/-- What `main` writes: the `Bitmaps` array as one block of bytes per glyph, and the
`Glyphs` table. -/
structure Output where
  bitmaps : List (List Nat)
  glyphs : List GFXglyph
  deriving DecidableEq

/-- The ways `main` stops without output once its arguments are in order. -/
inductive MainError where
  | load (e : LoadError)
  | widthTooLarge
  | readOutsideData
  deriving DecidableEq

/-- The function `main` from the call of `LoadPsf` on: the width guard of lines
350-356 and the glyph loop. -/
def main (f : FileData) : Except MainError Output :=
  match LoadPsf f with
  | .error e => .error (.load e)
  | .ok psf =>
    if psf.widthBytes > maxPsfByteWidth then
      .error .widthTooLarge
    else
      match glyphLoop psf (last - first + 1) 0 0 with
      | none => .error .readOutsideData
      | some (gs, bs) => .ok ⟨bs, gs⟩

/-! ## `DisplayGlyph` and the Unicode table lookups -/

/-- Lines 112-124 of `DisplayGlyph`: the columns of one row.  `n` iterations remain,
`col` is the loop variable, `x` the byte being shifted out, `out` the characters
written so far. -/
def displayCols (psf : PSF) : Nat → Nat → Nat → Nat → List Char → Option (Nat × List Char)
  | 0, _, _, offset, out => some (offset, out)
  | n + 1, col, x, offset, out =>
    if col &&& 7 = 0 then
      match psf.read offset with
      | none => none
      | some b =>
        displayCols psf n (col + 1) (u8 (b <<< 1)) (u32 (offset + 1))
          (out ++ [if b &&& 128 ≠ 0 then 'X' else '.'])
    else
      displayCols psf n (col + 1) (u8 (x <<< 1)) offset
        (out ++ [if x &&& 128 ≠ 0 then 'X' else '.'])

/-- Lines 108-127 of `DisplayGlyph`: the row loop; every row ends with a newline. -/
def displayRows (psf : PSF) : Nat → Nat → List Char → Option (List Char)
  | 0, _, out => some out
  | n + 1, offset, out =>
    match displayCols psf psf.width 0 0 offset out with
    | none => none
    | some (offset', out') => displayRows psf n offset' (out' ++ [Char.ofNat 10])

/-- The function `DisplayGlyph` for a non-null `p`: the returned `bool` and the
characters written to `stdout`.  The product `index * p->charSize` is computed in
`int`; a sum that does not fit `int`, like a read at or beyond `dataLen`, has no
defined result: `none`. -/
def DisplayGlyph (psf : PSF) (index : Nat) : Option (Bool × List Char) :=
  if index > psf.count then some (false, [])
  else if psf.glyphDataOffset + index * psf.charSize ≥ 2147483648 then none
  else
    match displayRows psf psf.height (psf.glyphDataOffset + index * psf.charSize) [] with
    | none => none
    | some out => some (true, out)

/-- How a scan of `FindUnicodeEntryForGlyph` ends: the loop is left at an offset, or
the function returns 0 with the diagnostic "Incomplete unicode table". -/
inductive Scan where
  | reached (offset : Nat)
  | incomplete
  deriving DecidableEq

/-- Lines 144-154: the `while (x != PSF1_SEPARATOR)` loop of the variant-1 branch.
At most `fuel` tests of the loop condition are made; `none` is a run that needs more,
or that reads at or beyond `dataLen`. -/
def skipRun1 (psf : PSF) : Nat → Nat → Nat → Option Scan
  | 0, _, _ => none
  | fuel + 1, offset, x =>
    if x ≠ PSF1_SEPARATOR then
      if u32 (offset + 1) ≥ psf.dataLen then some .incomplete
      else
        match psf.read16 offset with
        | none => none
        | some x' => skipRun1 psf fuel (u32 (offset + 2)) x'
    else some (.reached offset)

/-- Lines 140-155: the `for` loop of the variant-1 branch; `n` iterations remain. -/
def skipRuns1 (psf : PSF) (fuel : Nat) : Nat → Nat → Option Scan
  | 0, offset => some (.reached offset)
  | n + 1, offset =>
    match skipRun1 psf fuel offset 0 with
    | some (.reached offset') => skipRuns1 psf fuel n offset'
    | r => r

/-- Lines 163-173: the `while (x != PSF2_SEPARATOR)` loop of the variant-2 branch. -/
def skipRun2 (psf : PSF) : Nat → Nat → Nat → Option Scan
  | 0, _, _ => none
  | fuel + 1, offset, x =>
    if x ≠ PSF2_SEPARATOR then
      if offset ≥ psf.dataLen then some .incomplete
      else
        match psf.read offset with
        | none => none
        | some x' => skipRun2 psf fuel (u32 (offset + 1)) x'
    else some (.reached offset)

/-- Lines 159-174: the `for` loop of the variant-2 branch; `n` iterations remain. -/
def skipRuns2 (psf : PSF) (fuel : Nat) : Nat → Nat → Option Scan
  | 0, offset => some (.reached offset)
  | n + 1, offset =>
    match skipRun2 psf fuel offset 0 with
    | some (.reached offset') => skipRuns2 psf fuel n offset'
    | r => r

/-- The function `FindUnicodeEntryForGlyph` for a non-null `p`.  Every test of a
`while` condition but the last of a run follows a read below `dataLen` that moved
`offset` on, so `dataLen + 1` tests per run are never used up. -/
def FindUnicodeEntryForGlyph (psf : PSF) (glyphIndex : Nat) : Option Nat :=
  if glyphIndex > psf.count ∨ psf.unicodeTableOffset = 0 then some 0
  else
    match (if psf.format = 1
        then skipRuns1 psf (psf.dataLen + 1) glyphIndex psf.unicodeTableOffset
        else skipRuns2 psf (psf.dataLen + 1) glyphIndex psf.unicodeTableOffset) with
    | none => none
    | some .incomplete => some 0
    | some (.reached offset) => some offset

/-- Lines 190-197: the `while (offset + 1 < p->dataLen)` loop of
`FindGlyphForUnicode`, with at most `fuel` tests of the loop condition. -/
def findGlyphLoop (psf : PSF) (codePoint : Nat) : Nat → Nat → Nat → Option Nat
  | 0, _, _ => none
  | fuel + 1, offset, glyph =>
    if u32 (offset + 1) < psf.dataLen then
      match psf.read16 offset with
      | none => none
      | some x =>
        if x = codePoint then some glyph
        else
          findGlyphLoop psf codePoint fuel (u32 (offset + 2))
            (if x = PSF1_SEPARATOR then u16 (glyph + 1) else glyph)
    else some UINT16_MAX

/-- The function `FindGlyphForUnicode` for a non-null `p`. -/
def FindGlyphForUnicode (psf : PSF) (codePoint : Nat) : Option Nat :=
  if psf.format ≠ 1 ∨ psf.unicodeTableOffset = 0 then some UINT16_MAX
  else findGlyphLoop psf codePoint (psf.dataLen + 1) psf.unicodeTableOffset 0

/-- The function `Utf8CharLength`, of the lead byte `u[0]`. -/
def Utf8CharLength (u0 : Nat) : Nat :=
  if u0 &&& 0x80 = 0 then 1
  else if u0 &&& 0xe0 = 0xc0 then 2
  else if u0 &&& 0xf0 = 0xe0 then 3
  else if u0 &&& 0xf8 = 0xf0 then 4
  else 0

/-- The test `memcmp(u, p->data + offset, len) == 0`, over the first `n` bytes. -/
def memcmpEq (psf : PSF) (u : Nat → Byte) (offset : Nat) : Nat → Option Bool
  | 0 => some true
  | n + 1 =>
    match memcmpEq psf u offset n, psf.read (offset + n) with
    | some r, some b => some (r && (b == (u n).val))
    | _, _ => none

/-- Lines 224-241: the `while (offset + len <= p->dataLen)` loop of
`FindGlyphForUtf8`, with at most `fuel` tests of the loop condition. -/
def findUtf8Loop (psf : PSF) (u : Nat → Byte) (len : Nat) : Nat → Nat → Nat → Option Nat
  | 0, _, _ => none
  | fuel + 1, offset, glyph =>
    if u32 (offset + len) ≤ psf.dataLen then
      match psf.read offset with
      | none => none
      | some b =>
        if b = PSF2_SEPARATOR then
          findUtf8Loop psf u len fuel (u32 (offset + 1)) (u16 (glyph + 1))
        else
          match memcmpEq psf u offset len with
          | none => none
          | some true => some glyph
          | some false =>
            if Utf8CharLength b = 0 then some UINT16_MAX
            else findUtf8Loop psf u len fuel (u32 (offset + Utf8CharLength b)) glyph
    else some UINT16_MAX

/-- The function `FindGlyphForUtf8` for a non-null `p`; `u i` is `u[i]`. -/
def FindGlyphForUtf8 (psf : PSF) (u : Nat → Byte) : Option Nat :=
  if psf.format = 1 ∨ psf.unicodeTableOffset = 0 then some UINT16_MAX
  else if Utf8CharLength (u 0).val = 0 then some UINT16_MAX
  else
    findUtf8Loop psf u (Utf8CharLength (u 0).val) (psf.dataLen + 1)
      psf.unicodeTableOffset 0

/-! ## Notions used to state the properties -/

/-- The pixel test of the source at `(row, col)` of glyph `charCode`: byte
`col >> 3` of the row at `psfOffset + row * widthBytes`, bit `1 << (7 - (col & 7))`
(lines 369, 438, 446 and 464). -/
def srcPixel (psf : PSF) (charCode row col : Nat) : Bool :=
  match psf.read (u16 (u16 (psf.glyphDataOffset + charCode * psf.charSize)
      + row * psf.widthBytes) + (col >>> 3)) with
  | some b => b &&& (1 <<< (7 - (col &&& 7))) != 0
  | none => false

/-- The test "some byte of row `r` is nonzero" of the row loop, for the glyph whose
rows start at `P`. -/
def rowNonzero (psf : PSF) (P r : Nat) : Bool :=
  decide (∃ j, j < psf.widthBytes ∧ (psf.data (P + r * psf.widthBytes + j)).val ≠ 0)

/-- The test of the column loop on `colMask`, false outside the mask. -/
def maskBit (cm : List Nat) (c : Nat) : Bool :=
  match cm[c >>> 3]? with
  | some m => decide (m &&& (1 <<< (7 - (c &&& 7))) ≠ 0)
  | none => false

/-- The bookkeeping shared by the row loop and the column loop: `s` and `e` follow the
first and the last index at which `used` holds, both stored as `uint8_t`, with
`UINT8_MAX` in `s` meaning that none was seen. -/
def firstLast (used : Nat → Bool) : Nat → Nat → Nat → Nat → Nat × Nat
  | 0, _, s, e => (s, e)
  | n + 1, i, s, e =>
    if used i then
      if s = UINT8_MAX then firstLast used n (i + 1) (u8 i) (u8 i)
      else firstLast used n (i + 1) s (u8 i)
    else firstLast used n (i + 1) s e

/-- Bit `n` of a packed bitmap read most-significant-bit first: bit `7 - n % 8` of byte
`n / 8`. -/
def emittedBit (bytes : List Nat) (n : Nat) : Bool :=
  (bytes.getD (n / 8) 0).testBit (7 - n % 8)

/-- The pixel test of line 446 at column `c` of the row that starts at `p`. -/
def pixelAt (psf : PSF) (p c : Nat) : Bool :=
  decide ((psf.data (p + (c >>> 3))).val &&& (1 <<< (7 - (c &&& 7))) ≠ 0)

/-- The state of the repacking loop after `k` pixels, the `n`-th of which was `bits n`,
when the glyph started at `bitmapOffset = bo0`. -/
def PackInv (bo0 : Nat) (bits : Nat → Bool) (k : Nat) (s : Packer) : Prop :=
  s.wbit = 7 - k % 8 ∧ s.out.length = k / 8 ∧ s.bitmapOffset = u16 (bo0 + k / 8) ∧
  s.bitmapByte < 256 ∧
  (∀ j, j ≤ s.wbit → s.bitmapByte.testBit j = false) ∧
  (∀ n, n < k → emittedBit (s.out ++ [s.bitmapByte]) n = bits n)

/-- Glyph `charCode` has no set bit in the padding columns `width .. 8 * widthBytes - 1`
of its rows. -/
def NoPadding (psf : PSF) (charCode : Nat) : Prop :=
  ∀ row c, row < psf.height → psf.width ≤ c → c < 8 * psf.widthBytes →
    srcPixel psf charCode row c = false

/-- What the entry `g` and the bytes `bytes` printed for glyph `charCode` are to be:
`xAdvance` is the font width and there are `ceil(width * height / 8)` bytes; a glyph
without foreground pixel has the all-zero entry and no bytes; a glyph with one has a
box inside the raster that holds every foreground pixel, touches one on each of its four
sides, and whose pixels are the bits of `bytes` in row-major order. -/
def CropSpec (psf : PSF) (charCode : Nat) (g : GFXglyph) (bytes : List Nat) : Prop :=
  g.xAdvance = psf.width ∧ bytes.length = (g.width * g.height + 7) / 8 ∧
  ((∀ row col, row < psf.height → col < psf.width →
      srcPixel psf charCode row col = false) →
    g.width = 0 ∧ g.height = 0 ∧ g.xOffset = 0 ∧ g.yOffset = 0 ∧ bytes = []) ∧
  ((∃ row col, row < psf.height ∧ col < psf.width ∧
      srcPixel psf charCode row col = true) →
    ∃ x0 y0 : Nat, g.xOffset = (x0 : Int) ∧ g.yOffset = (y0 : Int) ∧
      1 ≤ g.width ∧ 1 ≤ g.height ∧
      x0 + g.width ≤ psf.width ∧ y0 + g.height ≤ psf.height ∧
      (∀ i j, i < g.height → j < g.width →
        emittedBit bytes (i * g.width + j) = srcPixel psf charCode (y0 + i) (x0 + j)) ∧
      (∀ row col, row < psf.height → col < psf.width →
        srcPixel psf charCode row col = true →
        y0 ≤ row ∧ row < y0 + g.height ∧ x0 ≤ col ∧ col < x0 + g.width) ∧
      (∃ row, row < psf.height ∧ srcPixel psf charCode row x0 = true) ∧
      (∃ row, row < psf.height ∧ srcPixel psf charCode row (x0 + g.width - 1) = true) ∧
      (∃ col, col < psf.width ∧ srcPixel psf charCode y0 col = true) ∧
      (∃ col, col < psf.width ∧ srcPixel psf charCode (y0 + g.height - 1) col = true))

/-- The 16-bit entry `k` of the Unicode table of a variant-1 font. -/
def unit16 (psf : PSF) (k : Nat) : Nat :=
  (psf.data (psf.unicodeTableOffset + 2 * k)).val
    + 256 * (psf.data (psf.unicodeTableOffset + 2 * k + 1)).val

/-- The byte `k` of the Unicode table of a variant-2 font. -/
def unit8 (psf : PSF) (k : Nat) : Nat := (psf.data (psf.unicodeTableOffset + k)).val

/-- Entry `k` of the table of a variant-1 font is the separator `0xFFFF`. -/
def isSep16 (psf : PSF) (k : Nat) : Bool := unit16 psf k == PSF1_SEPARATOR

/-- Byte `k` of the table of a variant-2 font is the separator `0xFF`. -/
def isSep8 (psf : PSF) (k : Nat) : Bool := unit8 psf k == PSF2_SEPARATOR

/-- The number of 16-bit entries of the table that lie wholly below `dataLen`. -/
def unitCount16 (psf : PSF) : Nat := (psf.dataLen - psf.unicodeTableOffset) / 2

/-- The number of bytes of the table below `dataLen`. -/
def unitCount8 (psf : PSF) : Nat := psf.dataLen - psf.unicodeTableOffset

/-- The number of indices below `k` at which `p` holds. -/
def countBelow (p : Nat → Bool) : Nat → Nat
  | 0 => 0
  | k + 1 => countBelow p k + (if p k then 1 else 0)

/-- The position of entry `k` in the walk of `FindGlyphForUtf8` over the table of a
variant-2 font: a `0xFF` byte is an entry of one byte, any other entry has the length
that its lead byte decodes to. -/
def utf8EntryPos (psf : PSF) : Nat → Nat
  | 0 => psf.unicodeTableOffset
  | k + 1 =>
    utf8EntryPos psf k
      + (if (psf.data (utf8EntryPos psf k)).val = PSF2_SEPARATOR then 1
         else Utf8CharLength (psf.data (utf8EntryPos psf k)).val)

/-- Entry `k` of the walk over the table of a variant-2 font is the boundary byte
`0xFF`. -/
def isBoundary (psf : PSF) (k : Nat) : Bool :=
  (psf.data (utf8EntryPos psf k)).val == PSF2_SEPARATOR

/-- The `len` bytes of the font at position `p` are the first `len` bytes of `u`. -/
def bytesMatch (psf : PSF) (u : Nat → Byte) (len p : Nat) : Prop :=
  ∀ i, i < len → psf.data (p + i) = u i

/-- Entry `k` of the walk is the first entry whose `len` bytes are those of `u`, and
these bytes lie below `dataLen`. -/
def FirstMatch (psf : PSF) (u : Nat → Byte) (len k : Nat) : Prop :=
  utf8EntryPos psf k + len ≤ psf.dataLen ∧ bytesMatch psf u len (utf8EntryPos psf k) ∧
  ∀ j, j < k → ¬ bytesMatch psf u len (utf8EntryPos psf j)

/-! ## Concrete font files -/

/-- The spec's end-to-end font: variant 1, 256 glyphs of 8x8 pixels, no Unicode table;
glyph 0x41 has the single pixel (0, 0), which is byte `4 + 0x41 * 8 = 524`. -/
def singlePixelFont : FileData :=
  ⟨2052, fun i => if i < 4 then [0x36, 0x04, 0, 8].getD i 0
    else if i = 524 then 0x80 else 0⟩

/-- What `LoadPsf` stores for `singlePixelFont`. -/
def singlePixelPsf : PSF :=
  { data := singlePixelFont.byte, dataLen := 2052, format := 1, glyphDataOffset := 4,
    count := 256, height := 8, width := 8, widthBytes := 1, charSize := 8,
    unicodeTableOffset := 0 }

/-- A variant-1 font with a Unicode table: mode `0x02`, 256 glyphs of one row each,
all blank, followed by the table `[0x0041, 0xFFFF, 0x0042, 0xFFFF]` at byte 260. -/
def tableFont : FileData :=
  ⟨268, fun i => if i < 4 then [0x36, 0x04, 0x02, 1].getD i 0
    else if i < 260 then 0
    else [0x41, 0x00, 0xFF, 0xFF, 0x42, 0x00, 0xFF, 0xFF].getD (i - 260) 0⟩

/-- What `LoadPsf` stores for `tableFont`. -/
def tablePsf : PSF :=
  { data := tableFont.byte, dataLen := 268, format := 1, glyphDataOffset := 4,
    count := 256, height := 1, width := 8, widthBytes := 1, charSize := 1,
    unicodeTableOffset := 260 }

/-- A variant-2 header: version 0, headersize 32, flags 0, length 127, charsize 256,
height 256, width 8. -/
def tallHeader : List Byte :=
  [0x72, 0xb5, 0x4a, 0x86, 0, 0, 0, 0, 32, 0, 0, 0, 0, 0, 0, 0,
   127, 0, 0, 0, 0, 1, 0, 0, 0, 1, 0, 0, 8, 0, 0, 0]

/-- A complete variant-2 font of 127 glyphs, 8 pixels wide and 256 rows high
(`32 + 127 * 256 = 32544` bytes).  Glyph 0x20 starts at byte `32 + 0x20 * 256 = 8224`;
its only set bit is the leftmost pixel of row 255, byte 8479. -/
def tallFont : FileData :=
  ⟨32544, fun i => if i < 32 then tallHeader.getD i 0
    else if i = 8479 then 0x80 else 0⟩

/-- The font `tallFont` with the leftmost pixel of row 0 of glyph 0x20 (byte 8224) set
as well. -/
def tallTwoRowFont : FileData :=
  ⟨32544, fun i => if i < 32 then tallHeader.getD i 0
    else if i = 8224 ∨ i = 8479 then 0x80 else 0⟩

/-- What `LoadPsf` stores for a file of 32544 bytes with the header `tallHeader`. -/
def tallPsf (f : FileData) : PSF :=
  { data := f.byte, dataLen := 32544, format := 2, glyphDataOffset := 32, count := 127,
    height := 256, width := 8, widthBytes := 1, charSize := 256,
    unicodeTableOffset := 0 }

/-- A variant-2 header: version 0, headersize 32, flags 0, length 127, charsize 1,
height 1, width 4. -/
def paddedHeader : List Byte :=
  [0x72, 0xb5, 0x4a, 0x86, 0, 0, 0, 0, 32, 0, 0, 0, 0, 0, 0, 0,
   127, 0, 0, 0, 1, 0, 0, 0, 1, 0, 0, 0, 4, 0, 0, 0]

/-- A complete variant-2 font of 127 glyphs, 4 pixels wide and 1 row high
(`32 + 127 = 159` bytes).  The one byte of glyph 0x20, byte 64, is `0x01`: a bit
in the four padding bits to the right of the 4 pixels. -/
def paddedFont : FileData :=
  ⟨159, fun i => if i < 32 then paddedHeader.getD i 0
    else if i = 64 then 0x01 else 0⟩

/-- A variant-2 header: version 0, headersize 32, flags 0, length 65536, charsize 8,
height 8, width 8. -/
def wrappedCountHeader : List Byte :=
  [0x72, 0xb5, 0x4a, 0x86, 0, 0, 0, 0, 32, 0, 0, 0, 0, 0, 0, 0,
   0, 0, 1, 0, 8, 0, 0, 0, 8, 0, 0, 0, 8, 0, 0, 0]

/-- A 32-byte file: the header `wrappedCountHeader` and no glyph data. -/
def wrappedCountFont : FileData := FileData.ofList wrappedCountHeader

/-- A variant-2 header: version 0, headersize 32, flags 0, length 1, charsize 8,
height 8, width 65544 (`0x00010008`). -/
def wideFieldHeader : List Byte :=
  [0x72, 0xb5, 0x4a, 0x86, 0, 0, 0, 0, 32, 0, 0, 0, 0, 0, 0, 0,
   1, 0, 0, 0, 8, 0, 0, 0, 8, 0, 0, 0, 8, 0, 1, 0]

/-- A 40-byte file: the header `wideFieldHeader` and eight zero bytes. -/
def wideFieldFont : FileData :=
  ⟨40, fun i => if i < 32 then wideFieldHeader.getD i 0 else 0⟩

/-- A variant-2 header: version 0, headersize 32, flags 0, length 1, charsize 8,
height 8, width 8. -/
def oneGlyphHeader : List Byte :=
  [0x72, 0xb5, 0x4a, 0x86, 0, 0, 0, 0, 32, 0, 0, 0, 0, 0, 0, 0,
   1, 0, 0, 0, 8, 0, 0, 0, 8, 0, 0, 0, 8, 0, 0, 0]

/-- A complete variant-2 font with one blank 8x8 glyph (`32 + 8 = 40` bytes). -/
def oneGlyphFont : FileData :=
  ⟨40, fun i => if i < 32 then oneGlyphHeader.getD i 0 else 0⟩

/-- What `LoadPsf` stores for `oneGlyphFont`. -/
def oneGlyphPsf : PSF :=
  { data := oneGlyphFont.byte, dataLen := 40, format := 2, glyphDataOffset := 32,
    count := 1, height := 8, width := 8, widthBytes := 1, charSize := 8,
    unicodeTableOffset := 0 }

/-- A 32-byte file: the header `oneGlyphHeader`, which declares one 8x8 glyph, without
the glyph. -/
def headerOnlyFont : FileData := FileData.ofList oneGlyphHeader

/-- A variant-2 header: version 0, headersize 32, flags 1 (Unicode table), length 2,
charsize 1, height 1, width 8. -/
def utf8TableHeader : List Byte :=
  [0x72, 0xb5, 0x4a, 0x86, 0, 0, 0, 0, 32, 0, 0, 0, 1, 0, 0, 0,
   2, 0, 0, 0, 1, 0, 0, 0, 1, 0, 0, 0, 8, 0, 0, 0]

/-- A complete variant-2 font with a Unicode table: two blank glyphs of one row (bytes
32 and 33) and the table `41 FF C3 A9 42 FF` at byte 34: glyph 0 is "A", glyph 1 is
"é" (`C3 A9`) and "B".  40 bytes. -/
def utf8TableFont : FileData :=
  FileData.ofList (utf8TableHeader ++ [0, 0, 0x41, 0xFF, 0xC3, 0xA9, 0x42, 0xFF])

/-- What `LoadPsf` stores for `utf8TableFont`. -/
def utf8TablePsf : PSF :=
  { data := utf8TableFont.byte, dataLen := 40, format := 2, glyphDataOffset := 32,
    count := 2, height := 1, width := 8, widthBytes := 1, charSize := 1,
    unicodeTableOffset := 34 }

/-- The bytes of a string argument `u`, followed by zero bytes. -/
def bytesOf (l : List Byte) : Nat → Byte := fun i => l.getD i 0

/-- A variant-2 header: version 0, headersize 32, flags 0, length 127, charsize 2,
height 2, width 4. -/
def paddedRowHeader : List Byte :=
  [0x72, 0xb5, 0x4a, 0x86, 0, 0, 0, 0, 32, 0, 0, 0, 0, 0, 0, 0,
   127, 0, 0, 0, 2, 0, 0, 0, 2, 0, 0, 0, 4, 0, 0, 0]

/-- A complete variant-2 font of 127 glyphs, 4 pixels wide and 2 rows high
(`32 + 127 * 2 = 286` bytes).  Glyph 0x20 starts at byte `32 + 0x20 * 2 = 96`: its row
0 is `0x40`, the pixel of column 1, and its row 1 is `0x01`, a bit in the four padding
bits to the right of the 4 pixels. -/
def paddedRowFont : FileData :=
  ⟨286, fun i => if i < 32 then paddedRowHeader.getD i 0
    else if i = 96 then 0x40 else if i = 97 then 0x01 else 0⟩

/-- A variant-2 header: version 0, headersize 32, flags 0, length 127, charsize 2,
height 1, width 12. -/
def paddedWideHeader : List Byte :=
  [0x72, 0xb5, 0x4a, 0x86, 0, 0, 0, 0, 32, 0, 0, 0, 0, 0, 0, 0,
   127, 0, 0, 0, 2, 0, 0, 0, 1, 0, 0, 0, 12, 0, 0, 0]

/-- A complete variant-2 font of 127 glyphs, 12 pixels wide and 1 row high
(`32 + 127 * 2 = 286` bytes).  The row of glyph 0x20 is bytes 96 and 97, `0x00` and
`0x01`: its only set bit is in the four padding bits to the right of the 12 pixels. -/
def paddedWideFont : FileData :=
  ⟨286, fun i => if i < 32 then paddedWideHeader.getD i 0
    else if i = 97 then 0x01 else 0⟩

/-- The font `paddedFont` with the padding bit in the one byte of the last glyph of the
range, 0x7E (byte `32 + 0x7E = 158`), instead of glyph 0x20.  159 bytes. -/
def paddedLastFont : FileData :=
  ⟨159, fun i => if i < 32 then paddedHeader.getD i 0
    else if i = 158 then 0x01 else 0⟩

/-- What `LoadPsf` stores for `paddedLastFont`. -/
def paddedLastPsf : PSF :=
  { data := paddedLastFont.byte, dataLen := 159, format := 2, glyphDataOffset := 32,
    count := 127, height := 1, width := 4, widthBytes := 1, charSize := 1,
    unicodeTableOffset := 0 }

/-- A variant-2 header: version 0, headersize 32, flags 0, length 127, charsize 8,
height 8, width 524281 (`0x0007FFF9`). -/
def wrappedWidthHeader : List Byte :=
  [0x72, 0xb5, 0x4a, 0x86, 0, 0, 0, 0, 32, 0, 0, 0, 0, 0, 0, 0,
   127, 0, 0, 0, 8, 0, 0, 0, 8, 0, 0, 0, 0xF9, 0xFF, 0x07, 0]

/-- A 32-byte file: the header `wrappedWidthHeader` and nothing else. -/
def wrappedWidthFont : FileData := FileData.ofList wrappedWidthHeader

/-- A variant-2 header: version 0, headersize 0, flags 1 (Unicode table), length 0,
charsize 8, height 8, width 8. -/
def zeroOffsetHeader : List Byte :=
  [0x72, 0xb5, 0x4a, 0x86, 0, 0, 0, 0, 0, 0, 0, 0, 1, 0, 0, 0,
   0, 0, 0, 0, 8, 0, 0, 0, 8, 0, 0, 0, 8, 0, 0, 0]

/-- A 32-byte file: the header `zeroOffsetHeader` and nothing else. -/
def zeroOffsetFont : FileData := FileData.ofList zeroOffsetHeader

/-! ## `LoadPsf`: acceptance and the stored fields -/

/-- The glyph data check accepts exactly when the computed end of the glyph data is
within the bytes read. -/
theorem finishLoad_ok_iff (data : Nat → Byte) (dataLen format off count height width wb : Nat)
    (tab : Bool) :
    (∃ psf, finishLoad data dataLen format off count height width wb tab = .ok psf) ↔
      u32 (off + u32 (count * u16 (height * wb))) ≤ dataLen := by
  unfold finishLoad
  by_cases h : u32 (off + u32 (count * u16 (height * wb))) > dataLen
  · simp [h]
  · simp [h]; omega

/-- The fields stored when the glyph data check accepts. -/
theorem finishLoad_fields {data : Nat → Byte} {dataLen format off count height width wb : Nat}
    {tab : Bool} {psf : PSF}
    (h : finishLoad data dataLen format off count height width wb tab = .ok psf) :
    psf = { data := data, dataLen := dataLen, format := format, glyphDataOffset := off,
            count := count, height := height, width := width, widthBytes := wb,
            charSize := u16 (height * wb),
            unicodeTableOffset :=
              if tab then u32 (off + u32 (count * u16 (height * wb))) else 0 } ∧
    u32 (off + u32 (count * u16 (height * wb))) ≤ dataLen := by
  unfold finishLoad at h
  by_cases hlt : u32 (off + u32 (count * u16 (height * wb))) > dataLen
  · simp [hlt] at h
  · simp [hlt] at h
    exact ⟨h.symm, by omega⟩

/-- The glyph data check either accepts, with the format it was given, or fails with
"Incomplete glyph data". -/
theorem finishLoad_cases (data : Nat → Byte) (dataLen format off count height width wb : Nat)
    (tab : Bool) :
    (∃ psf, finishLoad data dataLen format off count height width wb tab = .ok psf
        ∧ psf.format = format) ∨
      finishLoad data dataLen format off count height width wb tab
        = .error .incompleteGlyphData := by
  unfold finishLoad
  by_cases h : u32 (off + u32 (count * u16 (height * wb))) > dataLen
  · right; simp [h]
  · left; simp [h]

/-- An accepted file fits the buffer, and was decoded by one of the two header
branches. -/
theorem loadPsf_ok_cases {f : FileData} {psf : PSF} (h : LoadPsf f = .ok psf) :
    sizeofPsf1Header ≤ f.size ∧ f.size ≤ PSF_BUFFER_SIZE ∧
    (((f.byte 0).val = PSF1_MAGIC0 ∧ (f.byte 1).val = PSF1_MAGIC1 ∧
        finishLoad f.byte f.size 1 sizeofPsf1Header
          (if (f.byte 2).val &&& PSF1_MODE512 ≠ 0 then 512 else 256) (f.byte 3).val 8 1
          ((f.byte 2).val &&& PSF1_MODEHASTAB != 0) = .ok psf) ∨
     (¬ ((f.byte 0).val = PSF1_MAGIC0 ∧ (f.byte 1).val = PSF1_MAGIC1) ∧
        sizeofPsf2Header ≤ f.size ∧
        finishLoad f.byte f.size 2 (u16 (le32 f.byte 8)) (u16 (le32 f.byte 16))
          (u16 (le32 f.byte 24)) (u16 (le32 f.byte 28))
          (u16 (u32 (le32 f.byte 28 + 7) / 8))
          (le32 f.byte 12 &&& PSF2_HAS_UNICODE_TABLE != 0) = .ok psf)) := by
  have hsz : f.size ≤ PSF_BUFFER_SIZE := by
    by_contra hc
    have hlen : min f.size PSF_BUFFER_SIZE = PSF_BUFFER_SIZE := Nat.min_eq_right (by omega)
    have a1 : ¬ PSF_BUFFER_SIZE < sizeofPsf1Header := by decide
    have a2 : PSF_BUFFER_SIZE < f.size := by omega
    simp [LoadPsf, hlen, a1, a2] at h
  have hlen : min f.size PSF_BUFFER_SIZE = f.size := Nat.min_eq_left hsz
  have a2 : ¬ (f.size = PSF_BUFFER_SIZE ∧ PSF_BUFFER_SIZE < f.size) := by omega
  by_cases a1 : f.size < sizeofPsf1Header
  · simp [LoadPsf, hlen, a1] at h
  by_cases m1 : (f.byte 0).val = PSF1_MAGIC0 ∧ (f.byte 1).val = PSF1_MAGIC1
  · simp only [LoadPsf, hlen, a1, a2, m1, if_true, if_false, and_self] at h
    exact ⟨by omega, hsz, Or.inl ⟨m1.1, m1.2, h⟩⟩
  by_cases m2 : (f.byte 0).val = PSF2_MAGIC0 ∧ (f.byte 1).val = PSF2_MAGIC1
      ∧ (f.byte 2).val = PSF2_MAGIC2 ∧ (f.byte 3).val = PSF2_MAGIC3
  · by_cases a3 : f.size < sizeofPsf2Header
    · simp only [LoadPsf, hlen, a1, a2, m1, m2, a3, if_true, if_false, and_self] at h
      cases h
    · simp only [LoadPsf, hlen, a1, a2, m1, m2, a3, if_true, if_false, and_self] at h
      exact ⟨by omega, hsz, Or.inr ⟨m1, by omega, h⟩⟩
  · simp [LoadPsf, hlen, a1, a2, m1, m2] at h

/-- For an accepted file, the glyph data of the stored fields ends within the bytes read,
which are the whole file and fit the buffer. -/
theorem loadPsf_bounds {f : FileData} {psf : PSF} (h : LoadPsf f = .ok psf) :
    psf.glyphDataOffset + psf.count * psf.charSize ≤ psf.dataLen ∧
    psf.dataLen ≤ PSF_BUFFER_SIZE ∧ psf.data = f.byte ∧ psf.dataLen = f.size := by
  have key : ∀ off count cs : Nat, off < 65536 → count < 65536 → cs < 65536 →
      u32 (off + u32 (count * cs)) = off + count * cs := by
    intro off count cs h1 h2 h3
    have : count * cs ≤ 65535 * 65535 := Nat.mul_le_mul (by omega) (by omega)
    unfold u32; omega
  obtain ⟨-, hsz, hc | hc⟩ := loadPsf_ok_cases h
  · obtain ⟨hpsf, hle⟩ := finishLoad_fields hc.2.2
    have hcnt : (if (f.byte 2).val &&& PSF1_MODE512 ≠ 0 then 512 else 256) < 65536 := by
      split_ifs <;> omega
    rw [key sizeofPsf1Header _ (u16 ((f.byte 3).val * 1)) (by decide) hcnt
      (by unfold u16; omega)] at hle
    subst hpsf
    exact ⟨hle, hsz, rfl, rfl⟩
  · obtain ⟨hpsf, hle⟩ := finishLoad_fields hc.2.2
    rw [key (u16 (le32 f.byte 8)) (u16 (le32 f.byte 16))
      (u16 (u16 (le32 f.byte 24) * u16 (u32 (le32 f.byte 28 + 7) / 8)))
      (by unfold u16; omega) (by unfold u16; omega) (by unfold u16; omega)] at hle
    subst hpsf
    exact ⟨hle, hsz, rfl, rfl⟩

/-! ## The glyph loop on blank and single-pixel glyphs -/

/-- Writing back the value read from a `colMask` entry changes nothing. -/
theorem set_getD_self (l : List Nat) (i d : Nat) : l.set i (l.getD i d) = l := by
  induction l generalizing i with
  | nil => simp
  | cons a t ih =>
    cases i with
    | zero => simp
    | succ j =>
      have h := ih j
      simp only [List.getD_eq_getElem?_getD] at h
      simp [h]

/-- A row of zero bytes leaves `rowUsed` and `colMask` as they were. -/
theorem scanRowBytes_zero (psf : PSF) :
    ∀ (n col : Nat) (used : Bool) (cm : List Nat) (p : Nat),
      (∀ k, k < n → psf.read (p + k) = some 0) → p + n < 65536 →
      scanRowBytes psf n col used cm p = some (used, cm, p + n) := by
  intro n
  induction n with
  | zero => intro col used cm p _ _; simp [scanRowBytes]
  | succ n ih =>
    intro col used cm p hz hp
    have h0 : psf.read p = some 0 := by simpa using hz 0 (by omega)
    have hu : u16 (p + 1) = p + 1 := by unfold u16; omega
    have hrest : ∀ k, k < n → psf.read (p + 1 + k) = some 0 := by
      intro k hk
      have := hz (k + 1) (by omega)
      rwa [show p + (k + 1) = p + 1 + k by omega] at this
    simp only [scanRowBytes, h0, hu]
    have hcm : cm.set col (cm.getD col 0 ||| 0) = cm := by
      rw [Nat.or_zero]; exact set_getD_self cm col 0
    rw [hcm, ih (col + 1) _ cm (p + 1) hrest (by omega)]
    simp
    omega

/-- Leading rows of zero bytes leave the state of the row loop as it was. -/
theorem scanRows_skip_zero (psf : PSF) :
    ∀ (a b row sr er : Nat) (cm : List Nat) (p : Nat),
      (∀ k, k < a * psf.widthBytes → psf.read (p + k) = some 0) →
      p + a * psf.widthBytes < 65536 →
      scanRows psf (a + b) row sr er cm p
        = scanRows psf b (row + a) sr er cm (p + a * psf.widthBytes) := by
  intro a
  induction a with
  | zero => intro b row sr er cm p _ _; simp
  | succ a ih =>
    intro b row sr er cm p hz hp
    have hmul : (a + 1) * psf.widthBytes = psf.widthBytes + a * psf.widthBytes := by ring
    rw [hmul] at hz hp
    have hrow := scanRowBytes_zero psf psf.widthBytes 0 false cm p
      (fun k hk => hz k (by omega)) (by omega)
    have hrest : ∀ k, k < a * psf.widthBytes →
        psf.read (p + psf.widthBytes + k) = some 0 := by
      intro k hk
      have := hz (psf.widthBytes + k) (by omega)
      rwa [show p + (psf.widthBytes + k) = p + psf.widthBytes + k by omega] at this
    rw [show a + 1 + b = (a + b) + 1 by omega]
    simp only [scanRows, hrow, Bool.false_eq_true, if_false]
    rw [ih b (row + 1) sr er cm (p + psf.widthBytes) hrest (by omega)]
    rw [hmul]
    congr 1 <;> omega

/-- Over zero bytes only, the row loop returns its initial state. -/
theorem scanRows_zero (psf : PSF) (n row sr er : Nat) (cm : List Nat) (p : Nat)
    (hz : ∀ k, k < n * psf.widthBytes → psf.read (p + k) = some 0)
    (hp : p + n * psf.widthBytes < 65536) :
    scanRows psf n row sr er cm p = some (sr, er, cm) := by
  have := scanRows_skip_zero psf n 0 row sr er cm p hz hp
  simpa [scanRows] using this

/-- A glyph whose bytes are all zero gets the blank entry and prints nothing. -/
theorem cropGlyph_zero (psf : PSF) (charCode bo : Nat)
    (hp : u16 (psf.glyphDataOffset + charCode * psf.charSize)
        + psf.height * psf.widthBytes < 65536)
    (hz : ∀ k, k < psf.height * psf.widthBytes →
        psf.read (u16 (psf.glyphDataOffset + charCode * psf.charSize) + k) = some 0) :
    cropGlyph psf charCode bo = some (⟨bo, 0, 0, u8 psf.width, 0, 0⟩, [], bo) := by
  unfold cropGlyph
  simp only [scanRows_zero psf psf.height 0 UINT8_MAX UINT8_MAX [0, 0, 0, 0] _ hz hp]
  simp

/-- The column loop over a mask with the single bit of column `c`. -/
theorem scanCols_single : ∀ c, c < 8 →
    scanCols [2 ^ (7 - c), 0, 0, 0] 8 0 UINT8_MAX UINT8_MAX = some (c, c) := by
  decide

/-- The pixel test on the byte with the single bit of column `c`. -/
theorem single_bit_facts : ∀ c, c < 8 →
    c >>> 3 = 0 ∧ 2 ^ (7 - c) &&& (1 <<< (7 - (c &&& 7))) ≠ 0 ∧ 2 ^ (7 - c) ≠ 0 := by
  decide

/-- A glyph of an 8-pixel-wide font whose only set bit is column `c` of row `r` is
cropped to the 1x1 box at `(c, r)` and printed as the single byte `0x80`. -/
theorem cropGlyph_single_pixel (psf : PSF) (charCode bo r c : Nat)
    (hwb : psf.widthBytes = 1) (hw : psf.width = 8)
    (hr : r < psf.height) (hr128 : r < 128) (hc : c < 8)
    (hp : u16 (psf.glyphDataOffset + charCode * psf.charSize) + psf.height < 65536)
    (hbytes : ∀ k, k < psf.height →
        psf.read (u16 (psf.glyphDataOffset + charCode * psf.charSize) + k)
          = some (if k = r then 2 ^ (7 - c) else 0)) :
    cropGlyph psf charCode bo
      = some (⟨bo, 1, 1, 8, (c : Int), (r : Int)⟩, [0x80], u16 (bo + 1)) := by
  obtain ⟨hc3, hbit, hne⟩ := single_bit_facts c hc
  have hcols := scanCols_single c hc
  generalize hP : u16 (psf.glyphDataOffset + charCode * psf.charSize) = P at hp hbytes
  have hread : psf.read (P + r) = some (2 ^ (7 - c)) := by
    simpa using hbytes r hr
  -- the row scan
  have hscan : scanRows psf psf.height 0 UINT8_MAX UINT8_MAX [0, 0, 0, 0] P
      = some (r, r, [2 ^ (7 - c), 0, 0, 0]) := by
    have hsplit : psf.height = r + ((psf.height - r - 1) + 1) := by omega
    rw [hsplit]
    rw [scanRows_skip_zero psf r _ 0 UINT8_MAX UINT8_MAX [0, 0, 0, 0] P
      (by
        intro k hk
        rw [hwb] at hk
        have := hbytes k (by omega)
        rwa [if_neg (by omega)] at this)
      (by rw [hwb]; omega)]
    have hu : u16 (P + r + 1) = P + r + 1 := by unfold u16; omega
    have hur : u8 r = r := by unfold u8; omega
    simp only [scanRows, hwb, scanRowBytes, Nat.mul_one, hread, hu, Nat.zero_add]
    have hused : (false || (2 ^ (7 - c) != 0)) = true := by simp
    simp only [hused, if_true, UINT8_MAX, hur]
    have hcm : [0, 0, 0, 0].set 0 ([0, 0, 0, 0].getD 0 0 ||| 2 ^ (7 - c))
        = [2 ^ (7 - c), 0, 0, 0] := by simp
    rw [hcm]
    apply scanRows_zero
    · intro k hk
      rw [hwb] at hk
      have := hbytes (r + 1 + k) (by omega)
      rw [if_neg (by omega)] at this
      rwa [show P + (r + 1 + k) = P + r + 1 + k by omega] at this
    · rw [hwb]; omega
  have hrne : ¬ r = UINT8_MAX := by unfold UINT8_MAX; omega
  have hup : u16 (P + r * 1) = P + r := by unfold u16; omega
  unfold cropGlyph
  simp only [hP, hscan, hrne, if_false, hw, hcols, hwb, hup]
  have h1 : c + 1 - c = 1 := by omega
  have h2 : r + 1 - r = 1 := by omega
  simp only [h1, h2, packRows, packCols, hc3, Nat.add_zero, hread, hbit, ne_eq,
    not_false_eq_true, if_true]
  have hi8c : i8 c = (c : Int) := by unfold i8; rw [if_pos (by omega)]; congr 1; omega
  have hi8r : i8 r = (r : Int) := by unfold i8; rw [if_pos (by omega)]; congr 1; omega
  simp [flushPacker, u8OfInt, u8, hi8c, hi8r]

/-- A byte none of whose eight pixel tests succeeds is zero. -/
theorem byte_no_pixels : ∀ b, b < 256 →
    (∀ col, col < 8 → (b &&& (1 <<< (7 - (col &&& 7))) != 0) = false) → b = 0 := by
  decide!

/-- A byte whose pixel test succeeds at column `c` only is `2 ^ (7 - c)`. -/
theorem byte_one_pixel : ∀ c, c < 8 → ∀ b, b < 256 →
    (∀ col, col < 8 → ((b &&& (1 <<< (7 - (col &&& 7))) != 0) = true ↔ col = c)) →
    b = 2 ^ (7 - c) := by
  decide!

/-- A run of glyphs that are emitted blank contributes blank entries and empty
blocks, and leaves `bitmapOffset` as it was. -/
theorem glyphLoop_blank_run (psf : PSF) (xa bo : Nat) :
    ∀ (a b i : Nat),
      (∀ j, i ≤ j → j < i + a →
        cropGlyph psf (first + j) bo = some (⟨bo, 0, 0, xa, 0, 0⟩, [], bo)) →
      glyphLoop psf (a + b) i bo
        = (glyphLoop psf b (i + a) bo).map
            (fun r => (List.replicate a ⟨bo, 0, 0, xa, 0, 0⟩ ++ r.1,
                       List.replicate a [] ++ r.2)) := by
  intro a
  induction a with
  | zero =>
    intro b i _
    cases h : glyphLoop psf b i bo <;> simp [h]
  | succ a ih =>
    intro b i hb
    rw [show a + 1 + b = (a + b) + 1 by omega]
    simp only [glyphLoop, hb i (Nat.le_refl i) (by omega)]
    rw [ih b (i + 1) (fun j h1 h2 => hb j (by omega) (by omega))]
    rw [show i + 1 + a = i + (a + 1) by omega]
    cases h : glyphLoop psf b (i + (a + 1)) bo <;> simp [h, List.replicate_succ]

/-- What `LoadPsf` stores for an accepted variant-1 font. -/
theorem loadPsf_v1_fields {f : FileData} {psf : PSF} (h : LoadPsf f = .ok psf)
    (hfmt : psf.format = 1) :
    psf.data = f.byte ∧ psf.dataLen = f.size ∧ psf.glyphDataOffset = 4 ∧ psf.width = 8 ∧
    psf.widthBytes = 1 ∧ psf.charSize = psf.height ∧ psf.height = (f.byte 3).val ∧
    (psf.count = 256 ∨ psf.count = 512) ∧
    4 + psf.count * psf.height ≤ psf.dataLen ∧ psf.dataLen ≤ PSF_BUFFER_SIZE := by
  obtain ⟨-, hsz, hc | hc⟩ := loadPsf_ok_cases h
  · obtain ⟨hpsf, hle⟩ := finishLoad_fields hc.2.2
    have hb : (f.byte 3).val < 256 := (f.byte 3).isLt
    have hu16 : u16 ((f.byte 3).val * 1) = (f.byte 3).val := by unfold u16; omega
    have hcnt : (if (f.byte 2).val &&& PSF1_MODE512 ≠ 0 then 512 else 256) = 256 ∨
        (if (f.byte 2).val &&& PSF1_MODE512 ≠ 0 then 512 else 256) = 512 := by
      by_cases hm : (f.byte 2).val &&& PSF1_MODE512 ≠ 0
      · right; rw [if_pos hm]
      · left; rw [if_neg hm]
    generalize (if (f.byte 2).val &&& PSF1_MODE512 ≠ 0 then 512 else 256) = cnt
      at hpsf hle hcnt
    have hprod : cnt * (f.byte 3).val ≤ 512 * 255 :=
      Nat.mul_le_mul (by omega) (by omega)
    rw [hu16] at hle
    have hu32 : u32 (sizeofPsf1Header + u32 (cnt * (f.byte 3).val))
        = 4 + cnt * (f.byte 3).val := by
      unfold u32 sizeofPsf1Header; omega
    rw [hu32] at hle
    subst hpsf
    exact ⟨rfl, rfl, rfl, rfl, rfl, hu16, rfl, hcnt, hle, hsz⟩
  · obtain ⟨hpsf, -⟩ := finishLoad_fields hc.2.2
    subst hpsf
    simp at hfmt

/-- The glyph loop when every glyph after the first is emitted blank. -/
theorem glyphLoop_first_then_blank (psf : PSF) (g0 : GFXglyph) (b0 : List Nat)
    (bo xa n : Nat) (h0 : cropGlyph psf first 0 = some (g0, b0, bo))
    (hrest : ∀ j, 1 ≤ j → j < n + 1 →
      cropGlyph psf (first + j) bo = some (⟨bo, 0, 0, xa, 0, 0⟩, [], bo)) :
    glyphLoop psf (n + 1) 0 0
      = some (g0 :: List.replicate n ⟨bo, 0, 0, xa, 0, 0⟩, b0 :: List.replicate n []) := by
  simp only [glyphLoop, Nat.add_zero, h0]
  have h := glyphLoop_blank_run psf xa bo n 0 (0 + 1)
    (fun j h1 h2 => hrest j (by omega) (by omega))
  rw [Nat.add_zero] at h
  rw [h]
  simp only [glyphLoop, Option.map_some', List.append_nil]

/-- In a font with the header `tallHeader` whose bytes from 8480 on are zero, every
glyph after 0x20 is emitted blank. -/
theorem tallPsf_rest_blank (f : FileData) (hz : ∀ i, 8480 ≤ i → (f.byte i).val = 0)
    (bo j : Nat) (h1 : 1 ≤ j) (h2 : j < 94 + 1) :
    cropGlyph (tallPsf f) (first + j) bo = some (⟨bo, 0, 0, 8, 0, 0⟩, [], bo) := by
  have hmul : (first + j) * 256 ≤ 126 * 256 :=
    Nat.mul_le_mul (by unfold first; omega) (Nat.le_refl _)
  have hmul2 : 33 * 256 ≤ (first + j) * 256 :=
    Nat.mul_le_mul (by unfold first; omega) (Nat.le_refl _)
  have hu : u16 (32 + (first + j) * 256) = 32 + (first + j) * 256 := by
    unfold u16; omega
  have := cropGlyph_zero (tallPsf f) (first + j) bo
    (by simp only [tallPsf, hu]; omega)
    (by
      intro k hk
      simp only [tallPsf, Nat.mul_one] at hk
      simp only [tallPsf, hu, PSF.read]
      rw [if_pos (by omega), hz _ (by omega)])
  rw [this]
  rfl

/-- The bytes of `tallFont` after glyph 0x20 are zero. -/
theorem tallFont_zero : ∀ i, 8480 ≤ i → (tallFont.byte i).val = 0 := by
  intro i hi
  simp only [tallFont]
  rw [if_neg (by omega), if_neg (by omega)]
  rfl

/-- The bytes of `tallTwoRowFont` after glyph 0x20 are zero. -/
theorem tallTwoRowFont_zero : ∀ i, 8480 ≤ i → (tallTwoRowFont.byte i).val = 0 := by
  intro i hi
  simp only [tallTwoRowFont]
  rw [if_neg (by omega), if_neg (by omega)]
  rfl

/-- Reading a fact about the output of `main` off an evaluated projection. -/
theorem main_ok_of_eval {α : Type} (f : FileData) (proj : Output → α) (v : α)
    (h : (main f).toOption.map proj = some v) :
    ∃ out, main f = .ok out ∧ proj out = v := by
  cases hm : main f with
  | error e => rw [hm] at h; simp [Except.toOption] at h
  | ok out =>
    rw [hm] at h
    simp only [Except.toOption, Option.map_some', Option.some.injEq] at h
    exact ⟨out, rfl, h⟩

/-! ## The crop in general -/

/-- The pixel test `m & (1 << k)` is the test of bit `k`. -/
theorem and_shift_ne_zero (m k : Nat) : (m &&& (1 <<< k) ≠ 0) ↔ m.testBit k = true := by
  rw [Nat.one_shiftLeft, Nat.and_two_pow]
  cases h : m.testBit k <;> simp [h]

/-- Reading `colMask` after one entry was or-ed with a byte. -/
theorem getD_set_or (cm : List Nat) (col b i : Nat) :
    (cm.set col (cm.getD col 0 ||| b)).getD i 0
      = if i = col ∧ col < cm.length then cm.getD col 0 ||| b else cm.getD i 0 := by
  simp only [List.getD_eq_getElem?_getD, List.getElem?_set]
  by_cases h1 : col = i
  · subst h1
    by_cases h2 : col < cm.length
    · simp [h2]
    · simp [h2]
      rw [List.getElem?_eq_none (by omega)]
      rfl
  · have h3 : ¬ (i = col ∧ col < cm.length) := fun h => h1 h.1.symm
    simp [h1, h3]

/-- The bytes of one row: `rowUsed` becomes true exactly when one of them is nonzero,
and each is or-ed into its `colMask` entry. -/
theorem scanRowBytes_spec (psf : PSF) (hlen : psf.dataLen < 65536) :
    ∀ (n col : Nat) (used : Bool) (cm : List Nat) (p : Nat),
      p + n ≤ psf.dataLen → col + n ≤ cm.length →
      ∃ u cm', scanRowBytes psf n col used cm p = some (u, cm', p + n) ∧
        (u = true ↔ (used = true ∨ ∃ k, k < n ∧ (psf.data (p + k)).val ≠ 0)) ∧
        cm'.length = cm.length ∧
        ∀ i, cm'.getD i 0 =
          if col ≤ i ∧ i < col + n then cm.getD i 0 ||| (psf.data (p + (i - col))).val
          else cm.getD i 0 := by
  intro n
  induction n with
  | zero =>
    intro col used cm p _ _
    refine ⟨used, cm, by simp [scanRowBytes], by simp, rfl, ?_⟩
    intro i
    rw [if_neg (by omega)]
  | succ n ih =>
    intro col used cm p hp hc
    have hread : psf.read p = some (psf.data p).val := by
      unfold PSF.read; rw [if_pos (by omega)]
    have hu : u16 (p + 1) = p + 1 := by unfold u16; omega
    obtain ⟨u, cm', hrun, hu', hl, hcm⟩ :=
      ih (col + 1) (used || ((psf.data p).val != 0))
        (cm.set col (cm.getD col 0 ||| (psf.data p).val)) (p + 1)
        (by omega) (by rw [List.length_set]; omega)
    refine ⟨u, cm', ?_, ?_, ?_, ?_⟩
    · simp only [scanRowBytes, hread, hu]
      rw [hrun]
      congr 3
      omega
    · rw [hu']
      simp only [Bool.or_eq_true, bne_iff_ne, ne_eq]
      constructor
      · rintro ((h | h) | ⟨k, hk, h⟩)
        · exact Or.inl h
        · exact Or.inr ⟨0, by omega, by simpa using h⟩
        · exact Or.inr ⟨k + 1, by omega, by rwa [show p + (k + 1) = p + 1 + k by omega]⟩
      · rintro (h | ⟨k, hk, h⟩)
        · exact Or.inl (Or.inl h)
        · cases k with
          | zero => exact Or.inl (Or.inr (by simpa using h))
          | succ k =>
            exact Or.inr ⟨k, by omega, by rwa [show p + 1 + k = p + (k + 1) by omega]⟩
    · rw [hl, List.length_set]
    · intro i
      rw [hcm i, getD_set_or]
      split_ifs with a b c c c c <;>
        first
        | rfl
        | (exfalso; omega)
        | (congr 3 <;> omega)

/-- What `firstLast` returns over the indices `i .. i + n - 1`, all below 255. -/
theorem firstLast_spec (used : Nat → Bool) :
    ∀ (n i s e : Nat), i + n ≤ 255 →
      ((∀ r, i ≤ r → r < i + n → used r = false) →
        firstLast used n i s e = (s, e)) ∧
      ((∃ r, i ≤ r ∧ r < i + n ∧ used r = true) →
        (i ≤ (firstLast used n i s e).2 ∧ (firstLast used n i s e).2 < i + n ∧
          used (firstLast used n i s e).2 = true ∧
          ∀ r, (firstLast used n i s e).2 < r → r < i + n → used r = false) ∧
        (s ≠ UINT8_MAX → (firstLast used n i s e).1 = s) ∧
        (s = UINT8_MAX →
          i ≤ (firstLast used n i s e).1 ∧ (firstLast used n i s e).1 < i + n ∧
          used (firstLast used n i s e).1 = true ∧
          ∀ r, i ≤ r → r < (firstLast used n i s e).1 → used r = false)) := by
  intro n
  induction n with
  | zero =>
    intro i s e _
    refine ⟨fun _ => rfl, ?_⟩
    rintro ⟨r, h1, h2, -⟩
    omega
  | succ n ih =>
    intro i s e hin
    have hu8 : u8 i = i := by unfold u8; omega
    have hi255 : i ≠ UINT8_MAX := by unfold UINT8_MAX; omega
    by_cases hi : used i = true
    · -- index `i` is used
      have hstep : firstLast used (n + 1) i s e
          = firstLast used n (i + 1) (if s = UINT8_MAX then i else s) i := by
        by_cases hs : s = UINT8_MAX
        · simp only [firstLast, hi, hs, if_true, hu8]
        · simp only [firstLast, hi, hs, if_true, if_false, hu8]
      obtain ⟨ih1, ih2⟩ := ih (i + 1) (if s = UINT8_MAX then i else s) i (by omega)
      refine ⟨fun hnone => ?_, fun _ => ?_⟩
      · have := hnone i (Nat.le_refl i) (by omega)
        rw [hi] at this
        cases this
      · rw [hstep]
        by_cases hrest : ∃ r, i + 1 ≤ r ∧ r < i + 1 + n ∧ used r = true
        · obtain ⟨⟨he1, he2, he3, he4⟩, hsne, -⟩ := ih2 hrest
          have hs' : (firstLast used n (i + 1) (if s = UINT8_MAX then i else s) i).1
              = (if s = UINT8_MAX then i else s) := by
            apply hsne
            by_cases hs : s = UINT8_MAX
            · rw [if_pos hs]; exact hi255
            · rw [if_neg hs]; exact hs
          refine ⟨⟨by omega, by omega, he3, fun r h1 h2 => he4 r h1 (by omega)⟩, ?_, ?_⟩
          · intro hs; rw [hs', if_neg hs]
          · intro hs
            rw [hs', if_pos hs]
            exact ⟨Nat.le_refl i, by omega, hi, fun r h1 h2 => by omega⟩
        · have hnone : ∀ r, i + 1 ≤ r → r < i + 1 + n → used r = false := by
            intro r h1 h2
            by_contra hc
            exact hrest ⟨r, h1, h2, by simpa using hc⟩
          rw [ih1 hnone]
          refine ⟨⟨Nat.le_refl i, by omega, hi, fun r h1 h2 => hnone r (by omega) (by omega)⟩,
            ?_, ?_⟩
          · intro hs; simp only [if_neg hs]
          · intro hs
            simp only [if_pos hs]
            exact ⟨Nat.le_refl i, by omega, hi, fun r h1 h2 => by omega⟩
    · -- index `i` is not used
      have hi' : used i = false := by simpa using hi
      have hstep : firstLast used (n + 1) i s e = firstLast used n (i + 1) s e := by
        simp only [firstLast, hi', Bool.false_eq_true, if_false]
      obtain ⟨ih1, ih2⟩ := ih (i + 1) s e (by omega)
      rw [hstep]
      refine ⟨fun hnone => ih1 (fun r h1 h2 => hnone r (by omega) (by omega)), ?_⟩
      rintro ⟨r, h1, h2, h3⟩
      have hr : r ≠ i := by
        rintro rfl
        rw [hi'] at h3
        cases h3
      obtain ⟨⟨he1, he2, he3, he4⟩, hsne, hseq⟩ := ih2 ⟨r, by omega, by omega, h3⟩
      refine ⟨⟨by omega, by omega, he3, fun r h1 h2 => he4 r h1 (by omega)⟩, hsne, ?_⟩
      intro hs
      obtain ⟨a1, a2, a3, a4⟩ := hseq hs
      refine ⟨by omega, by omega, a3, fun r h1 h2 => ?_⟩
      by_cases hri : r = i
      · rw [hri]; exact hi'
      · exact a4 r (by omega) h2

/-- The row loop: `startRow` and `endRow` are tracked by `firstLast` over the rows with
a nonzero byte, and `colMask` collects the bits of every byte of its column. -/
theorem scanRows_spec (psf : PSF) (P : Nat) (hlen : psf.dataLen < 65536)
    (hwb : psf.widthBytes ≤ 4) :
    ∀ (n row sr er : Nat) (cm : List Nat), cm.length = 4 →
      P + (row + n) * psf.widthBytes ≤ psf.dataLen →
      ∃ cm', scanRows psf n row sr er cm (P + row * psf.widthBytes)
          = some ((firstLast (rowNonzero psf P) n row sr er).1,
                  (firstLast (rowNonzero psf P) n row sr er).2, cm') ∧
        cm'.length = 4 ∧
        ∀ i, i < psf.widthBytes → ∀ k,
          ((cm'.getD i 0).testBit k = true ↔
            ((cm.getD i 0).testBit k = true ∨
              ∃ r, row ≤ r ∧ r < row + n ∧
                (psf.data (P + r * psf.widthBytes + i)).val.testBit k = true)) := by
  intro n
  induction n with
  | zero =>
    intro row sr er cm hcm _
    refine ⟨cm, by simp [scanRows, firstLast], hcm, ?_⟩
    intro i _ k
    constructor
    · exact fun h => Or.inl h
    · rintro (h | ⟨r, h1, h2, -⟩)
      · exact h
      · omega
  | succ n ih =>
    intro row sr er cm hcm hin
    have hmul : (row + (n + 1)) * psf.widthBytes
        = row * psf.widthBytes + psf.widthBytes + n * psf.widthBytes := by ring
    have hmul1 : (row + 1 + n) * psf.widthBytes
        = row * psf.widthBytes + psf.widthBytes + n * psf.widthBytes := by ring
    have hmul2 : (row + 1) * psf.widthBytes = row * psf.widthBytes + psf.widthBytes := by
      ring
    obtain ⟨u, cm1, hrow, hu, hl1, hcm1⟩ :=
      scanRowBytes_spec psf hlen psf.widthBytes 0 false cm (P + row * psf.widthBytes)
        (by rw [hmul] at hin; omega) (by omega)
    have hu' : u = rowNonzero psf P row := by
      have : (u = true) ↔ (rowNonzero psf P row = true) := by
        rw [hu]
        simp [rowNonzero]
      cases u <;> cases h : rowNonzero psf P row <;> simp_all
    have hp : P + row * psf.widthBytes + psf.widthBytes = P + (row + 1) * psf.widthBytes := by
      rw [hmul2]; omega
    rw [hp] at hrow
    have hcmbits : ∀ i, i < psf.widthBytes → ∀ k,
        ((cm1.getD i 0).testBit k = true ↔
          ((cm.getD i 0).testBit k = true ∨
            (psf.data (P + row * psf.widthBytes + i)).val.testBit k = true)) := by
      intro i hi k
      rw [hcm1 i, if_pos ⟨Nat.zero_le i, by omega⟩, Nat.testBit_or, Bool.or_eq_true,
        Nat.sub_zero]
    have key : ∀ sr1 er1,
        firstLast (rowNonzero psf P) (n + 1) row sr er
          = firstLast (rowNonzero psf P) n (row + 1) sr1 er1 →
        scanRows psf (n + 1) row sr er cm (P + row * psf.widthBytes)
          = scanRows psf n (row + 1) sr1 er1 cm1 (P + (row + 1) * psf.widthBytes) →
        ∃ cm', scanRows psf (n + 1) row sr er cm (P + row * psf.widthBytes)
          = some ((firstLast (rowNonzero psf P) (n + 1) row sr er).1,
                  (firstLast (rowNonzero psf P) (n + 1) row sr er).2, cm') ∧
        cm'.length = 4 ∧
        ∀ i, i < psf.widthBytes → ∀ k,
          ((cm'.getD i 0).testBit k = true ↔
            ((cm.getD i 0).testBit k = true ∨
              ∃ r, row ≤ r ∧ r < row + (n + 1) ∧
                (psf.data (P + r * psf.widthBytes + i)).val.testBit k = true)) := by
      intro sr1 er1 hfl hsc
      obtain ⟨cm', hrun, hl', hbits⟩ := ih (row + 1) sr1 er1 cm1 (by rw [hl1, hcm])
        (by rw [hmul1]; rw [hmul] at hin; exact hin)
      refine ⟨cm', by rw [hsc, hfl, hrun], hl', ?_⟩
      intro i hi k
      rw [hbits i hi k, hcmbits i hi k]
      constructor
      · rintro ((h | h) | ⟨r, h1, h2, h3⟩)
        · exact Or.inl h
        · exact Or.inr ⟨row, Nat.le_refl _, by omega, h⟩
        · exact Or.inr ⟨r, by omega, by omega, h3⟩
      · rintro (h | ⟨r, h1, h2, h3⟩)
        · exact Or.inl (Or.inl h)
        · by_cases hr : r = row
          · subst hr; exact Or.inl (Or.inr h3)
          · exact Or.inr ⟨r, by omega, by omega, h3⟩
    by_cases hused : rowNonzero psf P row = true
    · rw [hused] at hu'
      by_cases hs : sr = UINT8_MAX
      · apply key (u8 row) (u8 row)
        · simp only [firstLast, hused, hs, if_true]
        · simp only [scanRows, hrow, hu', hs, if_true]
      · apply key sr (u8 row)
        · simp only [firstLast, hused, hs, if_true, if_false]
        · simp only [scanRows, hrow, hu', hs, if_true, if_false]
    · have hused' : rowNonzero psf P row = false := by simpa using hused
      rw [hused'] at hu'
      apply key sr er
      · simp only [firstLast, hused', Bool.false_eq_true, if_false]
      · simp only [scanRows, hrow, hu', Bool.false_eq_true, if_false]

/-- The column loop: `startCol` and `endCol` are tracked by `firstLast` over the columns
whose `colMask` bit is set. -/
theorem scanCols_spec (cm : List Nat) (hcm : cm.length = 4) :
    ∀ (n col sc ec : Nat), col + n ≤ 32 →
      scanCols cm n col sc ec = some (firstLast (maskBit cm) n col sc ec) := by
  intro n
  induction n with
  | zero => intro col sc ec _; simp [scanCols, firstLast]
  | succ n ih =>
    intro col sc ec hin
    have hidx : col >>> 3 < cm.length := by
      rw [Nat.shiftRight_eq_div_pow, hcm]
      exact Nat.div_lt_of_lt_mul (by omega)
    have hget : cm[col >>> 3]? = some (cm[col >>> 3]) := List.getElem?_eq_getElem hidx
    have hmb : maskBit cm col
        = decide (cm[col >>> 3] &&& (1 <<< (7 - (col &&& 7))) ≠ 0) := by
      simp only [maskBit, hget]
    by_cases hb : cm[col >>> 3] &&& (1 <<< (7 - (col &&& 7))) ≠ 0
    · have hmb' : maskBit cm col = true := by rw [hmb]; exact decide_eq_true hb
      by_cases hs : sc = UINT8_MAX
      · simp only [scanCols, hget, hb, firstLast, hmb', hs, if_true, ne_eq,
          not_false_eq_true]
        exact ih (col + 1) _ _ (by omega)
      · simp only [scanCols, hget, hb, firstLast, hmb', hs, if_true, if_false, ne_eq,
          not_false_eq_true]
        exact ih (col + 1) _ _ (by omega)
    · have hmb' : maskBit cm col = false := by rw [hmb]; exact decide_eq_false hb
      simp only [scanCols, hget, hb, firstLast, hmb', if_false, Bool.false_eq_true]
      exact ih (col + 1) _ _ (by omega)

/-- The bits of `bitmapByte` after one pixel `b` was or-ed in at `wbit`. -/
theorem packed_byte_testBit (byte wbit : Nat) (b : Bool) (hb : byte < 256) (hw : wbit ≤ 7)
    (j : Nat) :
    (if b = true then u8 (byte ||| (1 <<< wbit)) else byte).testBit j
      = (byte.testBit j || (b && decide (wbit = j))) := by
  cases b with
  | false => simp
  | true =>
    have h1 : (1 : Nat) <<< wbit < 2 ^ 8 := by
      rw [Nat.one_shiftLeft]; exact Nat.pow_lt_pow_right (by omega) (by omega)
    have h2 : byte ||| (1 <<< wbit) < 2 ^ 8 := Nat.or_lt_two_pow (by omega) h1
    have h3 : u8 (byte ||| (1 <<< wbit)) = byte ||| (1 <<< wbit) := by
      unfold u8; omega
    rw [if_pos rfl, h3, Nat.testBit_or, Nat.one_shiftLeft, Nat.testBit_two_pow]
    simp

/-- `bitmapByte` stays a byte when a pixel is or-ed in. -/
theorem packed_byte_lt (byte wbit : Nat) (b : Bool) (hb : byte < 256) :
    (if b = true then u8 (byte ||| (1 <<< wbit)) else byte) < 256 := by
  cases b with
  | false => simpa using hb
  | true =>
    simp only [if_true, u8]
    omega

/-- One pixel of the repacking loop keeps the invariant. -/
theorem packInv_step (bo0 : Nat) (bits : Nat → Bool) (k : Nat) (s : Packer) (b : Bool)
    (hinv : PackInv bo0 bits k s) (hb : bits k = b) :
    PackInv bo0 bits (k + 1)
      (if s.wbit = 0 then
        ⟨7, 0, u16 (s.bitmapOffset + 1),
          s.out ++ [if b = true then u8 (s.bitmapByte ||| (1 <<< s.wbit)) else s.bitmapByte]⟩
       else
        ⟨s.wbit - 1, if b = true then u8 (s.bitmapByte ||| (1 <<< s.wbit)) else s.bitmapByte,
          s.bitmapOffset, s.out⟩) := by
  obtain ⟨hw, hl, ho, hlt, hlow, hbits⟩ := hinv
  have hw7 : s.wbit ≤ 7 := by omega
  have hnb := packed_byte_testBit s.bitmapByte s.wbit b hlt hw7
  have hnlt := packed_byte_lt s.bitmapByte s.wbit b hlt
  generalize (if b = true then u8 (s.bitmapByte ||| (1 <<< s.wbit)) else s.bitmapByte)
    = nb at hnb hnlt
  have hold : ∀ n, n < k → n / 8 < k / 8 →
      emittedBit (s.out ++ [s.bitmapByte]) n = (s.out.getD (n / 8) 0).testBit (7 - n % 8) := by
    intro n _ hq
    unfold emittedBit
    rw [List.getD_append _ _ _ _ (by omega)]
  have hcur : ∀ n, n < k → n / 8 = k / 8 →
      emittedBit (s.out ++ [s.bitmapByte]) n = s.bitmapByte.testBit (7 - n % 8) := by
    intro n _ hq
    unfold emittedBit
    rw [List.getD_append_right _ _ _ _ (by omega)]
    simp [hq, hl]
  by_cases h0 : s.wbit = 0
  · rw [if_pos h0]
    have hm : k % 8 = 7 := by omega
    refine ⟨by simp only; omega, by simp only [List.length_append, List.length_singleton]; omega,
      by simp only; rw [ho]; unfold u16; omega, by simp only; omega, ?_, ?_⟩
    · intro j _
      exact Nat.zero_testBit j
    · intro n hn
      simp only
      have hq : n / 8 ≤ k / 8 := Nat.div_le_div_right (by omega)
      unfold emittedBit
      rw [List.getD_append _ _ _ _ (by simp only [List.length_append, List.length_singleton]; omega)]
      by_cases hq' : n / 8 < k / 8
      · rw [List.getD_append _ _ _ _ (by omega)]
        rw [← hbits n (by omega), hold n (by omega) hq']
      · rw [List.getD_append_right _ _ _ _ (by omega)]
        have hqe : n / 8 = k / 8 := by omega
        simp only [hqe, hl, Nat.sub_self, List.getD_cons_zero]
        rw [hnb]
        by_cases hnk : n = k
        · subst hnk
          rw [hlow _ (by omega), hb]
          simp
          omega
        · have hne : ¬ s.wbit = 7 - n % 8 := by omega
          rw [← hbits n (by omega), hcur n (by omega) hqe]
          simp [hne]
  · rw [if_neg h0]
    have hm : k % 8 < 7 := by omega
    refine ⟨by simp only; omega, by simp only; omega,
      by simp only; rw [ho]; congr 2; omega, hnlt, ?_, ?_⟩
    · intro j hj
      simp only at hj
      simp only
      rw [hnb, hlow j (by omega)]
      have : ¬ s.wbit = j := by omega
      simp [this]
    · intro n hn
      simp only
      have hq : n / 8 ≤ k / 8 := Nat.div_le_div_right (by omega)
      unfold emittedBit
      by_cases hq' : n / 8 < k / 8
      · rw [List.getD_append _ _ _ _ (by omega)]
        rw [← hbits n (by omega), hold n (by omega) hq']
      · rw [List.getD_append_right _ _ _ _ (by omega)]
        have hqe : n / 8 = k / 8 := by omega
        simp only [hqe, hl, Nat.sub_self, List.getD_cons_zero]
        rw [hnb]
        by_cases hnk : n = k
        · subst hnk
          rw [hlow _ (by omega), hb]
          simp
          omega
        · have hne : ¬ s.wbit = 7 - n % 8 := by omega
          rw [← hbits n (by omega), hcur n (by omega) hqe]
          simp [hne]

/-- The columns of one crop row append their pixels to the packed bits. -/
theorem packCols_spec (psf : PSF) (p bo0 : Nat) (bits : Nat → Bool) :
    ∀ (n col k : Nat) (s : Packer),
      (∀ c, col ≤ c → c < col + n → p + (c >>> 3) < psf.dataLen) →
      (∀ i, i < n → bits (k + i) = pixelAt psf p (col + i)) →
      PackInv bo0 bits k s →
      ∃ s', packCols psf p n col s = some s' ∧ PackInv bo0 bits (k + n) s' := by
  intro n
  induction n with
  | zero => intro col k s _ _ hinv; exact ⟨s, by simp [packCols], by simpa using hinv⟩
  | succ n ih =>
    intro col k s hin hbits hinv
    have hread : psf.read (p + (col >>> 3)) = some (psf.data (p + (col >>> 3))).val := by
      unfold PSF.read
      rw [if_pos (hin col (Nat.le_refl _) (by omega))]
    have hb : bits k = pixelAt psf p col := by simpa using hbits 0 (by omega)
    have hstep := packInv_step bo0 bits k s (pixelAt psf p col) hinv hb
    have hcond : (pixelAt psf p col = true)
        ↔ ((psf.data (p + (col >>> 3))).val &&& (1 <<< (7 - (col &&& 7))) ≠ 0) := by
      simp [pixelAt]
    obtain ⟨s', hrun, hinv'⟩ := ih (col + 1) (k + 1) _
      (fun c h1 h2 => hin c (by omega) (by omega))
      (fun i hi => by
        have := hbits (i + 1) (by omega)
        rwa [show k + (i + 1) = k + 1 + i by omega,
          show col + (i + 1) = col + 1 + i by omega] at this)
      hstep
    refine ⟨s', ?_, by rwa [show k + (n + 1) = k + 1 + n by omega]⟩
    rw [← hrun]
    simp only [packCols, hread]
    by_cases hpx : pixelAt psf p col = true
    · have hc := hcond.mp hpx
      simp only [hpx, hc, if_true, ne_eq, not_false_eq_true]
      split_ifs <;> rfl
    · have hc : ¬ ((psf.data (p + (col >>> 3))).val &&& (1 <<< (7 - (col &&& 7))) ≠ 0) :=
        fun h => hpx (hcond.mpr h)
      simp only [hpx, hc, if_false]
      split_ifs <;> first | rfl | contradiction

/-- The rows of the crop append their pixels, row after row, to the packed bits. -/
theorem packRows_spec (psf : PSF) (startCol endCol bo0 : Nat) (bits : Nat → Bool)
    (hlen : psf.dataLen < 65536)
    (hcols : ∀ c, startCol ≤ c → c ≤ endCol → c >>> 3 < psf.widthBytes) :
    ∀ (n p k : Nat) (s : Packer),
      p + n * psf.widthBytes ≤ psf.dataLen →
      (∀ i, i < n → ∀ j, j < endCol + 1 - startCol →
        bits (k + i * (endCol + 1 - startCol) + j)
          = pixelAt psf (p + i * psf.widthBytes) (startCol + j)) →
      PackInv bo0 bits k s →
      ∃ s', packRows psf startCol endCol n p s = some s' ∧
        PackInv bo0 bits (k + n * (endCol + 1 - startCol)) s' := by
  intro n
  induction n with
  | zero => intro p k s _ _ hinv; exact ⟨s, by simp [packRows], by simpa using hinv⟩
  | succ n ih =>
    intro p k s hin hbits hinv
    have hmul : (n + 1) * psf.widthBytes = psf.widthBytes + n * psf.widthBytes := by ring
    rw [hmul] at hin
    obtain ⟨s1, hrun1, hinv1⟩ := packCols_spec psf p bo0 bits (endCol + 1 - startCol)
      startCol k s
      (fun c h1 h2 => by
        have := hcols c h1 (by omega)
        omega)
      (fun j hj => by
        have := hbits 0 (by omega) j hj
        simpa using this)
      hinv
    have hu : u16 (p + psf.widthBytes) = p + psf.widthBytes := by unfold u16; omega
    obtain ⟨s', hrun, hinv'⟩ := ih (p + psf.widthBytes) (k + (endCol + 1 - startCol)) s1
      (by omega)
      (fun i hi j hj => by
        have := hbits (i + 1) (by omega) j hj
        rw [show (i + 1) * (endCol + 1 - startCol)
          = (endCol + 1 - startCol) + i * (endCol + 1 - startCol) by ring,
          show (i + 1) * psf.widthBytes = psf.widthBytes + i * psf.widthBytes by ring] at this
        rw [← Nat.add_assoc, ← Nat.add_assoc] at this
        exact this)
      hinv1
    refine ⟨s', ?_, ?_⟩
    · simp only [packRows, hrun1, hu, hrun]
    · rw [show k + (n + 1) * (endCol + 1 - startCol)
        = k + (endCol + 1 - startCol) + n * (endCol + 1 - startCol) by ring]
      exact hinv'

/-- After the final flush the glyph has `ceil(k / 8)` bytes, `bitmapOffset` has advanced
by that many, and bit `n` of the bytes is pixel `n`. -/
theorem flushPacker_spec (bo0 : Nat) (bits : Nat → Bool) (k : Nat) (s : Packer)
    (hinv : PackInv bo0 bits k s) :
    (flushPacker s).out.length = (k + 7) / 8 ∧
    (flushPacker s).bitmapOffset = u16 (bo0 + (k + 7) / 8) ∧
    ∀ n, n < k → emittedBit (flushPacker s).out n = bits n := by
  obtain ⟨hw, hl, ho, hlt, hlow, hbits⟩ := hinv
  by_cases h7 : s.wbit = 7
  · have hf : flushPacker s = s := by simp [flushPacker, h7]
    rw [hf]
    refine ⟨by omega, by rw [ho]; congr 2; omega, ?_⟩
    intro n hn
    rw [← hbits n hn]
    unfold emittedBit
    rw [List.getD_append _ _ _ _ (by omega)]
  · have hf : flushPacker s
        = ⟨s.wbit, s.bitmapByte, u16 (s.bitmapOffset + 1), s.out ++ [s.bitmapByte]⟩ := by
      simp [flushPacker, h7]
    rw [hf]
    refine ⟨by simp only [List.length_append, List.length_singleton]; omega,
      by simp only; rw [ho]; unfold u16; omega, ?_⟩
    intro n hn
    exact hbits n hn

/-- The pixel test is the test of bit `7 - (c & 7)` of byte `c >> 3`. -/
theorem pixelAt_eq_testBit (psf : PSF) (p c : Nat) :
    pixelAt psf p c = (psf.data (p + (c >>> 3))).val.testBit (7 - (c &&& 7)) := by
  unfold pixelAt
  cases h : (psf.data (p + (c >>> 3))).val.testBit (7 - (c &&& 7))
  · apply decide_eq_false
    rw [and_shift_ne_zero, h]
    simp
  · apply decide_eq_true
    rw [and_shift_ne_zero, h]

/-- Inside the bytes that were read, the pixel of the glyph is the pixel test of its
row. -/
theorem srcPixel_eq_pixelAt (psf : PSF) (charCode row col : Nat)
    (hlen : psf.dataLen < 65536)
    (hin : u16 (psf.glyphDataOffset + charCode * psf.charSize) + row * psf.widthBytes
      + (col >>> 3) < psf.dataLen) :
    srcPixel psf charCode row col
      = pixelAt psf (u16 (psf.glyphDataOffset + charCode * psf.charSize)
          + row * psf.widthBytes) col := by
  have hu : u16 (u16 (psf.glyphDataOffset + charCode * psf.charSize) + row * psf.widthBytes)
      = u16 (psf.glyphDataOffset + charCode * psf.charSize) + row * psf.widthBytes := by
    generalize u16 (psf.glyphDataOffset + charCode * psf.charSize) = P at hin ⊢
    unfold u16; omega
  unfold srcPixel pixelAt
  rw [hu]
  unfold PSF.read
  rw [if_pos hin]
  simp only
  by_cases h : (psf.data (u16 (psf.glyphDataOffset + charCode * psf.charSize)
      + row * psf.widthBytes + (col >>> 3))).val &&& (1 <<< (7 - (col &&& 7))) = 0
  · simp [h]
  · simp [h]

/-- A column within `wb` row bytes has its byte index `c >> 3` below `wb`. -/
theorem shiftRight3_lt (c wb : Nat) (h : c < 8 * wb) : c >>> 3 < wb := by
  rw [Nat.shiftRight_eq_div_pow]
  exact Nat.div_lt_of_lt_mul (by omega)

/-- Every entry of the cleared `colMask` is zero. -/
theorem zeros_getD (i : Nat) : ([0, 0, 0, 0] : List Nat).getD i 0 = 0 := by
  rcases i with _ | _ | _ | _ | _ <;> rfl

/-- The crop of one glyph with at least one foreground pixel, when its rows lie inside
the bytes that were read, they are at most 128, and the width is within the row bytes:
the entry is a box `w x h` at `(x0, y0)` inside the raster, the glyph prints
`ceil(w * h / 8)` bytes whose bits are the source pixels of the box in row-major order,
and no foreground pixel lies outside the box. -/
theorem cropGlyph_spec (psf : PSF) (charCode bo : Nat)
    (hlen : psf.dataLen < 65536) (hbo : bo < 65536)
    (hwb : psf.widthBytes ≤ maxPsfByteWidth) (hw : psf.width ≤ 8 * psf.widthBytes)
    (hh : psf.height ≤ 128)
    (hin : u16 (psf.glyphDataOffset + charCode * psf.charSize)
      + psf.height * psf.widthBytes ≤ psf.dataLen)
    (hfg : ∃ row col, row < psf.height ∧ col < psf.width ∧
      srcPixel psf charCode row col = true) :
    ∃ x0 y0 w h : Nat, ∃ bytes : List Nat,
      cropGlyph psf charCode bo
        = some (⟨bo, w, h, psf.width, (x0 : Int), (y0 : Int)⟩, bytes,
            u16 (bo + bytes.length)) ∧
      1 ≤ w ∧ 1 ≤ h ∧ x0 + w ≤ psf.width ∧ y0 + h ≤ psf.height ∧
      bytes.length = (w * h + 7) / 8 ∧
      (∀ i j, i < h → j < w →
        emittedBit bytes (i * w + j) = srcPixel psf charCode (y0 + i) (x0 + j)) ∧
      (∀ row col, row < psf.height → col < psf.width →
        srcPixel psf charCode row col = true →
        y0 ≤ row ∧ row < y0 + h ∧ x0 ≤ col ∧ col < x0 + w) ∧
      (∃ row, row < psf.height ∧ srcPixel psf charCode row x0 = true) ∧
      (∃ row, row < psf.height ∧ srcPixel psf charCode row (x0 + w - 1) = true) ∧
      rowNonzero psf (u16 (psf.glyphDataOffset + charCode * psf.charSize)) y0 = true ∧
      rowNonzero psf (u16 (psf.glyphDataOffset + charCode * psf.charSize)) (y0 + h - 1)
        = true := by
  obtain ⟨P, hP⟩ : ∃ P, P = u16 (psf.glyphDataOffset + charCode * psf.charSize) := ⟨_, rfl⟩
  rw [← hP] at hin ⊢
  unfold maxPsfByteWidth at hwb
  have hW32 : psf.width ≤ 32 := by omega
  -- reads of pixels inside the raster are inside the data
  have hrowmul : ∀ row, row < psf.height →
      row * psf.widthBytes + psf.widthBytes ≤ psf.height * psf.widthBytes := by
    intro row hrow
    have := Nat.mul_le_mul_right psf.widthBytes (show row + 1 ≤ psf.height by omega)
    rw [Nat.add_mul, Nat.one_mul] at this
    exact this
  have hpin : ∀ row col, row < psf.height → col < psf.width →
      P + row * psf.widthBytes + (col >>> 3) < psf.dataLen := by
    intro row col hrow hcol
    have h1 := hrowmul row hrow
    have h2 := shiftRight3_lt col psf.widthBytes (by omega)
    omega
  have hsp : ∀ row col, row < psf.height → col < psf.width →
      srcPixel psf charCode row col = pixelAt psf (P + row * psf.widthBytes) col := by
    intro row col hrow hcol
    rw [hP]
    apply srcPixel_eq_pixelAt psf charCode row col hlen
    rw [← hP]
    exact hpin row col hrow hcol
  have hnz : ∀ row col, col < psf.width → pixelAt psf (P + row * psf.widthBytes) col = true →
      rowNonzero psf P row = true := by
    intro row col hcol hpx
    unfold rowNonzero
    apply decide_eq_true
    refine ⟨col >>> 3, shiftRight3_lt col psf.widthBytes (by omega), ?_⟩
    rw [pixelAt_eq_testBit] at hpx
    intro h0
    rw [h0, Nat.zero_testBit] at hpx
    cases hpx
  -- the row loop
  obtain ⟨cm, hrows, hcml, hcmbits⟩ := scanRows_spec psf P hlen hwb psf.height 0
    UINT8_MAX UINT8_MAX [0, 0, 0, 0] rfl (by rw [Nat.zero_add]; exact hin)
  rw [Nat.zero_mul, Nat.add_zero] at hrows
  obtain ⟨-, hfl⟩ := firstLast_spec (rowNonzero psf P) psf.height 0 UINT8_MAX UINT8_MAX
    (by omega)
  obtain ⟨row0, col0, hrow0, hcol0, hpx0⟩ := hfg
  rw [hsp row0 col0 hrow0 hcol0] at hpx0
  obtain ⟨⟨-, her, heru, herl⟩, -, hsr⟩ :=
    hfl ⟨row0, Nat.zero_le _, by omega, hnz row0 col0 hcol0 hpx0⟩
  obtain ⟨-, hsrlt, hsru, hsrl⟩ := hsr rfl
  generalize (firstLast (rowNonzero psf P) psf.height 0 UINT8_MAX UINT8_MAX).1 = sr at *
  generalize (firstLast (rowNonzero psf P) psf.height 0 UINT8_MAX UINT8_MAX).2 = er at *
  rw [Nat.zero_add] at her herl hsrlt
  have hsrer : sr ≤ er := by
    by_contra hc
    have := herl sr (by omega) hsrlt
    rw [hsru] at this
    cases this
  -- the column mask
  have hmask : ∀ c, c < psf.width →
      (maskBit cm c = true ↔ ∃ r, r < psf.height ∧
        pixelAt psf (P + r * psf.widthBytes) c = true) := by
    intro c hc
    have hidx := shiftRight3_lt c psf.widthBytes (by omega)
    have hget : cm[c >>> 3]? = some (cm.getD (c >>> 3) 0) := by
      rw [List.getD_eq_getElem?_getD, List.getElem?_eq_getElem (by omega)]
      rfl
    have hmb : maskBit cm c = (cm.getD (c >>> 3) 0).testBit (7 - (c &&& 7)) := by
      simp only [maskBit, hget]
      cases h : (cm.getD (c >>> 3) 0).testBit (7 - (c &&& 7))
      · apply decide_eq_false
        rw [and_shift_ne_zero, h]
        simp
      · apply decide_eq_true
        rw [and_shift_ne_zero, h]
    rw [hmb, hcmbits (c >>> 3) hidx]
    constructor
    · rintro (h | ⟨r, -, hr, h⟩)
      · rw [zeros_getD, Nat.zero_testBit] at h
        cases h
      · exact ⟨r, by omega, by rw [pixelAt_eq_testBit]; exact h⟩
    · rintro ⟨r, hr, h⟩
      exact Or.inr ⟨r, Nat.zero_le _, by omega, by rw [pixelAt_eq_testBit] at h; exact h⟩
  -- the column loop
  have hcols : scanCols cm psf.width 0 UINT8_MAX UINT8_MAX
      = some ((firstLast (maskBit cm) psf.width 0 UINT8_MAX UINT8_MAX).1,
              (firstLast (maskBit cm) psf.width 0 UINT8_MAX UINT8_MAX).2) := by
    rw [scanCols_spec cm hcml psf.width 0 UINT8_MAX UINT8_MAX (by omega)]
  obtain ⟨-, hflc⟩ := firstLast_spec (maskBit cm) psf.width 0 UINT8_MAX UINT8_MAX (by omega)
  obtain ⟨⟨-, hec, hecu, hecl⟩, -, hsc⟩ :=
    hflc ⟨col0, Nat.zero_le _, by omega, (hmask col0 hcol0).mpr ⟨row0, hrow0, hpx0⟩⟩
  obtain ⟨-, hsclt, hscu, hscl⟩ := hsc rfl
  generalize (firstLast (maskBit cm) psf.width 0 UINT8_MAX UINT8_MAX).1 = sc at *
  generalize (firstLast (maskBit cm) psf.width 0 UINT8_MAX UINT8_MAX).2 = ec at *
  rw [Nat.zero_add] at hec hecl hsclt
  have hscec : sc ≤ ec := by
    by_contra hc
    have := hecl sc (by omega) hsclt
    rw [hscu] at this
    cases this
  -- the repacking loop
  have hwpos : 0 < ec + 1 - sc := by omega
  have hu : u16 (P + sr * psf.widthBytes) = P + sr * psf.widthBytes := by
    have := hrowmul sr hsrlt
    unfold u16; omega
  have hinv0 : PackInv bo (fun n => pixelAt psf
      (P + (sr + n / (ec + 1 - sc)) * psf.widthBytes) (sc + n % (ec + 1 - sc))) 0
      ⟨7, 0, bo, []⟩ := by
    refine ⟨rfl, rfl, by simp only; unfold u16; omega, by simp only; omega, ?_, ?_⟩
    · intro j _; exact Nat.zero_testBit j
    · intro n hn; omega
  obtain ⟨s, hpack, hinv⟩ := packRows_spec psf sc ec bo _ hlen
    (fun c _ h2 => shiftRight3_lt c psf.widthBytes (by omega))
    (er + 1 - sr) (P + sr * psf.widthBytes) 0 ⟨7, 0, bo, []⟩
    (by
      have h1 := hrowmul er her
      have h2 : sr * psf.widthBytes + (er + 1 - sr) * psf.widthBytes
          = er * psf.widthBytes + psf.widthBytes := by
        rw [← Nat.add_mul, ← Nat.succ_mul]
        congr 1
        omega
      omega)
    (by
      intro i _ j hj
      simp only [Nat.zero_add]
      have h1 : (i * (ec + 1 - sc) + j) / (ec + 1 - sc) = i := by
        rw [Nat.add_comm, Nat.add_mul_div_right _ _ hwpos, Nat.div_eq_of_lt hj,
          Nat.zero_add]
      have h2 : (i * (ec + 1 - sc) + j) % (ec + 1 - sc) = j := by
        rw [Nat.add_comm, Nat.add_mul_mod_self_right, Nat.mod_eq_of_lt hj]
      rw [h1, h2, Nat.add_mul, Nat.add_assoc])
    hinv0
  rw [Nat.zero_add] at hinv
  obtain ⟨hflen, hfbo, hfbits⟩ := flushPacker_spec bo _ _ s hinv
  -- the entry
  have hsrne : ¬ sr = UINT8_MAX := by unfold UINT8_MAX; omega
  have hwd : u8OfInt ((ec : Int) - sc + 1) = ec + 1 - sc := by
    unfold u8OfInt; omega
  have hht : u8OfInt ((er : Int) - sr + 1) = er + 1 - sr := by
    unfold u8OfInt; omega
  have hxa : u8 psf.width = psf.width := by unfold u8; omega
  have hx : i8 sc = (sc : Int) := by
    unfold i8; rw [if_pos (by omega)]; congr 1; omega
  have hy : i8 sr = (sr : Int) := by
    unfold i8; rw [if_pos (by omega)]; congr 1; omega
  have hmulc : (er + 1 - sr) * (ec + 1 - sc) = (ec + 1 - sc) * (er + 1 - sr) :=
    Nat.mul_comm _ _
  refine ⟨sc, sr, ec + 1 - sc, er + 1 - sr, (flushPacker s).out, ?_, by omega, by omega,
    by omega, by omega, by rw [hflen, hmulc], ?_, ?_, ?_, ?_, ?_, ?_⟩
  · unfold cropGlyph
    simp only [← hP, hrows, hsrne, if_false, hcols, hu, hpack, hwd, hht, hxa, hx, hy]
    rw [hfbo, hflen]
  · intro i j hi hj
    have hk : i * (ec + 1 - sc) + j < (er + 1 - sr) * (ec + 1 - sc) := by
      have := Nat.mul_le_mul_right (ec + 1 - sc) (show i + 1 ≤ er + 1 - sr by omega)
      rw [Nat.add_mul, Nat.one_mul] at this
      omega
    rw [hfbits _ hk, hsp (sr + i) (sc + j) (by omega) (by omega)]
    have h1 : (i * (ec + 1 - sc) + j) / (ec + 1 - sc) = i := by
      rw [Nat.add_comm, Nat.add_mul_div_right _ _ hwpos, Nat.div_eq_of_lt hj,
        Nat.zero_add]
    have h2 : (i * (ec + 1 - sc) + j) % (ec + 1 - sc) = j := by
      rw [Nat.add_comm, Nat.add_mul_mod_self_right, Nat.mod_eq_of_lt hj]
    rw [h1, h2]
  · intro row col hrow hcol hpx
    rw [hsp row col hrow hcol] at hpx
    have hru := hnz row col hcol hpx
    have hcu := (hmask col hcol).mpr ⟨row, hrow, hpx⟩
    have a1 : sr ≤ row := by
      by_contra hc
      have := hsrl row (Nat.zero_le _) (by omega)
      rw [hru] at this; cases this
    have a2 : row ≤ er := by
      by_contra hc
      have := herl row (by omega) hrow
      rw [hru] at this; cases this
    have a3 : sc ≤ col := by
      by_contra hc
      have := hscl col (Nat.zero_le _) (by omega)
      rw [hcu] at this; cases this
    have a4 : col ≤ ec := by
      by_contra hc
      have := hecl col (by omega) hcol
      rw [hcu] at this; cases this
    omega
  · obtain ⟨r, hr, h⟩ := (hmask sc hsclt).mp hscu
    exact ⟨r, hr, by rw [hsp r sc hr hsclt]; exact h⟩
  · obtain ⟨r, hr, h⟩ := (hmask ec hec).mp hecu
    refine ⟨r, hr, ?_⟩
    rw [show sc + (ec + 1 - sc) - 1 = ec by omega, hsp r ec hr hec]
    exact h
  · exact hsru
  · rw [show sr + (er + 1 - sr) - 1 = er by omega]
    exact heru

/-- The glyph loop, when every iteration succeeds with at most `M` bytes and the total
stays below `2 ^ 16`: entry `j` and block `j` are those of iteration `i0 + j`, and the
`bitmapOffset` of entry `j` is the number of bytes of the blocks before it. -/
theorem glyphLoop_spec (psf : PSF) (Q : Nat → GFXglyph → List Nat → Prop) (M : Nat)
    (hstep : ∀ i bo, i < 95 → bo < 65536 →
      ∃ g bytes, cropGlyph psf (first + i) bo = some (g, bytes, u16 (bo + bytes.length)) ∧
        g.bitmapOffset = bo ∧ bytes.length ≤ M ∧ Q i g bytes) :
    ∀ (n i0 bo0 : Nat), i0 + n ≤ 95 → bo0 + n * M < 65536 →
      ∃ gs bs, glyphLoop psf n i0 bo0 = some (gs, bs) ∧ gs.length = n ∧ bs.length = n ∧
        ∀ j, j < n → ∃ g bytes, gs[j]? = some g ∧ bs[j]? = some bytes ∧
          Q (i0 + j) g bytes ∧
          g.bitmapOffset = bo0 + ((bs.take j).map List.length).sum := by
  intro n
  induction n with
  | zero =>
    intro i0 bo0 _ _
    exact ⟨[], [], by simp [glyphLoop], rfl, rfl, fun j hj => by omega⟩
  | succ n ih =>
    intro i0 bo0 hi hbo
    have hmul : (n + 1) * M = n * M + M := by ring
    rw [hmul] at hbo
    obtain ⟨g, bytes, hcrop, hgo, hlen, hq⟩ := hstep i0 bo0 (by omega) (by omega)
    have hu : u16 (bo0 + bytes.length) = bo0 + bytes.length := by unfold u16; omega
    rw [hu] at hcrop
    obtain ⟨gs, bs, hloop, hgl, hbl, hall⟩ := ih (i0 + 1) (bo0 + bytes.length) (by omega)
      (by omega)
    refine ⟨g :: gs, bytes :: bs, by simp only [glyphLoop, hcrop, hloop], by simp [hgl],
      by simp [hbl], ?_⟩
    intro j hj
    cases j with
    | zero => exact ⟨g, bytes, by simp, by simp, hq, by simpa using hgo⟩
    | succ j =>
      obtain ⟨g', bytes', h1, h2, h3, h4⟩ := hall j (by omega)
      refine ⟨g', bytes', by simpa using h1, by simpa using h2,
        by rwa [show i0 + (j + 1) = i0 + 1 + j by omega], ?_⟩
      rw [h4]
      simp only [List.take_succ_cons, List.map_cons, List.sum_cons]
      omega

/-- A byte whose eight bits are clear is zero. -/
theorem byte_eq_zero_of_bits (b : Nat) (hb : b < 256)
    (h : ∀ t, t < 8 → b.testBit (7 - t) = false) : b = 0 := by
  have hall : ∀ i, i ≥ 0 → b.testBit i = false := by
    intro i _
    by_cases hi : i < 8
    · have := h (7 - i) (by omega)
      rwa [show 7 - (7 - i) = i by omega] at this
    · apply Nat.testBit_lt_two_pow
      calc b < 2 ^ 8 := hb
        _ ≤ 2 ^ i := Nat.pow_le_pow_right (by omega) (by omega)
  have := Nat.lt_pow_two_of_testBit b hall
  omega

/-- The pixel of column `8 * j + t` is bit `7 - t` of byte `j` of the row. -/
theorem pixelAt_byte_bit (psf : PSF) (p j t : Nat) (ht : t < 8) :
    pixelAt psf p (8 * j + t) = (psf.data (p + j)).val.testBit (7 - t) := by
  rw [pixelAt_eq_testBit]
  have h1 : (8 * j + t) >>> 3 = j := by
    rw [Nat.shiftRight_eq_div_pow]
    omega
  have h2 : (8 * j + t) &&& 7 = t := by
    have := Nat.and_pow_two_sub_one_eq_mod (8 * j + t) 3
    simp only [Nat.reducePow, Nat.add_one_sub_one] at this
    rw [this]
    omega
  rw [h1, h2]

/-- The crop of one glyph whose rows lie inside the bytes that were read, in a font of
at most 128 rows whose width is within its row bytes, when the glyph has no set padding
bit. -/
theorem cropGlyph_cropSpec (psf : PSF) (charCode bo : Nat)
    (hlen : psf.dataLen < 65536) (hbo : bo < 65536)
    (hwb : psf.widthBytes ≤ maxPsfByteWidth) (hw : psf.width ≤ 8 * psf.widthBytes)
    (hh : psf.height ≤ 128)
    (hin : u16 (psf.glyphDataOffset + charCode * psf.charSize)
      + psf.height * psf.widthBytes ≤ psf.dataLen)
    (hpad : NoPadding psf charCode) :
    ∃ g bytes, cropGlyph psf charCode bo = some (g, bytes, u16 (bo + bytes.length)) ∧
      g.bitmapOffset = bo ∧ bytes.length ≤ psf.height * psf.widthBytes ∧
      CropSpec psf charCode g bytes := by
  have hwb4 : psf.widthBytes ≤ 4 := hwb
  have hW32 : psf.width ≤ 32 := by omega
  have hrowmul : ∀ row, row < psf.height →
      row * psf.widthBytes + psf.widthBytes ≤ psf.height * psf.widthBytes := by
    intro row hrow
    have := Nat.mul_le_mul_right psf.widthBytes (show row + 1 ≤ psf.height by omega)
    rw [Nat.add_mul, Nat.one_mul] at this
    exact this
  -- every bit of every row byte is a pixel test
  have hsp : ∀ row c, row < psf.height → c < 8 * psf.widthBytes →
      srcPixel psf charCode row c
        = pixelAt psf (u16 (psf.glyphDataOffset + charCode * psf.charSize)
            + row * psf.widthBytes) c := by
    intro row c hrow hc
    apply srcPixel_eq_pixelAt psf charCode row c hlen
    have h1 := hrowmul row hrow
    have h2 := shiftRight3_lt c psf.widthBytes hc
    omega
  -- a nonzero byte in a row gives a foreground pixel in that row
  have hrowpix : ∀ row, row < psf.height →
      rowNonzero psf (u16 (psf.glyphDataOffset + charCode * psf.charSize)) row = true →
      ∃ col, col < psf.width ∧ srcPixel psf charCode row col = true := by
    intro row hrow hnz
    unfold rowNonzero at hnz
    obtain ⟨j, hj, hne⟩ := of_decide_eq_true hnz
    by_contra hcon
    apply hne
    apply byte_eq_zero_of_bits _ (psf.data _).isLt
    intro t ht
    rw [← pixelAt_byte_bit psf _ j t ht, ← hsp row (8 * j + t) hrow (by omega)]
    by_cases hc : 8 * j + t < psf.width
    · by_contra hx
      exact hcon ⟨8 * j + t, hc, by simpa using hx⟩
    · exact hpad row (8 * j + t) hrow (by omega) (by omega)
  by_cases hfg : ∃ row col, row < psf.height ∧ col < psf.width ∧
      srcPixel psf charCode row col = true
  · -- a glyph with a foreground pixel
    obtain ⟨x0, y0, w, h, bytes, hcrop, hw1, hh1, hxw, hyh, hlenb, hbits, hbox, hleft,
      hright, htop, hbot⟩ :=
      cropGlyph_spec psf charCode bo hlen hbo hwb hw hh hin hfg
    refine ⟨_, bytes, hcrop, rfl, ?_, rfl, hlenb, ?_, ?_⟩
    · rw [hlenb]
      have h1 : w * h ≤ (8 * psf.widthBytes) * psf.height :=
        Nat.mul_le_mul (by omega) (by omega)
      have h2 : (8 * psf.widthBytes) * psf.height = 8 * (psf.height * psf.widthBytes) := by
        ring
      omega
    · intro hnone
      obtain ⟨row, col, h1, h2, h3⟩ := hfg
      rw [hnone row col h1 h2] at h3
      cases h3
    · intro _
      refine ⟨x0, y0, rfl, rfl, hw1, hh1, hxw, hyh, hbits, hbox, hleft, hright,
        hrowpix y0 (by omega) htop, hrowpix (y0 + h - 1) (by omega) hbot⟩
  · -- a glyph without foreground pixel: all its bytes are zero
    have hnone : ∀ row col, row < psf.height → col < psf.width →
        srcPixel psf charCode row col = false := by
      intro row col h1 h2
      by_contra hx
      exact hfg ⟨row, col, h1, h2, by simpa using hx⟩
    have hzero : ∀ k, k < psf.height * psf.widthBytes →
        psf.read (u16 (psf.glyphDataOffset + charCode * psf.charSize) + k) = some 0 := by
      intro k hk
      unfold PSF.read
      rw [if_pos (by omega)]
      congr 1
      have hwbpos : 0 < psf.widthBytes := by
        by_contra hc
        have : psf.widthBytes = 0 := by omega
        rw [this] at hk
        omega
      have hrow : k / psf.widthBytes < psf.height :=
        Nat.div_lt_of_lt_mul (by rwa [Nat.mul_comm] at hk)
      have hj : k % psf.widthBytes < psf.widthBytes := Nat.mod_lt _ hwbpos
      have hk' : k = k / psf.widthBytes * psf.widthBytes + k % psf.widthBytes := by
        rw [Nat.mul_comm]; exact (Nat.div_add_mod k psf.widthBytes).symm
      apply byte_eq_zero_of_bits _ (psf.data _).isLt
      intro t ht
      have hb := pixelAt_byte_bit psf
        (u16 (psf.glyphDataOffset + charCode * psf.charSize)
          + k / psf.widthBytes * psf.widthBytes) (k % psf.widthBytes) t ht
      rw [Nat.add_assoc, ← hk'] at hb
      rw [← hb, ← hsp (k / psf.widthBytes) (8 * (k % psf.widthBytes) + t) hrow (by omega)]
      by_cases hc : 8 * (k % psf.widthBytes) + t < psf.width
      · exact hnone _ _ hrow hc
      · exact hpad _ _ hrow (by omega) (by omega)
    have hcrop := cropGlyph_zero psf charCode bo (by omega) hzero
    have hxa : u8 psf.width = psf.width := by unfold u8; omega
    rw [hxa] at hcrop
    have hu : u16 (bo + ([] : List Nat).length) = bo := by
      simp only [List.length_nil, Nat.add_zero]
      unfold u16; omega
    refine ⟨⟨bo, 0, 0, psf.width, 0, 0⟩, [], by rw [hcrop, hu], rfl, Nat.zero_le _, rfl,
      by simp, ?_, ?_⟩
    · intro _
      exact ⟨rfl, rfl, rfl, rfl, rfl⟩
    · intro hex
      exact absurd hex hfg

/-- The glyph loop over a font whose first `last + 1` glyphs lie inside the bytes that
were read, with `widthBytes` at most `maxPsfByteWidth`, `width` within `widthBytes`
bytes, `charSize = height * widthBytes`, at most 128 rows and no set padding bit: 95
entries and blocks, each as `CropSpec` describes, and each `bitmapOffset` the number of
bytes printed before. -/
theorem glyphLoop_wellFormed (psf : PSF) (hlen : psf.dataLen ≤ PSF_BUFFER_SIZE)
    (hguard : psf.widthBytes ≤ maxPsfByteWidth)
    (hw : psf.width ≤ 8 * psf.widthBytes)
    (hcs : psf.charSize = psf.height * psf.widthBytes)
    (hh : psf.height ≤ 128)
    (hb : psf.glyphDataOffset + (last + 1) * psf.charSize ≤ psf.dataLen)
    (hpad : ∀ code, first ≤ code → code ≤ last → NoPadding psf code) :
    ∃ gs bs, glyphLoop psf (last - first + 1) 0 0 = some (gs, bs) ∧
      gs.length = 95 ∧ bs.length = 95 ∧
      ∀ i, i < 95 → ∃ g bytes, gs[i]? = some g ∧ bs[i]? = some bytes ∧
        CropSpec psf (first + i) g bytes ∧
        g.bitmapOffset = ((bs.take i).map List.length).sum := by
  unfold PSF_BUFFER_SIZE at hlen
  unfold last at hb
  have hglyph : ∀ code, code ≤ 126 →
      u16 (psf.glyphDataOffset + code * psf.charSize) + psf.height * psf.widthBytes
        ≤ psf.dataLen := by
    intro code hcode
    have h1 : (code + 1) * psf.charSize ≤ (126 + 1) * psf.charSize :=
      Nat.mul_le_mul_right _ (by omega)
    rw [Nat.add_mul, Nat.one_mul] at h1
    have hu : u16 (psf.glyphDataOffset + code * psf.charSize)
        = psf.glyphDataOffset + code * psf.charSize := by unfold u16; omega
    rw [hu, ← hcs]
    omega
  have hM : 95 * psf.charSize ≤ (126 + 1) * psf.charSize :=
    Nat.mul_le_mul_right _ (by omega)
  have hstep : ∀ i bo, i < 95 → bo < 65536 →
      ∃ g bytes, cropGlyph psf (first + i) bo = some (g, bytes, u16 (bo + bytes.length)) ∧
        g.bitmapOffset = bo ∧ bytes.length ≤ psf.charSize ∧
        CropSpec psf (first + i) g bytes := by
    intro i bo hi hbo
    rw [hcs]
    exact cropGlyph_cropSpec psf (first + i) bo (by omega) hbo hguard hw hh
      (hglyph (first + i) (by unfold first; omega))
      (hpad (first + i) (by omega) (by unfold first last; omega))
  obtain ⟨gs, bs, hloop, hgl, hbl, hall⟩ :=
    glyphLoop_spec psf (fun i g bytes => CropSpec psf (first + i) g bytes) psf.charSize
      hstep 95 0 0 (by omega) (by omega)
  have hn : last - first + 1 = 95 := by decide
  refine ⟨gs, bs, by rw [hn, hloop], hgl, hbl, ?_⟩
  intro i hi
  obtain ⟨g, bytes, h1, h2, h3, h4⟩ := hall i hi
  exact ⟨g, bytes, h1, h2, by simpa using h3, by simpa using h4⟩

/-- The output of `main` for an accepted font that passes the width guard, whose stored
`widthBytes` and `charSize` are `ceil(width / 8)` and `height * widthBytes`, with at
most 128 rows, more than `last` glyphs and no set padding bit. -/
theorem main_spec (f : FileData) (psf : PSF) (hload : LoadPsf f = .ok psf)
    (hguard : psf.widthBytes ≤ maxPsfByteWidth)
    (hwbeq : psf.widthBytes = (psf.width + 7) / 8)
    (hcs : psf.charSize = psf.height * psf.widthBytes)
    (hh : psf.height ≤ 128) (hcount : last < psf.count)
    (hpad : ∀ code, first ≤ code → code ≤ last → NoPadding psf code) :
    ∃ out, main f = .ok out ∧ out.glyphs.length = 95 ∧ out.bitmaps.length = 95 ∧
      ∀ i, i < 95 → ∃ g bytes, out.glyphs[i]? = some g ∧ out.bitmaps[i]? = some bytes ∧
        CropSpec psf (first + i) g bytes ∧
        g.bitmapOffset = ((out.bitmaps.take i).map List.length).sum := by
  obtain ⟨hb, hbuf, -, -⟩ := loadPsf_bounds hload
  have hcnt : (last + 1) * psf.charSize ≤ psf.count * psf.charSize :=
    Nat.mul_le_mul_right _ (by omega)
  obtain ⟨gs, bs, hloop, hgl, hbl, hall⟩ :=
    glyphLoop_wellFormed psf hbuf hguard (by omega) hcs hh (by omega) hpad
  have hguard' : ¬ psf.widthBytes > maxPsfByteWidth := by omega
  exact ⟨⟨bs, gs⟩, by simp only [main, hload, hguard', if_false, hloop], hgl, hbl, hall⟩

/-- Every accepted variant-1 font meets the conditions of `main_spec`. -/
theorem v1_wellFormed {f : FileData} {psf : PSF} (hload : LoadPsf f = .ok psf)
    (hfmt : psf.format = 1) :
    psf.widthBytes ≤ maxPsfByteWidth ∧ psf.widthBytes = (psf.width + 7) / 8 ∧
    psf.charSize = psf.height * psf.widthBytes ∧ psf.height ≤ 128 ∧ last < psf.count ∧
    ∀ code, NoPadding psf code := by
  obtain ⟨-, -, -, hw, hwb, hcs, -, hcnt, hbound, hbuf⟩ := loadPsf_v1_fields hload hfmt
  unfold PSF_BUFFER_SIZE at hbuf
  have hh : psf.height ≤ 127 := by
    by_contra hcon
    have : 256 * 128 ≤ psf.count * psf.height := Nat.mul_le_mul (by omega) (by omega)
    omega
  refine ⟨by rw [hwb]; decide, by rw [hwb, hw], by rw [hcs, hwb, Nat.mul_one], by omega,
    by unfold last; omega, ?_⟩
  intro code row c _ h1 h2
  rw [hw] at h1
  rw [hwb] at h2
  omega

/-- A pixel that tests true when only a prefix of the data may be read tests true on
the whole data. -/
theorem srcPixel_of_restrict (psf : PSF) (n charCode row col : Nat) (hn : n ≤ psf.dataLen)
    (h : srcPixel { psf with dataLen := n } charCode row col = true) :
    srcPixel psf charCode row col = true := by
  unfold srcPixel PSF.read at h ⊢
  simp only at h ⊢
  split_ifs at h with h1
  rw [if_pos (by omega)]
  exact h

/-- `singlePixelFont` has no padding columns. -/
theorem singlePixelFont_noPadding (code : Nat) : NoPadding singlePixelPsf code :=
  (@v1_wellFormed singlePixelFont singlePixelPsf rfl rfl).2.2.2.2.2 code

/-- Glyph 0x20 of `singlePixelFont` has no foreground pixel. -/
theorem singlePixelFont_space_blank : ∀ row, row < 8 → ∀ col, col < 8 →
    srcPixel singlePixelPsf 0x20 row col = false := by
  decide

/-! ## The Unicode table lookups and the stored width -/

/-- A read below `dataLen` gives the byte. -/
theorem read_of_lt (psf : PSF) (i : Nat) (h : i < psf.dataLen) :
    psf.read i = some (psf.data i).val := by
  simp [PSF.read, h]

/-- A two-byte read that ends below `dataLen` gives the little-endian value. -/
theorem read16_of_lt (psf : PSF) (o : Nat) (h : o + 1 < psf.dataLen) :
    psf.read16 o = some ((psf.data o).val + 256 * (psf.data (o + 1)).val) := by
  simp [PSF.read16, read_of_lt psf o (by omega), read_of_lt psf (o + 1) h]

/-- When the glyph data check accepts, the stored table offset is within the bytes
read. -/
theorem finishLoad_table_le {data : Nat → Byte} {dataLen format off count height width wb : Nat}
    {tab : Bool} {psf : PSF}
    (h : finishLoad data dataLen format off count height width wb tab = .ok psf) :
    psf.unicodeTableOffset ≤ psf.dataLen := by
  obtain ⟨hpsf, hle⟩ := finishLoad_fields h
  subst hpsf
  cases tab
  · exact Nat.zero_le _
  · exact hle

/-- For an accepted file the stored table offset is within the bytes read, which fit
the buffer. -/
theorem loadPsf_table_le {f : FileData} {psf : PSF} (h : LoadPsf f = .ok psf) :
    psf.unicodeTableOffset ≤ psf.dataLen ∧ psf.dataLen ≤ PSF_BUFFER_SIZE := by
  refine ⟨?_, (loadPsf_bounds h).2.1⟩
  obtain ⟨-, -, hc | hc⟩ := loadPsf_ok_cases h
  · exact finishLoad_table_le hc.2.2
  · exact finishLoad_table_le hc.2.2

/-- At most `k` indices are below `k`. -/
theorem countBelow_le (p : Nat → Bool) : ∀ k, countBelow p k ≤ k
  | 0 => Nat.le_refl 0
  | k + 1 => by
    have := countBelow_le p k
    simp only [countBelow]
    split_ifs <;> omega

/-- The count does not decrease with the bound. -/
theorem countBelow_mono (p : Nat → Bool) (a : Nat) :
    ∀ b, a ≤ b → countBelow p a ≤ countBelow p b := by
  intro b hab
  induction b with
  | zero =>
    have : a = 0 := by omega
    subst this; exact Nat.le_refl _
  | succ b ih =>
    by_cases h : a = b + 1
    · subst h; exact Nat.le_refl _
    · have := ih (by omega)
      simp only [countBelow]
      omega

/-- An index at which `p` holds between `a` and `b` makes the count grow. -/
theorem countBelow_lt (p : Nat → Bool) (a j b : Nat) (haj : a ≤ j) (hjb : j < b)
    (hp : p j = true) : countBelow p a < countBelow p b := by
  have h1 := countBelow_mono p a j haj
  have h2 := countBelow_mono p (j + 1) b (by omega)
  have h3 : countBelow p (j + 1) = countBelow p j + 1 := by
    simp [countBelow, hp]
  omega

/-- Without an index at which `p` holds between `a` and `b` the count stays. -/
theorem countBelow_eq (p : Nat → Bool) (a : Nat) :
    ∀ b, a ≤ b → (∀ j, a ≤ j → j < b → p j = false) → countBelow p b = countBelow p a := by
  intro b hab
  induction b with
  | zero =>
    intro _
    have : a = 0 := by omega
    subst this; rfl
  | succ b ih =>
    intro hp
    by_cases h : a = b + 1
    · subst h; rfl
    · have h1 := ih (by omega) (fun j h1 h2 => hp j h1 (by omega))
      have h2 := hp b (by omega) (by omega)
      simp [countBelow, h2, h1]

/-- The loop of `FindGlyphForUnicode`, entered at entry `i` with the number of separators
before `i` in `glyph` and no entry before `i` equal to the code point: it returns the
number of separators before the first entry equal to the code point, or `UINT16_MAX`
when there is none. -/
theorem findGlyphLoop_spec (psf : PSF) (cp : Nat) (hlen : psf.dataLen ≤ PSF_BUFFER_SIZE)
    (hu : psf.unicodeTableOffset ≤ psf.dataLen) :
    ∀ fuel i, i ≤ unitCount16 psf → unitCount16 psf + 1 ≤ fuel + i →
      (∀ j, j < i → unit16 psf j ≠ cp) →
      (∀ k, k < unitCount16 psf → unit16 psf k = cp → (∀ j, j < k → unit16 psf j ≠ cp) →
        findGlyphLoop psf cp fuel (psf.unicodeTableOffset + 2 * i)
          (countBelow (isSep16 psf) i) = some (countBelow (isSep16 psf) k)) ∧
      ((∀ k, k < unitCount16 psf → unit16 psf k ≠ cp) →
        findGlyphLoop psf cp fuel (psf.unicodeTableOffset + 2 * i)
          (countBelow (isSep16 psf) i) = some UINT16_MAX) := by
  intro fuel
  induction fuel with
  | zero => intro i h1 h2; omega
  | succ fuel ih =>
    intro i hi hfuel hbefore
    have hn : unitCount16 psf = (psf.dataLen - psf.unicodeTableOffset) / 2 := rfl
    have hbuf : PSF_BUFFER_SIZE = 32768 := rfl
    by_cases hin : i < unitCount16 psf
    · have hoff : psf.unicodeTableOffset + 2 * i + 1 < psf.dataLen := by omega
      have hc : u32 (psf.unicodeTableOffset + 2 * i + 1) < psf.dataLen := by
        unfold u32; omega
      have hrd : psf.read16 (psf.unicodeTableOffset + 2 * i) = some (unit16 psf i) :=
        read16_of_lt psf _ hoff
      have hnext : u32 (psf.unicodeTableOffset + 2 * i + 2)
          = psf.unicodeTableOffset + 2 * (i + 1) := by
        unfold u32; omega
      have hcnt := countBelow_le (isSep16 psf) i
      have hglyph : (if unit16 psf i = PSF1_SEPARATOR
            then u16 (countBelow (isSep16 psf) i + 1) else countBelow (isSep16 psf) i)
          = countBelow (isSep16 psf) (i + 1) := by
        by_cases hs : unit16 psf i = PSF1_SEPARATOR
        · have : isSep16 psf i = true := by simp [isSep16, hs]
          rw [if_pos hs]
          simp only [countBelow, this, if_true]
          unfold u16; omega
        · have : isSep16 psf i = false := by simp [isSep16, hs]
          rw [if_neg hs]
          simp [countBelow, this]
      by_cases hm : unit16 psf i = cp
      · constructor
        · intro k hk hkm hkfirst
          have hki : k = i := by
            by_contra hne
            rcases Nat.lt_or_gt_of_ne hne with hlt | hgt
            · exact hbefore k hlt hkm
            · exact hkfirst i hgt hm
          subst hki
          simp only [findGlyphLoop, hc, if_true, hrd, hm]
        · intro hnone
          exact absurd hm (hnone i hin)
      · have hrec := ih (i + 1) (by omega) (by omega) (by
          intro j hj
          by_cases hji : j = i
          · subst hji; exact hm
          · exact hbefore j (by omega))
        simp only [findGlyphLoop, hc, if_true, hrd, hm, if_false, hnext, hglyph]
        exact hrec
    · have hc : ¬ u32 (psf.unicodeTableOffset + 2 * i + 1) < psf.dataLen := by
        unfold u32; omega
      constructor
      · intro k hk hkm _
        exact absurd hkm (hbefore k (by omega))
      · intro _
        simp only [findGlyphLoop, hc, if_false]

/-- When `g` is at most the number of indices below `n` at which `p` holds, there is an
index `k` with exactly `g` of them below it: `k = 0` for `g = 0`, and otherwise `k - 1`
is the `g`-th of them. -/
theorem countBelow_reach (p : Nat → Bool) : ∀ n g, g ≤ countBelow p n →
    ∃ k, k ≤ n ∧ countBelow p k = g ∧ (g = 0 → k = 0) ∧
      (0 < g → 0 < k ∧ p (k - 1) = true) := by
  intro n
  induction n with
  | zero =>
    intro g hg
    have : g = 0 := by simpa [countBelow] using hg
    subst this
    exact ⟨0, Nat.le_refl 0, rfl, fun _ => rfl, fun h => absurd h (Nat.lt_irrefl 0)⟩
  | succ n ih =>
    intro g hg
    by_cases hle : g ≤ countBelow p n
    · obtain ⟨k, hk, h1, h2, h3⟩ := ih g hle
      exact ⟨k, by omega, h1, h2, h3⟩
    · have hp : p n = true := by
        by_contra hc
        have hc' : p n = false := by simpa using hc
        simp [countBelow, hc'] at hg
        omega
      have hcn : countBelow p (n + 1) = countBelow p n + 1 := by simp [countBelow, hp]
      refine ⟨n + 1, Nat.le_refl _, by omega, fun h0 => by omega, fun _ => ⟨by omega, ?_⟩⟩
      simpa using hp

/-- The outer loop of `FindUnicodeEntryForGlyph` over a scan of one run that stops after
the first separator at or after its start: after `g` runs from unit `i` it stands after
the `g`-th separator at or after `i`, and it ends as incomplete when there are fewer
than `g` of them below `n`. -/
theorem skipRuns_generic (s base n : Nat) (sep : Nat → Bool) (run : Nat → Option Scan)
    (runs : Nat → Nat → Option Scan)
    (hfound : ∀ i j, i ≤ j → j < n → sep j = true →
      (∀ j', i ≤ j' → j' < j → sep j' = false) →
      run (base + s * i) = some (.reached (base + s * (j + 1))))
    (hnone : ∀ i, i ≤ n → (∀ j, i ≤ j → j < n → sep j = false) →
      run (base + s * i) = some .incomplete)
    (hruns0 : ∀ o, runs 0 o = some (.reached o))
    (hrunsS : ∀ g o, runs (g + 1) o =
      match run o with
      | some (.reached o') => runs g o'
      | r => r) :
    ∀ g i, i ≤ n →
      (∀ k, i ≤ k → k ≤ n → countBelow sep k = countBelow sep i + g → (g = 0 → k = i) →
        (0 < g → 0 < k ∧ sep (k - 1) = true) →
        runs g (base + s * i) = some (.reached (base + s * k))) ∧
      (countBelow sep n < countBelow sep i + g →
        runs g (base + s * i) = some .incomplete) := by
  intro g
  induction g with
  | zero =>
    intro i hi
    constructor
    · intro k _ _ _ hk _
      rw [hk rfl, hruns0]
    · intro h
      have := countBelow_mono sep i n hi
      omega
  | succ g ih =>
    intro i hi
    by_cases hex : ∃ j, i ≤ j ∧ j < n ∧ sep j = true
    · classical
      have hj := Nat.find_spec hex
      have hmin : ∀ j', i ≤ j' → j' < Nat.find hex → sep j' = false := by
        intro j' h1 h2
        have := Nat.find_min hex h2
        by_contra hc
        exact this ⟨h1, by omega, by simpa using hc⟩
      generalize Nat.find hex = j at hj hmin
      obtain ⟨hij, hjn, hsj⟩ := hj
      have hrun := hfound i j hij hjn hsj hmin
      have hcj : countBelow sep (j + 1) = countBelow sep i + 1 := by
        have := countBelow_eq sep i j hij hmin
        simp [countBelow, hsj, this]
      obtain ⟨ih1, ih2⟩ := ih (j + 1) (by omega)
      constructor
      · intro k hik hkn hck _ hk
        obtain ⟨hk0, hsk⟩ := hk (Nat.succ_pos g)
        have hjk : j + 1 ≤ k := by
          by_contra hc
          have h1 := countBelow_eq sep i k hik (fun j' h1 h2 => hmin j' h1 (by omega))
          omega
        rw [hrunsS, hrun]
        refine ih1 k hjk hkn (by omega) ?_ (fun _ => ⟨hk0, hsk⟩)
        intro hg0
        by_contra hne
        have h1 := countBelow_lt sep (j + 1) (k - 1) k (by omega) (by omega) hsk
        omega
      · intro hlt
        rw [hrunsS, hrun]
        exact ih2 (by omega)
    · have hno : ∀ j, i ≤ j → j < n → sep j = false := by
        intro j h1 h2
        by_contra hc
        exact hex ⟨j, h1, h2, by simpa using hc⟩
      have hrun := hnone i hi hno
      constructor
      · intro k hik hkn hck _ _
        have h1 := countBelow_eq sep i k hik (fun j' h1 h2 => hno j' h1 (by omega))
        omega
      · intro _
        rw [hrunsS, hrun]

/-- The inner loop of the variant-1 branch, entered at entry `i` with `x` not the
separator: it stops after the first separator at or after `i`, and ends as incomplete
when there is none wholly below `dataLen`. -/
theorem skipRun1_spec (psf : PSF) (hlen : psf.dataLen ≤ PSF_BUFFER_SIZE)
    (hu : psf.unicodeTableOffset ≤ psf.dataLen) :
    ∀ fuel i x, i ≤ unitCount16 psf → unitCount16 psf + 1 ≤ fuel + i →
      x ≠ PSF1_SEPARATOR →
      (∀ j, i ≤ j → j < unitCount16 psf → isSep16 psf j = true →
        (∀ j', i ≤ j' → j' < j → isSep16 psf j' = false) →
        skipRun1 psf fuel (psf.unicodeTableOffset + 2 * i) x
          = some (.reached (psf.unicodeTableOffset + 2 * (j + 1)))) ∧
      ((∀ j, i ≤ j → j < unitCount16 psf → isSep16 psf j = false) →
        skipRun1 psf fuel (psf.unicodeTableOffset + 2 * i) x = some .incomplete) := by
  intro fuel
  induction fuel with
  | zero => intro i x h1 h2; omega
  | succ fuel ih =>
    intro i x hi hfuel hx
    have hn : unitCount16 psf = (psf.dataLen - psf.unicodeTableOffset) / 2 := rfl
    have hbuf : PSF_BUFFER_SIZE = 32768 := rfl
    by_cases hin : i < unitCount16 psf
    · have hoff : psf.unicodeTableOffset + 2 * i + 1 < psf.dataLen := by omega
      have hc : ¬ u32 (psf.unicodeTableOffset + 2 * i + 1) ≥ psf.dataLen := by
        unfold u32; omega
      have hrd : psf.read16 (psf.unicodeTableOffset + 2 * i) = some (unit16 psf i) :=
        read16_of_lt psf _ hoff
      have hnext : u32 (psf.unicodeTableOffset + 2 * i + 2)
          = psf.unicodeTableOffset + 2 * (i + 1) := by
        unfold u32; omega
      have hstep : skipRun1 psf (fuel + 1) (psf.unicodeTableOffset + 2 * i) x
          = skipRun1 psf fuel (psf.unicodeTableOffset + 2 * (i + 1)) (unit16 psf i) := by
        simp only [skipRun1, hx, ne_eq, not_false_eq_true, if_true, hc, if_false, hrd, hnext]
      by_cases hs : unit16 psf i = PSF1_SEPARATOR
      · have hsi : isSep16 psf i = true := by simp [isSep16, hs]
        obtain ⟨fuel', rfl⟩ : ∃ fuel', fuel = fuel' + 1 := ⟨fuel - 1, by omega⟩
        have hexit : skipRun1 psf (fuel' + 1) (psf.unicodeTableOffset + 2 * (i + 1))
            (unit16 psf i) = some (.reached (psf.unicodeTableOffset + 2 * (i + 1))) := by
          simp only [skipRun1, hs, ne_eq, not_true_eq_false, if_false]
        constructor
        · intro j hij hjn hsj hmin
          have hji : j = i := by
            by_contra hne
            have := hmin i (Nat.le_refl i) (by omega)
            rw [hsi] at this
            cases this
          subst hji
          rw [hstep, hexit]
        · intro hnone
          have := hnone i (Nat.le_refl i) hin
          rw [hsi] at this
          cases this
      · have hsi : isSep16 psf i = false := by simp [isSep16, hs]
        obtain ⟨ih1, ih2⟩ := ih (i + 1) (unit16 psf i) (by omega) (by omega) hs
        constructor
        · intro j hij hjn hsj hmin
          have hji : i + 1 ≤ j := by
            by_contra hc'
            have : j = i := by omega
            subst this
            rw [hsi] at hsj
            cases hsj
          rw [hstep]
          exact ih1 j hji hjn hsj (fun j' h1 h2 => hmin j' (by omega) h2)
        · intro hnone
          rw [hstep]
          exact ih2 (fun j h1 h2 => hnone j (by omega) h2)
    · have hc : u32 (psf.unicodeTableOffset + 2 * i + 1) ≥ psf.dataLen := by
        unfold u32; omega
      constructor
      · intro j hij hjn _ _
        omega
      · intro _
        simp only [skipRun1, hx, ne_eq, not_false_eq_true, if_true, hc]

/-- The inner loop of the variant-2 branch, entered at byte `i` of the table with `x`
not the separator: it stops after the first separator at or after `i`, and ends as
incomplete when there is none below `dataLen`. -/
theorem skipRun2_spec (psf : PSF) (hlen : psf.dataLen ≤ PSF_BUFFER_SIZE)
    (hu : psf.unicodeTableOffset ≤ psf.dataLen) :
    ∀ fuel i x, i ≤ unitCount8 psf → unitCount8 psf + 1 ≤ fuel + i →
      x ≠ PSF2_SEPARATOR →
      (∀ j, i ≤ j → j < unitCount8 psf → isSep8 psf j = true →
        (∀ j', i ≤ j' → j' < j → isSep8 psf j' = false) →
        skipRun2 psf fuel (psf.unicodeTableOffset + 1 * i) x
          = some (.reached (psf.unicodeTableOffset + 1 * (j + 1)))) ∧
      ((∀ j, i ≤ j → j < unitCount8 psf → isSep8 psf j = false) →
        skipRun2 psf fuel (psf.unicodeTableOffset + 1 * i) x = some .incomplete) := by
  intro fuel
  induction fuel with
  | zero => intro i x h1 h2; omega
  | succ fuel ih =>
    intro i x hi hfuel hx
    have hn : unitCount8 psf = psf.dataLen - psf.unicodeTableOffset := rfl
    have hbuf : PSF_BUFFER_SIZE = 32768 := rfl
    by_cases hin : i < unitCount8 psf
    · have hoff : psf.unicodeTableOffset + 1 * i < psf.dataLen := by omega
      have hc : ¬ psf.unicodeTableOffset + 1 * i ≥ psf.dataLen := by omega
      have hrd : psf.read (psf.unicodeTableOffset + 1 * i) = some (unit8 psf i) := by
        rw [read_of_lt psf _ hoff, Nat.one_mul]; rfl
      have hnext : u32 (psf.unicodeTableOffset + 1 * i + 1)
          = psf.unicodeTableOffset + 1 * (i + 1) := by
        unfold u32; omega
      have hstep : skipRun2 psf (fuel + 1) (psf.unicodeTableOffset + 1 * i) x
          = skipRun2 psf fuel (psf.unicodeTableOffset + 1 * (i + 1)) (unit8 psf i) := by
        simp only [skipRun2, hx, ne_eq, not_false_eq_true, if_true, hc, if_false, hrd, hnext]
      by_cases hs : unit8 psf i = PSF2_SEPARATOR
      · have hsi : isSep8 psf i = true := by simp [isSep8, hs]
        obtain ⟨fuel', rfl⟩ : ∃ fuel', fuel = fuel' + 1 := ⟨fuel - 1, by omega⟩
        have hexit : skipRun2 psf (fuel' + 1) (psf.unicodeTableOffset + 1 * (i + 1))
            (unit8 psf i) = some (.reached (psf.unicodeTableOffset + 1 * (i + 1))) := by
          simp only [skipRun2, hs, ne_eq, not_true_eq_false, if_false]
        constructor
        · intro j hij hjn hsj hmin
          have hji : j = i := by
            by_contra hne
            have := hmin i (Nat.le_refl i) (by omega)
            rw [hsi] at this
            cases this
          subst hji
          rw [hstep, hexit]
        · intro hnone
          have := hnone i (Nat.le_refl i) hin
          rw [hsi] at this
          cases this
      · have hsi : isSep8 psf i = false := by simp [isSep8, hs]
        obtain ⟨ih1, ih2⟩ := ih (i + 1) (unit8 psf i) (by omega) (by omega) hs
        constructor
        · intro j hij hjn hsj hmin
          have hji : i + 1 ≤ j := by
            by_contra hc'
            have : j = i := by omega
            subst this
            rw [hsi] at hsj
            cases hsj
          rw [hstep]
          exact ih1 j hji hjn hsj (fun j' h1 h2 => hmin j' (by omega) h2)
        · intro hnone
          rw [hstep]
          exact ih2 (fun j h1 h2 => hnone j (by omega) h2)
    · have hc : psf.unicodeTableOffset + 1 * i ≥ psf.dataLen := by omega
      constructor
      · intro j hij hjn _ _
        omega
      · intro _
        simp only [skipRun2, hx, ne_eq, not_false_eq_true, if_true, hc]

/-- The function `FindGlyphForUnicode` on a variant-1 font with a table: the number of
separators before the first entry equal to the code point, or `UINT16_MAX` when no
entry is equal to it. -/
theorem findGlyphForUnicode_v1 (psf : PSF) (hlen : psf.dataLen ≤ PSF_BUFFER_SIZE)
    (hu : psf.unicodeTableOffset ≤ psf.dataLen) (hfmt : psf.format = 1)
    (htab : psf.unicodeTableOffset ≠ 0) (cp : Nat) :
    (∀ k, k < unitCount16 psf → unit16 psf k = cp → (∀ j, j < k → unit16 psf j ≠ cp) →
      FindGlyphForUnicode psf cp = some (countBelow (isSep16 psf) k)) ∧
    ((∀ k, k < unitCount16 psf → unit16 psf k ≠ cp) →
      FindGlyphForUnicode psf cp = some UINT16_MAX) := by
  have hn : unitCount16 psf = (psf.dataLen - psf.unicodeTableOffset) / 2 := rfl
  have h := findGlyphLoop_spec psf cp hlen hu (psf.dataLen + 1) 0 (Nat.zero_le _)
    (by omega) (fun j hj => absurd hj (Nat.not_lt_zero j))
  have hdef : FindGlyphForUnicode psf cp
      = findGlyphLoop psf cp (psf.dataLen + 1) (psf.unicodeTableOffset + 2 * 0)
          (countBelow (isSep16 psf) 0) := by
    simp [FindGlyphForUnicode, hfmt, htab, countBelow]
  rw [hdef]
  exact h

/-- The function `FindUnicodeEntryForGlyph` on a variant-1 font with a table. -/
theorem findUnicodeEntry_v1 (psf : PSF) (hlen : psf.dataLen ≤ PSF_BUFFER_SIZE)
    (hu : psf.unicodeTableOffset ≤ psf.dataLen) (hfmt : psf.format = 1)
    (htab : psf.unicodeTableOffset ≠ 0) (gi : Nat) (hgi : gi ≤ psf.count) :
    (∀ k, k ≤ unitCount16 psf → countBelow (isSep16 psf) k = gi → (gi = 0 → k = 0) →
      (0 < gi → 0 < k ∧ isSep16 psf (k - 1) = true) →
      FindUnicodeEntryForGlyph psf gi = some (psf.unicodeTableOffset + 2 * k)) ∧
    (countBelow (isSep16 psf) (unitCount16 psf) < gi →
      FindUnicodeEntryForGlyph psf gi = some 0) := by
  have hn : unitCount16 psf = (psf.dataLen - psf.unicodeTableOffset) / 2 := rfl
  have hruns := skipRuns_generic 2 psf.unicodeTableOffset (unitCount16 psf) (isSep16 psf)
    (fun o => skipRun1 psf (psf.dataLen + 1) o 0) (skipRuns1 psf (psf.dataLen + 1))
    (fun i j hij hjn hsj hmin =>
      (skipRun1_spec psf hlen hu (psf.dataLen + 1) i 0 (by omega) (by omega)
        (by decide)).1 j hij hjn hsj hmin)
    (fun i hi hno =>
      (skipRun1_spec psf hlen hu (psf.dataLen + 1) i 0 hi (by omega) (by decide)).2 hno)
    (fun o => rfl) (fun g o => rfl) gi 0 (Nat.zero_le _)
  simp only [Nat.mul_zero, Nat.add_zero, countBelow, Nat.zero_add] at hruns
  have hguard : ¬ (gi > psf.count ∨ psf.unicodeTableOffset = 0) := by
    intro h; rcases h with h | h
    · omega
    · exact htab h
  unfold FindUnicodeEntryForGlyph
  rw [if_neg hguard, if_pos hfmt]
  constructor
  · intro k hk hc h0 h1
    rw [hruns.1 k (Nat.zero_le _) hk hc h0 h1]
  · intro hlt
    rw [hruns.2 hlt]

/-- The function `FindUnicodeEntryForGlyph` on a variant-2 font with a table. -/
theorem findUnicodeEntry_v2 (psf : PSF) (hlen : psf.dataLen ≤ PSF_BUFFER_SIZE)
    (hu : psf.unicodeTableOffset ≤ psf.dataLen) (hfmt : psf.format ≠ 1)
    (htab : psf.unicodeTableOffset ≠ 0) (gi : Nat) (hgi : gi ≤ psf.count) :
    (∀ k, k ≤ unitCount8 psf → countBelow (isSep8 psf) k = gi → (gi = 0 → k = 0) →
      (0 < gi → 0 < k ∧ isSep8 psf (k - 1) = true) →
      FindUnicodeEntryForGlyph psf gi = some (psf.unicodeTableOffset + 1 * k)) ∧
    (countBelow (isSep8 psf) (unitCount8 psf) < gi →
      FindUnicodeEntryForGlyph psf gi = some 0) := by
  have hn : unitCount8 psf = psf.dataLen - psf.unicodeTableOffset := rfl
  have hruns := skipRuns_generic 1 psf.unicodeTableOffset (unitCount8 psf) (isSep8 psf)
    (fun o => skipRun2 psf (psf.dataLen + 1) o 0) (skipRuns2 psf (psf.dataLen + 1))
    (fun i j hij hjn hsj hmin =>
      (skipRun2_spec psf hlen hu (psf.dataLen + 1) i 0 (by omega) (by omega)
        (by decide)).1 j hij hjn hsj hmin)
    (fun i hi hno =>
      (skipRun2_spec psf hlen hu (psf.dataLen + 1) i 0 hi (by omega) (by decide)).2 hno)
    (fun o => rfl) (fun g o => rfl) gi 0 (Nat.zero_le _)
  simp only [Nat.mul_zero, Nat.add_zero, countBelow, Nat.zero_add] at hruns
  have hguard : ¬ (gi > psf.count ∨ psf.unicodeTableOffset = 0) := by
    intro h; rcases h with h | h
    · omega
    · exact htab h
  unfold FindUnicodeEntryForGlyph
  rw [if_neg hguard, if_neg hfmt]
  constructor
  · intro k hk hc h0 h1
    rw [hruns.1 k (Nat.zero_le _) hk hc h0 h1]
  · intro hlt
    rw [hruns.2 hlt]

/-- A result that is the offset after the `gi`-th separator, or 0 when there are fewer
than `gi` separators, put as one value: it is 0 exactly in the second case. -/
theorem entry_result (s n uto gi : Nat) (sep : Nat → Bool) (res : Option Nat)
    (huto : uto ≠ 0)
    (h1 : ∀ k, k ≤ n → countBelow sep k = gi → (gi = 0 → k = 0) →
      (0 < gi → 0 < k ∧ sep (k - 1) = true) → res = some (uto + s * k))
    (h2 : countBelow sep n < gi → res = some 0) :
    ∃ r, res = some r ∧ (r = 0 ↔ countBelow sep n < gi) ∧
      (r ≠ 0 → ∃ k, k ≤ n ∧ r = uto + s * k ∧ countBelow sep k = gi ∧ (gi = 0 → k = 0) ∧
        (0 < gi → 0 < k ∧ sep (k - 1) = true)) := by
  by_cases hlt : countBelow sep n < gi
  · exact ⟨0, h2 hlt, ⟨fun _ => hlt, fun _ => rfl⟩, fun h => absurd rfl h⟩
  · obtain ⟨k, hk, hc, h0, hs⟩ := countBelow_reach sep n gi (by omega)
    refine ⟨uto + s * k, h1 k hk hc h0 hs, ⟨fun h => ?_, fun h => absurd h hlt⟩,
      fun _ => ⟨k, hk, rfl, hc, h0, hs⟩⟩
    omega

/-- The values of `Utf8CharLength`. -/
theorem utf8CharLength_le (b : Nat) : Utf8CharLength b ≤ 4 := by
  unfold Utf8CharLength
  split_ifs <;> omega

/-- The bytes compared by `memcmp` lie below `dataLen`: the test is the equality of the
bytes. -/
theorem memcmpEq_spec (psf : PSF) (u : Nat → Byte) (p : Nat) :
    ∀ n, p + n ≤ psf.dataLen →
      memcmpEq psf u p n = some (decide (∀ i, i < n → psf.data (p + i) = u i)) := by
  intro n
  induction n with
  | zero => intro _; simp [memcmpEq]
  | succ n ih =>
    intro h
    have hrd := read_of_lt psf (p + n) (by omega)
    have key : (∀ i, i < n + 1 → psf.data (p + i) = u i)
        ↔ (∀ i, i < n → psf.data (p + i) = u i) ∧ psf.data (p + n) = u n := by
      constructor
      · intro h
        exact ⟨fun i hi => h i (by omega), h n (by omega)⟩
      · intro h i hi
        by_cases hin : i = n
        · subst hin; exact h.2
        · exact h.1 i (by omega)
    have hbyte : ((psf.data (p + n)).val == (u n).val) = decide (psf.data (p + n) = u n) := by
      by_cases hn : psf.data (p + n) = u n
      · simp [hn]
      · have hv : ¬ (psf.data (p + n)).val = (u n).val := fun h => hn (Fin.ext h)
        simp [hn, hv]
    simp only [memcmpEq, ih (by omega), hrd]
    rw [hbyte]
    simp only [key, Bool.decide_and]

/-- The positions of the walk do not decrease. -/
theorem utf8EntryPos_mono (psf : PSF) (a : Nat) :
    ∀ b, a ≤ b → utf8EntryPos psf a ≤ utf8EntryPos psf b := by
  intro b hab
  induction b with
  | zero =>
    have : a = 0 := by omega
    subst this; exact Nat.le_refl _
  | succ b ih =>
    by_cases h : a = b + 1
    · subst h; exact Nat.le_refl _
    · have := ih (by omega)
      simp only [utf8EntryPos]
      omega

/-- At an entry that is no boundary and whose lead byte decodes to length 0 the walk
stays. -/
theorem utf8EntryPos_stuck (psf : PSF) (i : Nat)
    (hb : (psf.data (utf8EntryPos psf i)).val ≠ PSF2_SEPARATOR)
    (hz : Utf8CharLength (psf.data (utf8EntryPos psf i)).val = 0) :
    ∀ k, i ≤ k → utf8EntryPos psf k = utf8EntryPos psf i := by
  intro k hik
  induction k with
  | zero =>
    have : i = 0 := by omega
    subst this; rfl
  | succ k ih =>
    by_cases h : i = k + 1
    · subst h; rfl
    · have hk := ih (by omega)
      simp only [utf8EntryPos, hk, hb, if_false, hz, Nat.add_zero]

/-- Every boundary passed moved the walk on by one byte. -/
theorem countBelow_boundary_le (psf : PSF) :
    ∀ k, countBelow (isBoundary psf) k + psf.unicodeTableOffset ≤ utf8EntryPos psf k := by
  intro k
  induction k with
  | zero => simp [countBelow, utf8EntryPos]
  | succ k ih =>
    by_cases hb : (psf.data (utf8EntryPos psf k)).val = PSF2_SEPARATOR
    · have : isBoundary psf k = true := by simp [isBoundary, hb]
      simp only [countBelow, utf8EntryPos, this, hb, if_true]
      omega
    · have : isBoundary psf k = false := by simp [isBoundary, hb]
      simp only [countBelow, utf8EntryPos, this, hb, if_false]
      simp only [Bool.false_eq_true, if_false]
      omega

/-- The loop of `FindGlyphForUtf8`, entered at entry `i` of the walk with the number of
boundaries before `i` in `glyph` and no match before `i`: it returns the number of
boundaries before the first match, or `UINT16_MAX` when the walk has none. -/
theorem findUtf8Loop_spec (psf : PSF) (u : Nat → Byte) (len : Nat)
    (hlen : psf.dataLen ≤ PSF_BUFFER_SIZE) (hl1 : 1 ≤ len) (hl4 : len ≤ 4)
    (hu0 : (u 0).val ≠ PSF2_SEPARATOR) :
    ∀ fuel i, 1 ≤ fuel → psf.dataLen + 1 ≤ fuel + utf8EntryPos psf i →
      utf8EntryPos psf i ≤ psf.dataLen + 4 →
      (∀ j, j < i → ¬ bytesMatch psf u len (utf8EntryPos psf j)) →
      (∀ k, FirstMatch psf u len k →
        findUtf8Loop psf u len fuel (utf8EntryPos psf i) (countBelow (isBoundary psf) i)
          = some (countBelow (isBoundary psf) k)) ∧
      ((∀ k, ¬ FirstMatch psf u len k) →
        findUtf8Loop psf u len fuel (utf8EntryPos psf i) (countBelow (isBoundary psf) i)
          = some UINT16_MAX) := by
  intro fuel
  induction fuel with
  | zero => intro i h1; omega
  | succ fuel ih =>
    intro i _ hfuel hpos hbefore
    have hbuf : PSF_BUFFER_SIZE = 32768 := rfl
    have hcb := countBelow_boundary_le psf i
    by_cases hin : utf8EntryPos psf i + len ≤ psf.dataLen
    · have hc : u32 (utf8EntryPos psf i + len) ≤ psf.dataLen := by
        unfold u32; omega
      have hrd := read_of_lt psf (utf8EntryPos psf i) (by omega)
      by_cases hb : (psf.data (utf8EntryPos psf i)).val = PSF2_SEPARATOR
      · have hbi : isBoundary psf i = true := by simp [isBoundary, hb]
        have hnm : ¬ bytesMatch psf u len (utf8EntryPos psf i) := by
          intro hm
          have := hm 0 (by omega)
          rw [Nat.add_zero] at this
          rw [this] at hb
          exact hu0 hb
        have hnext : u32 (utf8EntryPos psf i + 1) = utf8EntryPos psf (i + 1) := by
          simp only [utf8EntryPos, hb, if_true]
          unfold u32; omega
        have hglyph : u16 (countBelow (isBoundary psf) i + 1)
            = countBelow (isBoundary psf) (i + 1) := by
          simp only [countBelow, hbi, if_true]
          unfold u16; omega
        have hp1 : utf8EntryPos psf (i + 1) = utf8EntryPos psf i + 1 := by
          simp only [utf8EntryPos, hb, if_true]
        have hrec := ih (i + 1) (by omega) (by omega) (by omega) (by
          intro j hj
          by_cases hji : j = i
          · subst hji; exact hnm
          · exact hbefore j (by omega))
        simp only [findUtf8Loop, hc, if_true, hrd, hb, hnext, hglyph]
        exact hrec
      · have hbi : isBoundary psf i = false := by simp [isBoundary, hb]
        have hcmp := memcmpEq_spec psf u (utf8EntryPos psf i) len hin
        by_cases hm : bytesMatch psf u len (utf8EntryPos psf i)
        · have hd : decide (∀ j, j < len → psf.data (utf8EntryPos psf i + j) = u j)
              = true := by
            simpa [bytesMatch] using hm
          rw [hd] at hcmp
          constructor
          · intro k hk
            have hki : k = i := by
              by_contra hne
              rcases Nat.lt_or_gt_of_ne hne with hlt | hgt
              · exact hbefore k hlt hk.2.1
              · exact hk.2.2 i hgt hm
            subst hki
            simp only [findUtf8Loop, hc, if_true, hrd, hb, if_false, hcmp]
          · intro hnone
            exact absurd ⟨hin, hm, hbefore⟩ (hnone i)
        · have hd : decide (∀ j, j < len → psf.data (utf8EntryPos psf i + j) = u j)
              = false := by
            simpa [bytesMatch] using hm
          rw [hd] at hcmp
          by_cases hz : Utf8CharLength (psf.data (utf8EntryPos psf i)).val = 0
          · have hstuck := utf8EntryPos_stuck psf i hb hz
            have hres : findUtf8Loop psf u len (fuel + 1) (utf8EntryPos psf i)
                (countBelow (isBoundary psf) i) = some UINT16_MAX := by
              simp only [findUtf8Loop, hc, if_true, hrd, hb, if_false, hcmp, hz]
            constructor
            · intro k hk
              exfalso
              by_cases hki : k < i
              · exact hbefore k hki hk.2.1
              · have hk2 := hk.2.1
                rw [hstuck k (by omega)] at hk2
                exact hm hk2
            · intro _
              exact hres
          · have hn4 := utf8CharLength_le (psf.data (utf8EntryPos psf i)).val
            have hp1 : utf8EntryPos psf (i + 1) = utf8EntryPos psf i
                + Utf8CharLength (psf.data (utf8EntryPos psf i)).val := by
              simp only [utf8EntryPos, hb, if_false]
            have hnext : u32 (utf8EntryPos psf i
                + Utf8CharLength (psf.data (utf8EntryPos psf i)).val)
                = utf8EntryPos psf (i + 1) := by
              rw [hp1]; unfold u32; omega
            have hglyph : countBelow (isBoundary psf) i
                = countBelow (isBoundary psf) (i + 1) := by
              simp [countBelow, hbi]
            have hrec := ih (i + 1) (by omega) (by omega) (by omega) (by
              intro j hj
              by_cases hji : j = i
              · subst hji; exact hm
              · exact hbefore j (by omega))
            rw [← hglyph] at hrec
            simp only [findUtf8Loop, hc, if_true, hrd, hb, if_false, hcmp, hz, hnext]
            exact hrec
    · have hc : ¬ u32 (utf8EntryPos psf i + len) ≤ psf.dataLen := by
        unfold u32; omega
      have hres : findUtf8Loop psf u len (fuel + 1) (utf8EntryPos psf i)
          (countBelow (isBoundary psf) i) = some UINT16_MAX := by
        simp only [findUtf8Loop, hc, if_false]
      constructor
      · intro k hk
        exfalso
        by_cases hki : k < i
        · exact hbefore k hki hk.2.1
        · have := utf8EntryPos_mono psf i k (by omega)
          have := hk.1
          omega
      · intro _
        exact hres

/-- The separator byte is no lead byte of a sequence. -/
theorem lead_ne_separator (b : Byte) (h : Utf8CharLength b.val ≠ 0) :
    b.val ≠ PSF2_SEPARATOR := by
  intro heq
  rw [heq] at h
  exact h (by decide)

/-- The function `FindGlyphForUtf8` on a variant-2 font with a table, for an input
whose lead byte decodes to a nonzero length. -/
theorem findGlyphForUtf8_v2 (psf : PSF) (hlen : psf.dataLen ≤ PSF_BUFFER_SIZE)
    (hu : psf.unicodeTableOffset ≤ psf.dataLen) (hfmt : psf.format ≠ 1)
    (htab : psf.unicodeTableOffset ≠ 0) (u : Nat → Byte)
    (hl : Utf8CharLength (u 0).val ≠ 0) :
    (∀ k, FirstMatch psf u (Utf8CharLength (u 0).val) k →
      FindGlyphForUtf8 psf u = some (countBelow (isBoundary psf) k) ∧
      countBelow (isBoundary psf) k < UINT16_MAX) ∧
    ((∀ k, ¬ FirstMatch psf u (Utf8CharLength (u 0).val) k) →
      FindGlyphForUtf8 psf u = some UINT16_MAX) := by
  have hbuf : PSF_BUFFER_SIZE = 32768 := rfl
  have h4 := utf8CharLength_le (u 0).val
  have h := findUtf8Loop_spec psf u (Utf8CharLength (u 0).val) hlen (by omega) h4
    (lead_ne_separator (u 0) hl) (psf.dataLen + 1) 0 (by omega)
    (by simp only [utf8EntryPos]; omega) (by simp only [utf8EntryPos]; omega)
    (fun j hj => absurd hj (Nat.not_lt_zero j))
  have hdef : FindGlyphForUtf8 psf u
      = findUtf8Loop psf u (Utf8CharLength (u 0).val) (psf.dataLen + 1)
          (utf8EntryPos psf 0) (countBelow (isBoundary psf) 0) := by
    simp [FindGlyphForUtf8, hfmt, htab, hl, countBelow, utf8EntryPos]
  rw [hdef]
  refine ⟨fun k hk => ⟨h.1 k hk, ?_⟩, h.2⟩
  have h1 := countBelow_boundary_le psf k
  have h2 := hk.1
  have : UINT16_MAX = 65535 := rfl
  omega

/-- For an accepted variant-1 file the stored table offset is nonzero exactly when bit
`PSF1_MODEHASTAB` of the mode byte is set; the file has 256 or 512 glyphs. -/
theorem loadPsf_v1_table {f : FileData} {psf : PSF} (h : LoadPsf f = .ok psf)
    (hfmt : psf.format = 1) :
    (psf.unicodeTableOffset ≠ 0 ↔ (f.byte 2).val &&& PSF1_MODEHASTAB ≠ 0) ∧
    psf.count ≤ 512 := by
  obtain ⟨-, -, hc | hc⟩ := loadPsf_ok_cases h
  · obtain ⟨hpsf, -⟩ := finishLoad_fields hc.2.2
    have hb : (f.byte 3).val < 256 := (f.byte 3).isLt
    have hcnt : (if (f.byte 2).val &&& PSF1_MODE512 ≠ 0 then 512 else 256) ≤ 512 := by
      split_ifs <;> omega
    generalize (if (f.byte 2).val &&& PSF1_MODE512 ≠ 0 then 512 else 256) = cnt
      at hpsf hcnt
    have hprod : cnt * (f.byte 3).val ≤ 512 * 255 :=
      Nat.mul_le_mul hcnt (by omega)
    have hne : u32 (sizeofPsf1Header + u32 (cnt * u16 ((f.byte 3).val * 1))) ≠ 0 := by
      have : u16 ((f.byte 3).val * 1) = (f.byte 3).val := by unfold u16; omega
      rw [this]
      unfold u32 sizeofPsf1Header; omega
    subst hpsf
    refine ⟨?_, hcnt⟩
    by_cases hflag : (f.byte 2).val &&& PSF1_MODEHASTAB ≠ 0
    · have hb : ((f.byte 2).val &&& PSF1_MODEHASTAB != 0) = true := by simpa using hflag
      simp only [hb, if_true]
      exact ⟨fun _ => hflag, fun _ => hne⟩
    · have hb : ((f.byte 2).val &&& PSF1_MODEHASTAB != 0) = false := by simpa using hflag
      simp only [hb]
      exact ⟨fun h => absurd rfl h, fun h => absurd h hflag⟩
  · obtain ⟨hpsf, -⟩ := finishLoad_fields hc.2.2
    subst hpsf
    simp at hfmt

/-- For an accepted file with `widthBytes` from 1 to 4 the stored width is at most
`8 * widthBytes`, and more than `8 * (widthBytes - 1)`. -/
theorem loadPsf_width_le {f : FileData} {psf : PSF} (h : LoadPsf f = .ok psf)
    (h1 : 1 ≤ psf.widthBytes) (h4 : psf.widthBytes ≤ maxPsfByteWidth) :
    psf.width ≤ 8 * psf.widthBytes ∧ 8 * psf.widthBytes < psf.width + 8 := by
  have hmax : maxPsfByteWidth = 4 := rfl
  obtain ⟨-, -, hc | hc⟩ := loadPsf_ok_cases h
  · obtain ⟨hpsf, -⟩ := finishLoad_fields hc.2.2
    subst hpsf
    show (8 : Nat) ≤ 8 * 1 ∧ 8 * 1 < 8 + 8
    omega
  · obtain ⟨hpsf, -⟩ := finishLoad_fields hc.2.2
    subst hpsf
    have hw : le32 f.byte 28 < 4294967296 := by
      have a := (f.byte 28).isLt
      have b := (f.byte (28 + 1)).isLt
      have c := (f.byte (28 + 2)).isLt
      have d := (f.byte (28 + 3)).isLt
      unfold le32; omega
    generalize le32 f.byte 28 = W at hw h1 h4
    simp only at h1 h4 ⊢
    unfold u16 u32 at h1 h4 ⊢
    omega

/-! ## The claims -/

/-- C1 (round-trip of the crop), evaluated at an input where the code departs from
it.  `tallFont` is accepted by `LoadPsf` and passes the width guard; glyph 0x20 has a
foreground pixel at row 255, column 0.  The row loop stores the row in the `uint8_t`
`startRow`, where 255 is also `UINT8_MAX`, the "no row seen" value, so `main` emits
the glyph as blank: entry `{0, 0, 0, 8, 0, 0}` and no bytes.  The foreground pixel
(255, 0) lies outside the emitted (empty) rectangle. -/
theorem crop_drops_pixel_in_row_255 :
    (∃ psf, LoadPsf tallFont = .ok psf ∧ psf.format = 2 ∧ psf.count = 127 ∧
      psf.height = 256 ∧ psf.width = 8 ∧ psf.widthBytes ≤ maxPsfByteWidth ∧
      srcPixel psf 0x20 255 0 = true) ∧
    main tallFont = .ok
      { bitmaps := [] :: List.replicate 94 [],
        glyphs := ⟨0, 0, 0, 8, 0, 0⟩ :: List.replicate 94 ⟨0, 0, 0, 8, 0, 0⟩ } := by
  refine ⟨⟨_, rfl, by decide, by decide, by decide, by decide, by decide, by decide⟩, ?_⟩
  have hload : LoadPsf tallFont = .ok (tallPsf tallFont) := rfl
  have hguard : ¬ (tallPsf tallFont).widthBytes > maxPsfByteWidth := by decide
  have h0 : cropGlyph (tallPsf tallFont) first 0 = some (⟨0, 0, 0, 8, 0, 0⟩, [], 0) := by
    decide!
  have hloop := glyphLoop_first_then_blank (tallPsf tallFont) _ _ 0 8 94 h0
    (tallPsf_rest_blank tallFont tallFont_zero 0)
  have hn : last - first + 1 = 94 + 1 := by decide
  simp only [main, hload, hguard, if_false, hn, hloop]

/-- C2 (blank glyph), evaluated at an input where the code departs from it.
`paddedFont` is accepted by `LoadPsf` and passes the width guard; glyph 0x20 has no
foreground pixel at any row below the height and column below the width, but its row
byte `0x01` is nonzero.  The row loop tests whole bytes, the column loop only the
`width` pixel bits, so `startCol` and `endCol` stay `UINT8_MAX`: the entry is
`{0, 1, 1, 4, -1, 0}` and the glyph contributes one byte. -/
theorem padding_bit_glyph_not_blank :
    (∃ psf, LoadPsf paddedFont = .ok psf ∧ psf.format = 2 ∧ psf.count = 127 ∧
      psf.height = 1 ∧ psf.width = 4 ∧ psf.widthBytes ≤ maxPsfByteWidth ∧
      ∀ row, row < psf.height → ∀ col, col < psf.width →
        srcPixel psf 0x20 row col = false) ∧
    ∃ out, main paddedFont = .ok out ∧
      (out.glyphs[0]?, out.bitmaps[0]?) = (some ⟨0, 1, 1, 4, -1, 0⟩, some [0]) :=
  ⟨⟨_, rfl, by decide, by decide, by decide, by decide, by decide, by decide⟩,
   main_ok_of_eval paddedFont (fun o => (o.glyphs[0]?, o.bitmaps[0]?)) _ (by decide!)⟩

/-- C3 (monotonic bitmapOffset), evaluated at an input where the code departs from
it.  `tallTwoRowFont` is accepted by `LoadPsf` and passes the width guard; glyph 0x20
has foreground pixels in rows 0 and 255.  `main` repacks 256 rows of one column, 32
bytes, but stores the height `255 - 0 + 1` in a `uint8_t`, as 0: entry 0 is
`{0, 1, 0, 8, 0, 0}`, every later entry has `bitmapOffset = 32`, and
`0 + ceil(1 * 0 / 8) = 0`. -/
theorem bitmapOffset_step_exceeds_stored_size :
    (∃ psf, LoadPsf tallTwoRowFont = .ok psf ∧ psf.format = 2 ∧ psf.count = 127 ∧
      psf.height = 256 ∧ psf.width = 8 ∧ psf.widthBytes ≤ maxPsfByteWidth) ∧
    main tallTwoRowFont = .ok
      { bitmaps := (0x80 :: List.replicate 30 0 ++ [0x01]) :: List.replicate 94 [],
        glyphs := ⟨0, 1, 0, 8, 0, 0⟩ :: List.replicate 94 ⟨32, 0, 0, 8, 0, 0⟩ } := by
  refine ⟨⟨_, rfl, by decide, by decide, by decide, by decide, by decide⟩, ?_⟩
  have hload : LoadPsf tallTwoRowFont = .ok (tallPsf tallTwoRowFont) := rfl
  have hguard : ¬ (tallPsf tallTwoRowFont).widthBytes > maxPsfByteWidth := by decide
  have h0 : cropGlyph (tallPsf tallTwoRowFont) first 0
      = some (⟨0, 1, 0, 8, 0, 0⟩, 0x80 :: List.replicate 30 0 ++ [0x01], 32) := by
    decide!
  have hloop := glyphLoop_first_then_blank (tallPsf tallTwoRowFont) _ _ 32 8 94 h0
    (tallPsf_rest_blank tallTwoRowFont tallTwoRowFont_zero 32)
  have hn : last - first + 1 = 94 + 1 := by decide
  simp only [main, hload, hguard, if_false, hn, hloop]

/-- C4 (single-pixel font, generalised): for every font that `LoadPsf` accepts as
variant 1 (8 pixels wide; 256 or 512 glyphs, with or without a Unicode table) in which
glyph `g` of 0x20..0x7E has exactly one foreground pixel, at row `r` and column `c`,
and every other glyph of 0x20..0x7E has none, `main` prints the single byte `0x80`
(the block of `g`; every other block is empty) and the glyph table
`{0, 0, 0, 8, 0, 0}` for every code before `g`, `{0, 1, 1, 8, c, r}` for `g`, and
`{1, 0, 0, 8, 0, 0}` for every code after `g`. -/
theorem main_single_pixel_font (f : FileData) (psf : PSF) (g r c : Nat)
    (hload : LoadPsf f = .ok psf) (hfmt : psf.format = 1)
    (hg : 0x20 ≤ g ∧ g ≤ 0x7E) (hr : r < psf.height) (hc : c < psf.width)
    (hpix : ∀ code row col, 0x20 ≤ code → code ≤ 0x7E → row < psf.height →
      col < psf.width →
      (srcPixel psf code row col = true ↔ (code = g ∧ row = r ∧ col = c))) :
    main f = .ok
      { bitmaps := List.replicate (g - 0x20) [] ++ [0x80] :: List.replicate (0x7E - g) [],
        glyphs := List.replicate (g - 0x20) ⟨0, 0, 0, 8, 0, 0⟩
          ++ ⟨0, 1, 1, 8, (c : Int), (r : Int)⟩
            :: List.replicate (0x7E - g) ⟨1, 0, 0, 8, 0, 0⟩ } := by
  obtain ⟨hdata, hlen, hoff, hw, hwb, hcs, -, hcnt, hbound, hbuf⟩ :=
    loadPsf_v1_fields hload hfmt
  unfold PSF_BUFFER_SIZE at hbuf
  rw [hw] at hc
  have hcount : 256 ≤ psf.count := by omega
  have hh : psf.height ≤ 127 := by
    by_contra hcon
    have : 256 * 128 ≤ psf.count * psf.height := Nat.mul_le_mul hcount (by omega)
    omega
  -- positions of the glyph rows
  have hP : ∀ code, code ≤ 0x7E →
      u16 (psf.glyphDataOffset + code * psf.charSize) = 4 + code * psf.height ∧
      4 + code * psf.height + psf.height ≤ psf.dataLen := by
    intro code hcode
    have h1 : code * psf.height ≤ 126 * 127 := Nat.mul_le_mul hcode hh
    have h2 : (code + 1) * psf.height ≤ psf.count * psf.height :=
      Nat.mul_le_mul (by omega) (Nat.le_refl _)
    have h3 : (code + 1) * psf.height = code * psf.height + psf.height := by ring
    rw [hoff, hcs]
    constructor
    · unfold u16; omega
    · omega
  -- the byte of each row, from the pixel hypothesis
  have hbyte : ∀ code row, 0x20 ≤ code → code ≤ 0x7E → row < psf.height →
      psf.read (u16 (psf.glyphDataOffset + code * psf.charSize) + row)
        = some (if code = g ∧ row = r then 2 ^ (7 - c) else 0) := by
    intro code row h1 h2 h3
    obtain ⟨hPc, hPb⟩ := hP code h2
    have hin : 4 + code * psf.height + row < psf.dataLen := by omega
    have hu : u16 (4 + code * psf.height + row * 1) = 4 + code * psf.height + row := by
      unfold u16; omega
    have hpx : ∀ col, col < 8 →
        (((psf.data (4 + code * psf.height + row)).val
            &&& (1 <<< (7 - (col &&& 7))) != 0) = true
          ↔ (code = g ∧ row = r ∧ col = c)) := by
      intro col hcol
      have h8 : col >>> 3 = 0 := by
        rw [Nat.shiftRight_eq_div_pow]; exact Nat.div_eq_of_lt (by omega)
      have := hpix code row col h1 h2 h3 (by omega)
      simpa only [srcPixel, hPc, hwb, hu, h8, Nat.add_zero, PSF.read, hin, if_true]
        using this
    rw [hPc]
    simp only [PSF.read, hin, if_true]
    congr 1
    have hlt : (psf.data (4 + code * psf.height + row)).val < 256 :=
      (psf.data (4 + code * psf.height + row)).isLt
    by_cases hgr : code = g ∧ row = r
    · rw [if_pos hgr]
      apply byte_one_pixel c hc _ hlt
      intro col hcol
      rw [hpx col hcol]
      simp [hgr]
    · rw [if_neg hgr]
      apply byte_no_pixels _ hlt
      intro col hcol
      have := hpx col hcol
      have hn : ¬ (code = g ∧ row = r ∧ col = c) := fun hx => hgr ⟨hx.1, hx.2.1⟩
      simpa [hn] using this
  -- every other glyph is blank
  have hblank : ∀ bo code, 0x20 ≤ code → code ≤ 0x7E → code ≠ g →
      cropGlyph psf code bo = some (⟨bo, 0, 0, 8, 0, 0⟩, [], bo) := by
    intro bo code h1 h2 hne
    have := cropGlyph_zero psf code bo
      (by have := (hP code h2).2; rw [hwb, (hP code h2).1]; omega)
      (by
        intro k hk
        rw [hwb, Nat.mul_one] at hk
        have := hbyte code k h1 h2 hk
        rwa [if_neg (fun hx => hne hx.1)] at this)
    rw [this, hw]; rfl
  -- the glyph `g`
  have hglyph : cropGlyph psf g 0
      = some (⟨0, 1, 1, 8, (c : Int), (r : Int)⟩, [0x80], 1) := by
    have := cropGlyph_single_pixel psf g 0 r c hwb hw hr (by omega) hc
      (by have := (hP g hg.2).2; rw [(hP g hg.2).1]; omega)
      (by
        intro k hk
        have := hbyte g k hg.1 hg.2 hk
        simpa using this)
    rw [this]; rfl
  have hguard : ¬ psf.widthBytes > maxPsfByteWidth := by
    rw [hwb]; decide
  have hn : last - first + 1 = (g - 0x20) + ((0x7E - g) + 1) := by
    unfold last first; omega
  simp only [main, hload, hguard, if_false, hn]
  rw [glyphLoop_blank_run psf 8 0 (g - 0x20) _ 0
    (fun j _ hj => hblank 0 (first + j) (by unfold first; omega) (by unfold first; omega)
      (by unfold first; omega))]
  have hfg : first + (0 + (g - 0x20)) = g := by unfold first; omega
  simp only [glyphLoop, hfg, hglyph]
  have htail := glyphLoop_blank_run psf 8 1 (0x7E - g) 0 (0 + (g - 0x20) + 1)
    (fun j hj1 hj2 => hblank 1 (first + j) (by unfold first; omega)
      (by unfold first; omega) (by unfold first; omega))
  rw [Nat.add_zero] at htail
  rw [htail]
  simp [glyphLoop]

/-- The pixels of `singlePixelFont`, over all glyphs up to 0x7E. -/
theorem singlePixelFont_pixels : ∀ code, code < 127 → ∀ row, row < 8 → ∀ col, col < 8 →
    (srcPixel singlePixelPsf code row col = true ↔ (code = 0x41 ∧ row = 0 ∧ col = 0)) := by
  decide!

/-- C4 at the spec's font: glyph 0x41, row 0, column 0, height 8. -/
theorem main_single_pixel_font_witness :
    LoadPsf singlePixelFont = .ok singlePixelPsf ∧
    main singlePixelFont = .ok
      { bitmaps := List.replicate 33 [] ++ [0x80] :: List.replicate 61 [],
        glyphs := List.replicate 33 ⟨0, 0, 0, 8, 0, 0⟩
          ++ ⟨0, 1, 1, 8, 0, 0⟩ :: List.replicate 61 ⟨1, 0, 0, 8, 0, 0⟩ } :=
  ⟨rfl, main_single_pixel_font singlePixelFont singlePixelPsf 0x41 0 0 rfl rfl
    (by decide) (by decide) (by decide)
    (fun code row col _ h2 h3 h4 =>
      singlePixelFont_pixels code (by omega) row h3 col h4)⟩

/-- C5 (format detection): for every buffer of at least `sizeof(psf1_header)` bytes
(a file that fits `data[PSF_BUFFER_SIZE]`).  When it starts with `0x36, 0x04`,
whatever follows, `LoadPsf` decodes it as variant 1: it goes on to the glyph data
check of lines 84-95 with `format = 1` and the fields of the variant-1 header, so it
accepts the buffer, with `format = 1`, exactly when `4 + count * charsize` is at most
its length, and fails with "Incomplete glyph data" otherwise.  When it starts with
`0x72, 0xb5, 0x4a, 0x86` it is decoded as variant 2: a buffer shorter than the 32-byte
header fails with "Incomplete psf2 header", and any other goes on to the glyph data
check with `format = 2` and the stored fields of the variant-2 header, so it is
accepted, with `format = 2`, exactly when `glyphDataOffset + count * charSize` on these
fields is at most its length.  For all other leading bytes `LoadPsf` fails with
"Unrecognized magic". -/
theorem loadPsf_format_detection (f : FileData)
    (hmin : sizeofPsf1Header ≤ f.size) (hfit : f.size ≤ PSF_BUFFER_SIZE) :
    ((f.byte 0).val = 0x36 → (f.byte 1).val = 0x04 →
      LoadPsf f = finishLoad f.byte f.size 1 sizeofPsf1Header
        (if (f.byte 2).val &&& PSF1_MODE512 ≠ 0 then 512 else 256) (f.byte 3).val 8 1
        ((f.byte 2).val &&& PSF1_MODEHASTAB != 0) ∧
      (4 + (if (f.byte 2).val &&& PSF1_MODE512 ≠ 0 then 512 else 256) * (f.byte 3).val
          ≤ f.size → ∃ psf, LoadPsf f = .ok psf ∧ psf.format = 1) ∧
      (f.size < 4 + (if (f.byte 2).val &&& PSF1_MODE512 ≠ 0 then 512 else 256)
          * (f.byte 3).val → LoadPsf f = .error .incompleteGlyphData) ∧
      (∀ psf, LoadPsf f = .ok psf → psf.format = 1)) ∧
    ((f.byte 0).val = 0x72 → (f.byte 1).val = 0xb5 → (f.byte 2).val = 0x4a →
        (f.byte 3).val = 0x86 →
      (f.size < sizeofPsf2Header → LoadPsf f = .error .incompletePsf2Header) ∧
      (sizeofPsf2Header ≤ f.size →
        LoadPsf f = finishLoad f.byte f.size 2 (u16 (le32 f.byte 8))
          (u16 (le32 f.byte 16)) (u16 (le32 f.byte 24)) (u16 (le32 f.byte 28))
          (u16 (u32 (le32 f.byte 28 + 7) / 8))
          (le32 f.byte 12 &&& PSF2_HAS_UNICODE_TABLE != 0) ∧
        (u16 (le32 f.byte 8) + u16 (le32 f.byte 16)
            * u16 (u16 (le32 f.byte 24) * u16 (u32 (le32 f.byte 28 + 7) / 8)) ≤ f.size →
          ∃ psf, LoadPsf f = .ok psf ∧ psf.format = 2) ∧
        (f.size < u16 (le32 f.byte 8) + u16 (le32 f.byte 16)
            * u16 (u16 (le32 f.byte 24) * u16 (u32 (le32 f.byte 28 + 7) / 8)) →
          LoadPsf f = .error .incompleteGlyphData) ∧
        (∀ psf, LoadPsf f = .ok psf → psf.format = 2))) ∧
    (¬ ((f.byte 0).val = 0x36 ∧ (f.byte 1).val = 0x04) →
        ¬ ((f.byte 0).val = 0x72 ∧ (f.byte 1).val = 0xb5 ∧ (f.byte 2).val = 0x4a
            ∧ (f.byte 3).val = 0x86) →
        LoadPsf f = .error .unrecognizedMagic) := by
  have hlen : min f.size PSF_BUFFER_SIZE = f.size := Nat.min_eq_left hfit
  have h1 : ¬ f.size < sizeofPsf1Header := by omega
  have h2 : ¬ (f.size = PSF_BUFFER_SIZE ∧ PSF_BUFFER_SIZE < f.size) := by omega
  have key : ∀ off count cs : Nat, off < 65536 → count < 65536 → cs < 65536 →
      u32 (off + u32 (count * cs)) = off + count * cs := by
    intro off count cs h1 h2 h3
    have : count * cs ≤ 65535 * 65535 := Nat.mul_le_mul (by omega) (by omega)
    unfold u32; omega
  have hfin : ∀ (fmt off count height width wb : Nat) (tab : Bool) (G : Nat),
      u32 (off + u32 (count * u16 (height * wb))) = G →
      (G ≤ f.size → ∃ psf, finishLoad f.byte f.size fmt off count height width wb tab
          = .ok psf ∧ psf.format = fmt) ∧
      (f.size < G → finishLoad f.byte f.size fmt off count height width wb tab
          = .error .incompleteGlyphData) ∧
      (∀ psf, finishLoad f.byte f.size fmt off count height width wb tab = .ok psf →
        psf.format = fmt) := by
    intro fmt off count height width wb tab G hG
    refine ⟨fun hle => ?_, fun hlt => ?_, fun psf hok => ?_⟩
    · obtain ⟨psf, hpsf⟩ := (finishLoad_ok_iff f.byte f.size fmt off count height width wb
        tab).2 (by omega)
      exact ⟨psf, hpsf, by rw [(finishLoad_fields hpsf).1]⟩
    · have hp : u32 (off + u32 (count * u16 (height * wb))) > f.size := by omega
      simp only [finishLoad, hp, if_true]
    · rw [(finishLoad_fields hok).1]
  refine ⟨?_, ?_, ?_⟩
  · intro a b
    have hm : (f.byte 0).val = PSF1_MAGIC0 ∧ (f.byte 1).val = PSF1_MAGIC1 := ⟨a, b⟩
    have heq : LoadPsf f = finishLoad f.byte f.size 1 sizeofPsf1Header
        (if (f.byte 2).val &&& PSF1_MODE512 ≠ 0 then 512 else 256) (f.byte 3).val 8 1
        ((f.byte 2).val &&& PSF1_MODEHASTAB != 0) := by
      simp only [LoadPsf, hlen, h1, h2, hm, if_true, if_false, and_self]
    have hb : (f.byte 3).val < 256 := (f.byte 3).isLt
    have hcnt : (if (f.byte 2).val &&& PSF1_MODE512 ≠ 0 then 512 else 256) < 65536 := by
      split_ifs <;> omega
    have hG := key sizeofPsf1Header _ (u16 ((f.byte 3).val * 1)) (by decide) hcnt
      (by unfold u16; omega)
    have hu : u16 ((f.byte 3).val * 1) = (f.byte 3).val := by unfold u16; omega
    rw [hu] at hG
    obtain ⟨r1, r2, r3⟩ := hfin 1 sizeofPsf1Header
      (if (f.byte 2).val &&& PSF1_MODE512 ≠ 0 then 512 else 256) (f.byte 3).val 8 1
      ((f.byte 2).val &&& PSF1_MODEHASTAB != 0)
      (4 + (if (f.byte 2).val &&& PSF1_MODE512 ≠ 0 then 512 else 256) * (f.byte 3).val)
      (by rw [hu]; exact hG)
    rw [← heq] at r1 r2 r3
    exact ⟨heq, r1, r2, r3⟩
  · intro a b c d
    have hm1 : ¬ ((f.byte 0).val = PSF1_MAGIC0 ∧ (f.byte 1).val = PSF1_MAGIC1) := by
      rintro ⟨x, -⟩; rw [a] at x; exact absurd x (by decide)
    have hm2 : (f.byte 0).val = PSF2_MAGIC0 ∧ (f.byte 1).val = PSF2_MAGIC1
        ∧ (f.byte 2).val = PSF2_MAGIC2 ∧ (f.byte 3).val = PSF2_MAGIC3 := ⟨a, b, c, d⟩
    have hdec : ¬ (PSF2_MAGIC0 = PSF1_MAGIC0 ∧ PSF2_MAGIC1 = PSF1_MAGIC1) := by decide
    constructor
    · intro h3
      simp only [LoadPsf, hlen, h1, h2, hm1, hm2, hdec, h3, if_true, if_false, and_self]
    · intro hsz
      have h3 : ¬ f.size < sizeofPsf2Header := by omega
      have heq : LoadPsf f = finishLoad f.byte f.size 2 (u16 (le32 f.byte 8))
          (u16 (le32 f.byte 16)) (u16 (le32 f.byte 24)) (u16 (le32 f.byte 28))
          (u16 (u32 (le32 f.byte 28 + 7) / 8))
          (le32 f.byte 12 &&& PSF2_HAS_UNICODE_TABLE != 0) := by
        simp only [LoadPsf, hlen, h1, h2, hm1, hm2, hdec, h3, if_true, if_false, and_self]
      have hG := key (u16 (le32 f.byte 8)) (u16 (le32 f.byte 16))
        (u16 (u16 (le32 f.byte 24) * u16 (u32 (le32 f.byte 28 + 7) / 8)))
        (by unfold u16; omega) (by unfold u16; omega) (by unfold u16; omega)
      obtain ⟨r1, r2, r3⟩ := hfin 2 (u16 (le32 f.byte 8)) (u16 (le32 f.byte 16))
        (u16 (le32 f.byte 24)) (u16 (le32 f.byte 28)) (u16 (u32 (le32 f.byte 28 + 7) / 8))
        (le32 f.byte 12 &&& PSF2_HAS_UNICODE_TABLE != 0) _ hG
      rw [← heq] at r1 r2 r3
      exact ⟨heq, r1, r2, r3⟩
  · intro n1 n2
    have hm1 : ¬ ((f.byte 0).val = PSF1_MAGIC0 ∧ (f.byte 1).val = PSF1_MAGIC1) := n1
    have hm2 : ¬ ((f.byte 0).val = PSF2_MAGIC0 ∧ (f.byte 1).val = PSF2_MAGIC1
        ∧ (f.byte 2).val = PSF2_MAGIC2 ∧ (f.byte 3).val = PSF2_MAGIC3) := n2
    simp only [LoadPsf, hlen, h1, h2, hm1, hm2, if_true, if_false]

/-- C5 at `singlePixelFont`, which starts with `0x36, 0x04` and is accepted with
`format = 1`; at `oneGlyphFont`, which starts with `0x72, 0xb5, 0x4a, 0x86` and is
accepted with `format = 2`; and at `headerOnlyFont`, the same header without the glyph,
which fails the glyph data check. -/
theorem loadPsf_format_detection_witness :
    (∃ psf, LoadPsf singlePixelFont = .ok psf ∧ psf.format = 1) ∧
    (∃ psf, LoadPsf oneGlyphFont = .ok psf ∧ psf.format = 2) ∧
    LoadPsf headerOnlyFont = .error .incompleteGlyphData :=
  ⟨((loadPsf_format_detection singlePixelFont (by decide) (by decide)).1
      (by decide) (by decide)).2.1 (by decide),
   (((loadPsf_format_detection oneGlyphFont (by decide) (by decide)).2.1
      (by decide) (by decide) (by decide) (by decide)).2 (by decide)).2.1 (by decide),
   (((loadPsf_format_detection headerOnlyFont (by decide) (by decide)).2.1
      (by decide) (by decide) (by decide) (by decide)).2 (by decide)).2.2.1 (by decide)⟩

/-- C6 (bounds rejection), evaluated at an input where the code departs from it.
`wrappedCountFont` is 32 bytes long, starts with the variant-2 magic and declares
headersize 32, length 65536, height 8 and width 8, so the declared glyph data ends at
`32 + 65536 * 8 * 1 = 524320`, beyond the buffer.  `LoadPsf` stores the length in the
`uint16_t` field `count`, as 0, checks `32 + 0 * 8 > 32`, and accepts. -/
theorem loadPsf_accepts_wrapped_count :
    sizeofPsf2Header ≤ wrappedCountFont.size ∧
    wrappedCountFont.size <
      le32 wrappedCountFont.byte 8
        + le32 wrappedCountFont.byte 16 * le32 wrappedCountFont.byte 24
          * ((le32 wrappedCountFont.byte 28 + 7) / 8) ∧
    ∃ psf, LoadPsf wrappedCountFont = .ok psf ∧ psf.glyphDataOffset = 32 ∧
      psf.count = 0 ∧ psf.charSize = 8 :=
  ⟨by decide, by decide, ⟨_, rfl, by decide, by decide, by decide⟩⟩

/-- C7 (glyph reads stay inside the validated glyph data), evaluated at an input
where the code departs from it.  `oneGlyphFont` is accepted by `LoadPsf` with
`count = 1` and passes the width guard.  The glyph loop has no check of the character
code against `count`: its first iteration, character code 0x20, reads at
`psfOffset = 32 + 0x20 * 8 = 288`, beyond the glyph data `[32, 40)` and beyond the 40
bytes that were read. -/
theorem main_reads_outside_glyph_data :
    (∃ psf, LoadPsf oneGlyphFont = .ok psf ∧ psf.widthBytes ≤ maxPsfByteWidth ∧
      psf.count = 1 ∧ ¬ first < psf.count ∧
      psf.glyphDataOffset + psf.count * psf.charSize = 40 ∧ psf.dataLen = 40 ∧
      u16 (psf.glyphDataOffset + first * psf.charSize) = 288 ∧
      psf.read 288 = none) ∧
    main oneGlyphFont = .error .readOutsideData :=
  ⟨⟨_, rfl, by decide, by decide, by decide, by decide, by decide, by decide,
    by decide⟩, rfl⟩

/-- C8 (metadata consistency), evaluated at an input where the code departs from it.
`wideFieldFont` declares height 8 and width 65544 and is accepted.  `width` is stored
in a `uint16_t`, as 8, while `widthBytes` is computed from the 32-bit header field,
`(65544 + 7) / 8 = 8193`; `charSize = 8 * 8193 = 65544` is stored in a `uint16_t`,
as 8.  So `widthBytes` is not `ceil(width / 8) = 1` and `charSize` is not
`height * widthBytes`. -/
theorem loadPsf_stores_inconsistent_metadata :
    ∃ psf, LoadPsf wideFieldFont = .ok psf ∧
      psf.height = 8 ∧ psf.width = 8 ∧ psf.widthBytes = 8193 ∧ psf.charSize = 8 ∧
      psf.widthBytes ≠ (psf.width + 7) / 8 ∧
      psf.charSize ≠ psf.height * psf.widthBytes :=
  ⟨_, rfl, by decide, by decide, by decide, by decide, by decide, by decide⟩

/-- C9 (variant-1 header decoding): for every buffer (a file that fits
`data[PSF_BUFFER_SIZE]`) that starts with `0x36, 0x04`, `LoadPsf` accepts it exactly
when `4 + glyphCount * charsize` is at most its length, where `glyphCount` is 512 if
bit `0x01` of the mode byte is set and 256 otherwise; and on acceptance it stores
`format = 1`, that `count`, `height` = the charsize byte, `width = 8`,
`widthBytes = 1`, `charSize = height` and `glyphDataOffset = 4`. -/
theorem loadPsf_variant1_header (f : FileData) (hfit : f.size ≤ PSF_BUFFER_SIZE)
    (h0 : (f.byte 0).val = 0x36) (h1 : (f.byte 1).val = 0x04) :
    ((∃ psf, LoadPsf f = .ok psf) ↔
        4 + (if (f.byte 2).val &&& 0x01 ≠ 0 then 512 else 256) * (f.byte 3).val ≤ f.size) ∧
    ∀ psf, LoadPsf f = .ok psf →
      psf.format = 1 ∧
      psf.count = (if (f.byte 2).val &&& 0x01 ≠ 0 then 512 else 256) ∧
      psf.height = (f.byte 3).val ∧ psf.width = 8 ∧ psf.widthBytes = 1 ∧
      psf.charSize = psf.height ∧ psf.glyphDataOffset = 4 := by
  have hb : (f.byte 3).val < 256 := (f.byte 3).isLt
  have hu16 : u16 ((f.byte 3).val * 1) = (f.byte 3).val := by
    unfold u16; omega
  have hcnt : (if (f.byte 2).val &&& 0x01 ≠ 0 then 512 else 256) ≤ 512 := by
    split_ifs <;> omega
  have hprod : (if (f.byte 2).val &&& 0x01 ≠ 0 then 512 else 256) * (f.byte 3).val
      ≤ 512 * 255 := Nat.mul_le_mul hcnt (by omega)
  have hu32 : u32 (4 + u32 ((if (f.byte 2).val &&& 0x01 ≠ 0 then 512 else 256)
      * (f.byte 3).val)) = 4 + (if (f.byte 2).val &&& 0x01 ≠ 0 then 512 else 256)
      * (f.byte 3).val := by
    unfold u32; omega
  constructor
  · constructor
    · rintro ⟨psf, h⟩
      obtain ⟨-, -, hc | hc⟩ := loadPsf_ok_cases h
      · obtain ⟨-, hle⟩ := finishLoad_fields hc.2.2
        simp only [sizeofPsf1Header, PSF1_MODE512, hu16] at hle
        rw [hu32] at hle
        exact hle
      · exact absurd ⟨h0, h1⟩ hc.1
    · intro hle
      have hlen : min f.size PSF_BUFFER_SIZE = f.size := Nat.min_eq_left hfit
      have a1 : ¬ f.size < sizeofPsf1Header := by unfold sizeofPsf1Header; omega
      have a2 : ¬ (f.size = PSF_BUFFER_SIZE ∧ PSF_BUFFER_SIZE < f.size) := by omega
      have hm : (f.byte 0).val = PSF1_MAGIC0 ∧ (f.byte 1).val = PSF1_MAGIC1 := ⟨h0, h1⟩
      simp only [LoadPsf, hlen, a1, a2, hm, if_true, if_false, and_self]
      rw [finishLoad_ok_iff]
      simp only [sizeofPsf1Header, PSF1_MODE512, hu16]
      rw [hu32]
      exact hle
  · intro psf h
    obtain ⟨-, -, hc | hc⟩ := loadPsf_ok_cases h
    · obtain ⟨hpsf, -⟩ := finishLoad_fields hc.2.2
      subst hpsf
      simp only [hu16, sizeofPsf1Header, PSF1_MODE512]
      trivial
    · exact absurd ⟨h0, h1⟩ hc.1

/-- C9 at `singlePixelFont`: mode 0, charsize 8, 2052 bytes. -/
theorem loadPsf_variant1_header_witness :
    singlePixelFont.size ≤ PSF_BUFFER_SIZE ∧
    (singlePixelFont.byte 0).val = 0x36 ∧ (singlePixelFont.byte 1).val = 0x04 ∧
    ((∃ psf, LoadPsf singlePixelFont = .ok psf) ↔
        4 + (if (singlePixelFont.byte 2).val &&& 0x01 ≠ 0 then 512 else 256)
          * (singlePixelFont.byte 3).val ≤ singlePixelFont.size) ∧
    ∀ psf, LoadPsf singlePixelFont = .ok psf →
      psf.format = 1 ∧
      psf.count = (if (singlePixelFont.byte 2).val &&& 0x01 ≠ 0 then 512 else 256) ∧
      psf.height = (singlePixelFont.byte 3).val ∧ psf.width = 8 ∧ psf.widthBytes = 1 ∧
      psf.charSize = psf.height ∧ psf.glyphDataOffset = 4 :=
  ⟨by decide, by decide, by decide,
   loadPsf_variant1_header singlePixelFont (by decide) (by decide) (by decide)⟩

/-- C10 (Unicode table offset): for every file accepted by `LoadPsf`, the format is
1 or 2, and `unicodeTableOffset` is `glyphDataOffset + count * charSize` (on the stored
fields) when the presence flag is set, bit `0x02` of the mode byte for variant 1 and
bit `0x01` of the flags field for variant 2, and 0 when it is clear. -/
theorem loadPsf_unicodeTableOffset (f : FileData) (psf : PSF) (h : LoadPsf f = .ok psf) :
    (psf.format = 1 ∨ psf.format = 2) ∧
    (psf.format = 1 → psf.unicodeTableOffset =
      if (f.byte 2).val &&& 0x02 ≠ 0 then psf.glyphDataOffset + psf.count * psf.charSize
      else 0) ∧
    (psf.format = 2 → psf.unicodeTableOffset =
      if le32 f.byte 12 &&& 0x01 ≠ 0 then psf.glyphDataOffset + psf.count * psf.charSize
      else 0) := by
  have key : ∀ off count cs : Nat, off < 65536 → count < 65536 → cs < 65536 →
      u32 (off + u32 (count * cs)) = off + count * cs := by
    intro off count cs h1 h2 h3
    have : count * cs ≤ 65535 * 65535 := Nat.mul_le_mul (by omega) (by omega)
    unfold u32; omega
  obtain ⟨-, -, hc | hc⟩ := loadPsf_ok_cases h
  · obtain ⟨hpsf, -⟩ := finishLoad_fields hc.2.2
    subst hpsf
    have hcnt : (if (f.byte 2).val &&& PSF1_MODE512 ≠ 0 then 512 else 256) < 65536 := by
      split_ifs <;> omega
    have hk := key sizeofPsf1Header _ (u16 ((f.byte 3).val * 1)) (by decide) hcnt
      (by unfold u16; omega)
    refine ⟨Or.inl rfl, fun _ => ?_, fun h2 => by simp at h2⟩
    simp only [hk, PSF1_MODEHASTAB, bne_iff_ne, ne_eq]
  · obtain ⟨hpsf, -⟩ := finishLoad_fields hc.2.2
    subst hpsf
    have hk := key (u16 (le32 f.byte 8)) (u16 (le32 f.byte 16))
      (u16 (u16 (le32 f.byte 24) * u16 (u32 (le32 f.byte 28 + 7) / 8)))
      (by unfold u16; omega) (by unfold u16; omega) (by unfold u16; omega)
    refine ⟨Or.inr rfl, fun h1 => by simp at h1, fun _ => ?_⟩
    simp only [hk, PSF2_HAS_UNICODE_TABLE, bne_iff_ne, ne_eq]

/-- C10 at `tableFont`, whose mode byte has bit `0x02` set: the table starts at
`4 + 256 * 1 = 260`. -/
theorem loadPsf_unicodeTableOffset_witness :
    LoadPsf tableFont = .ok tablePsf ∧
    (tablePsf.format = 1 ∨ tablePsf.format = 2) ∧
    (tablePsf.format = 1 → tablePsf.unicodeTableOffset =
      if (tableFont.byte 2).val &&& 0x02 ≠ 0 then
        tablePsf.glyphDataOffset + tablePsf.count * tablePsf.charSize
      else 0) ∧
    (tablePsf.format = 2 → tablePsf.unicodeTableOffset =
      if le32 tableFont.byte 12 &&& 0x01 ≠ 0 then
        tablePsf.glyphDataOffset + tablePsf.count * tablePsf.charSize
      else 0) :=
  ⟨rfl, loadPsf_unicodeTableOffset tableFont tablePsf rfl⟩

/-- C11 (GlyphForCodePoint): for every font that `LoadPsf` accepts as variant 1 with the
table bit of its mode byte set, and every code point `cp`, `FindGlyphForUnicode`
returns the number of separator entries `0xFFFF` before the first entry equal to `cp`,
among the 16-bit entries that start at `unicodeTableOffset` and lie wholly below
`dataLen`, and it returns `UINT16_MAX` when none of them is equal to `cp`; it returns
`UINT16_MAX` for every accepted variant-2 font, and for every accepted font whose
stored table offset is 0, which for variant 1 is every font with the table bit
clear. -/
theorem findGlyphForUnicode_first_entry (f : FileData) (psf : PSF) (cp : Nat)
    (hload : LoadPsf f = .ok psf) :
    (psf.format = 1 → (f.byte 2).val &&& PSF1_MODEHASTAB ≠ 0 →
      (∀ k, k < unitCount16 psf → unit16 psf k = cp → (∀ j, j < k → unit16 psf j ≠ cp) →
        FindGlyphForUnicode psf cp = some (countBelow (isSep16 psf) k)) ∧
      ((∀ k, k < unitCount16 psf → unit16 psf k ≠ cp) →
        FindGlyphForUnicode psf cp = some UINT16_MAX)) ∧
    (psf.format = 2 → FindGlyphForUnicode psf cp = some UINT16_MAX) ∧
    (psf.unicodeTableOffset = 0 → FindGlyphForUnicode psf cp = some UINT16_MAX) ∧
    (psf.format = 1 → (f.byte 2).val &&& PSF1_MODEHASTAB = 0 →
      FindGlyphForUnicode psf cp = some UINT16_MAX) := by
  obtain ⟨hu, hlen⟩ := loadPsf_table_le hload
  refine ⟨fun hfmt hflag => ?_, fun hfmt => ?_, fun h0 => ?_, fun hfmt hflag => ?_⟩
  · exact findGlyphForUnicode_v1 psf hlen hu hfmt
      ((loadPsf_v1_table hload hfmt).1.2 hflag) cp
  · simp [FindGlyphForUnicode, hfmt]
  · simp [FindGlyphForUnicode, h0]
  · have h0 : psf.unicodeTableOffset = 0 := by
      by_contra hne
      exact (loadPsf_v1_table hload hfmt).1.1 hne hflag
    simp [FindGlyphForUnicode, h0]

/-- C11 at the spec's table `[0x0041, SEP, 0x0042, SEP]` (`tableFont`): glyph 0 for
`0x0041`, glyph 1 for `0x0042`, not found for `0x5A`. -/
theorem findGlyphForUnicode_first_entry_witness :
    LoadPsf tableFont = .ok tablePsf ∧
    FindGlyphForUnicode tablePsf 0x41 = some 0 ∧
    FindGlyphForUnicode tablePsf 0x42 = some 1 ∧
    FindGlyphForUnicode tablePsf 0x5A = some UINT16_MAX :=
  ⟨rfl,
   ((findGlyphForUnicode_first_entry tableFont tablePsf 0x41 rfl).1 rfl (by decide)).1 0
     (by decide) (by decide) (by decide),
   ((findGlyphForUnicode_first_entry tableFont tablePsf 0x42 rfl).1 rfl (by decide)).1 2
     (by decide) (by decide) (by decide),
   ((findGlyphForUnicode_first_entry tableFont tablePsf 0x5A rfl).1 rfl (by decide)).2
     (by decide)⟩

/-- C12 (OffsetForGlyph): for every accepted font with a Unicode table (a nonzero stored
`unicodeTableOffset`) and every `glyphIndex < count`, `FindUnicodeEntryForGlyph` returns
a value `r`; `r` is 0 exactly when fewer than `glyphIndex` separators lie wholly below
`dataLen`, among the units that start at `unicodeTableOffset` (2-byte values, separator
`0xFFFF`, for variant 1; bytes, separator `0xFF`, for variant 2); and otherwise `r` is
the offset of a unit `k` with exactly `glyphIndex` separators before it, which is
`unicodeTableOffset` for `glyphIndex = 0` and is the offset just after a separator, the
`glyphIndex`-th, otherwise. -/
theorem findUnicodeEntryForGlyph_skips_runs (f : FileData) (psf : PSF) (glyphIndex : Nat)
    (hload : LoadPsf f = .ok psf) (htab : psf.unicodeTableOffset ≠ 0)
    (hgi : glyphIndex < psf.count) :
    (psf.format = 1 → ∃ r, FindUnicodeEntryForGlyph psf glyphIndex = some r ∧
      (r = 0 ↔ countBelow (isSep16 psf) (unitCount16 psf) < glyphIndex) ∧
      (r ≠ 0 → ∃ k, k ≤ unitCount16 psf ∧ r = psf.unicodeTableOffset + 2 * k ∧
        countBelow (isSep16 psf) k = glyphIndex ∧ (glyphIndex = 0 → k = 0) ∧
        (0 < glyphIndex → 0 < k ∧ isSep16 psf (k - 1) = true))) ∧
    (psf.format = 2 → ∃ r, FindUnicodeEntryForGlyph psf glyphIndex = some r ∧
      (r = 0 ↔ countBelow (isSep8 psf) (unitCount8 psf) < glyphIndex) ∧
      (r ≠ 0 → ∃ k, k ≤ unitCount8 psf ∧ r = psf.unicodeTableOffset + 1 * k ∧
        countBelow (isSep8 psf) k = glyphIndex ∧ (glyphIndex = 0 → k = 0) ∧
        (0 < glyphIndex → 0 < k ∧ isSep8 psf (k - 1) = true))) := by
  obtain ⟨hu, hlen⟩ := loadPsf_table_le hload
  constructor
  · intro hfmt
    obtain ⟨h1, h2⟩ := findUnicodeEntry_v1 psf hlen hu hfmt htab glyphIndex (by omega)
    exact entry_result 2 _ _ _ _ _ htab h1 h2
  · intro hfmt
    obtain ⟨h1, h2⟩ := findUnicodeEntry_v2 psf hlen hu (by omega) htab glyphIndex
      (by omega)
    exact entry_result 1 _ _ _ _ _ htab h1 h2

/-- C12 at `tableFont` (variant 1, table `[0x0041, SEP, 0x0042, SEP]` at byte 260) and
at `utf8TableFont` (variant 2, table `41 FF C3 A9 42 FF` at byte 34): the entries of
glyph 1 start at byte 264 and at byte 36. -/
theorem findUnicodeEntryForGlyph_skips_runs_witness :
    LoadPsf tableFont = .ok tablePsf ∧ FindUnicodeEntryForGlyph tablePsf 1 = some 264 ∧
    LoadPsf utf8TableFont = .ok utf8TablePsf ∧
    FindUnicodeEntryForGlyph utf8TablePsf 1 = some 36 := by
  refine ⟨rfl, ?_, rfl, ?_⟩
  · obtain ⟨r, hr, hz, hk⟩ := (findUnicodeEntryForGlyph_skips_runs tableFont tablePsf 1 rfl
      (by decide) (by decide)).1 rfl
    have hne : r ≠ 0 := fun h => absurd (hz.1 h) (by decide)
    obtain ⟨k, hkn, hrk, hc, -, hs⟩ := hk hne
    have key : ∀ k, k ≤ unitCount16 tablePsf → countBelow (isSep16 tablePsf) k = 1 →
        (0 < k ∧ isSep16 tablePsf (k - 1) = true) → k = 2 := by decide
    have hk2 := key k hkn hc (hs (by decide))
    subst hk2
    rw [hr, hrk]
    rfl
  · obtain ⟨r, hr, hz, hk⟩ := (findUnicodeEntryForGlyph_skips_runs utf8TableFont
      utf8TablePsf 1 rfl (by decide) (by decide)).2 rfl
    have hne : r ≠ 0 := fun h => absurd (hz.1 h) (by decide)
    obtain ⟨k, hkn, hrk, hc, -, hs⟩ := hk hne
    have key : ∀ k, k ≤ unitCount8 utf8TablePsf → countBelow (isSep8 utf8TablePsf) k = 1 →
        (0 < k ∧ isSep8 utf8TablePsf (k - 1) = true) → k = 2 := by decide
    have hk2 := key k hkn hc (hs (by decide))
    subst hk2
    rw [hr, hrk]
    rfl

/-- C13 (GlyphForUtf8): for every accepted variant-2 font with a Unicode table (a
nonzero stored `unicodeTableOffset`) and every input `u` whose lead byte decodes to a
length `len` other than 0, `FindGlyphForUtf8` returns a value `g`; `g` differs from
`UINT16_MAX` exactly when the walk over the table (entry 0 at `unicodeTableOffset`; a
`0xFF` byte is an entry of one byte, any other entry has the length its lead byte
decodes to) has a first entry whose `len` bytes, all below `dataLen`, are the `len`
bytes of `u`; and `g` is then the number of `0xFF` entries before that entry.  It
returns `UINT16_MAX` when `len = 0`, for every variant-1 font and for every font whose
stored table offset is 0. -/
theorem findGlyphForUtf8_walk (f : FileData) (psf : PSF) (u : Nat → Byte)
    (hload : LoadPsf f = .ok psf) :
    (psf.format = 2 → psf.unicodeTableOffset ≠ 0 → Utf8CharLength (u 0).val ≠ 0 →
      ∃ g, FindGlyphForUtf8 psf u = some g ∧
        (g ≠ UINT16_MAX ↔ ∃ k, FirstMatch psf u (Utf8CharLength (u 0).val) k) ∧
        (∀ k, FirstMatch psf u (Utf8CharLength (u 0).val) k →
          g = countBelow (isBoundary psf) k)) ∧
    (Utf8CharLength (u 0).val = 0 ∨ psf.format = 1 ∨ psf.unicodeTableOffset = 0 →
      FindGlyphForUtf8 psf u = some UINT16_MAX) := by
  obtain ⟨hu, hlen⟩ := loadPsf_table_le hload
  constructor
  · intro hfmt htab hl
    obtain ⟨h1, h2⟩ := findGlyphForUtf8_v2 psf hlen hu (by omega) htab u hl
    by_cases hex : ∃ k, FirstMatch psf u (Utf8CharLength (u 0).val) k
    · obtain ⟨k, hk⟩ := hex
      obtain ⟨hres, hlt⟩ := h1 k hk
      refine ⟨_, hres, ⟨fun _ => ⟨k, hk⟩, fun _ => by omega⟩, fun k' hk' => ?_⟩
      have := (h1 k' hk').1
      rw [hres] at this
      exact Option.some.inj this
    · have hno : ∀ k, ¬ FirstMatch psf u (Utf8CharLength (u 0).val) k :=
        fun k hk => hex ⟨k, hk⟩
      exact ⟨_, h2 hno, ⟨fun h => absurd rfl h, fun h => absurd h hex⟩,
        fun k hk => absurd hk (hno k)⟩
  · intro h
    unfold FindGlyphForUtf8
    rcases h with h | h | h
    · by_cases h1 : psf.format = 1 ∨ psf.unicodeTableOffset = 0
      · rw [if_pos h1]
      · rw [if_neg h1, if_pos h]
    · rw [if_pos (Or.inl h)]
    · rw [if_pos (Or.inr h)]

/-- C13 at `utf8TableFont` (table `41 FF C3 A9 42 FF`): the sequence `C3 A9` is entry 2
of the walk, after one boundary, so glyph 1 is returned. -/
theorem findGlyphForUtf8_walk_witness :
    LoadPsf utf8TableFont = .ok utf8TablePsf ∧
    FindGlyphForUtf8 utf8TablePsf (bytesOf [0xC3, 0xA9]) = some 1 := by
  refine ⟨rfl, ?_⟩
  obtain ⟨g, hg, -, hk⟩ := (findGlyphForUtf8_walk utf8TableFont utf8TablePsf
    (bytesOf [0xC3, 0xA9]) rfl).1 rfl (by decide) (by decide)
  have h2 : FirstMatch utf8TablePsf (bytesOf [0xC3, 0xA9])
      (Utf8CharLength (bytesOf [0xC3, 0xA9] 0).val) 2 := by
    unfold FirstMatch bytesMatch
    decide
  rw [hk 2 h2] at hg
  exact hg

/-- C14 (an out-of-range glyph index is rejected), evaluated at an input where the code
departs from it.  `utf8TableFont` is accepted with `count = 2`; its glyph data is bytes
32 and 33, its Unicode table `41 FF C3 A9 42 FF` starts at byte 34.  Both functions
test `index > p->count`, so index 2, which is `count`, is not rejected: `DisplayGlyph`
reads byte 34, the first byte of the table, prints it as a row and returns `true`, and
`FindUnicodeEntryForGlyph` skips two runs and returns 40. -/
theorem index_equal_to_count_not_rejected :
    ∃ psf, LoadPsf utf8TableFont = .ok psf ∧ psf.count = 2 ∧ ¬ 2 < psf.count ∧
      psf.glyphDataOffset + psf.count * psf.charSize = 34 ∧
      DisplayGlyph psf 2
        = some (true, ['.', 'X', '.', '.', '.', '.', '.', 'X', Char.ofNat 10]) ∧
      FindUnicodeEntryForGlyph psf 2 = some 40 :=
  ⟨_, rfl, by decide, by decide, by decide, by decide!, by decide!⟩

/-- C15 (the bounding box is minimal), evaluated at an input where the code departs
from it.  `paddedRowFont` is accepted by `LoadPsf` and passes the width guard; glyph
0x20 has one foreground pixel, at row 0 and column 1, and a set padding bit in row 1.
The row loop tests whole bytes, so row 1 counts as used: the entry is
`{0, 1, 2, 4, 1, 0}`, a box of rows 0 and 1, and source row `yOffset + height - 1 = 1`
has no foreground pixel. -/
theorem padding_bit_row_in_box :
    (∃ psf, LoadPsf paddedRowFont = .ok psf ∧ psf.format = 2 ∧ psf.count = 127 ∧
      psf.height = 2 ∧ psf.width = 4 ∧ psf.widthBytes ≤ maxPsfByteWidth ∧
      srcPixel psf 0x20 0 1 = true ∧
      ∀ col, col < psf.width → srcPixel psf 0x20 1 col = false) ∧
    ∃ out, main paddedRowFont = .ok out ∧
      (out.glyphs[0]?, out.bitmaps[0]?) = (some ⟨0, 1, 2, 4, 1, 0⟩, some [0x80]) :=
  ⟨⟨_, rfl, by decide, by decide, by decide, by decide, by decide, by decide, by decide⟩,
   main_ok_of_eval paddedRowFont (fun o => (o.glyphs[0]?, o.bitmaps[0]?)) _ (by decide!)⟩

/-- C16 (the width guard bounds the width and the indices), evaluated at inputs where
the code departs from it.  `paddedLastFont` is accepted by `LoadPsf` with `width = 4`
and `widthBytes = 1`, and passes the width guard; the one row of glyph 0x7E, byte 158,
has a set padding bit and no pixel.  The row loop takes the row as used, the column
loop finds no column and leaves `startCol = endCol = UINT8_MAX`, and the repack runs
over column 255: its source index is `p + (255 >> 3) = 158 + 31`, outside the glyph's
row of one byte, and here beyond the 159 bytes of the file.  `wrappedWidthFont`
declares the width 524281: `widthBytes = (524281 + 7) / 8 = 65536` is stored in a
`uint16_t`, as 0, so the guard passes, and `width` is stored as 65529. -/
theorem repack_reads_outside_row :
    LoadPsf paddedLastFont = .ok paddedLastPsf ∧
    paddedLastPsf.widthBytes ≤ maxPsfByteWidth ∧ last < paddedLastPsf.count ∧
    scanRows paddedLastPsf paddedLastPsf.height 0 UINT8_MAX UINT8_MAX [0, 0, 0, 0] 158
      = some (0, 0, [1, 0, 0, 0]) ∧
    scanCols [1, 0, 0, 0] paddedLastPsf.width 0 UINT8_MAX UINT8_MAX = some (255, 255) ∧
    ¬ 255 >>> 3 < paddedLastPsf.widthBytes ∧
    paddedLastPsf.read (158 + (255 >>> 3)) = none ∧
    main paddedLastFont = .error .readOutsideData ∧
    ∃ psf, LoadPsf wrappedWidthFont = .ok psf ∧ psf.widthBytes ≤ maxPsfByteWidth ∧
      psf.width = 65529 :=
  ⟨rfl, by decide, by decide, by decide, by decide, by decide, by decide, rfl,
   ⟨_, rfl, by decide, by decide⟩⟩

/-- C17 (`Utf8CharLength`): for every byte `b` the function returns 1 if `b < 0x80`, 2 if
`0xC0 ≤ b ≤ 0xDF`, 3 if `0xE0 ≤ b ≤ 0xEF`, 4 if `0xF0 ≤ b ≤ 0xF7`, and 0 for every other
byte, `0x80 .. 0xBF` and `0xF8 .. 0xFF`; so 0 for the separator `0xFF` and for `0xFE`. -/
theorem utf8CharLength_lead_byte :
    (∀ b : Byte, Utf8CharLength b.val =
      if b.val < 0x80 then 1
      else if 0xC0 ≤ b.val ∧ b.val ≤ 0xDF then 2
      else if 0xE0 ≤ b.val ∧ b.val ≤ 0xEF then 3
      else if 0xF0 ≤ b.val ∧ b.val ≤ 0xF7 then 4
      else 0) ∧
    (∀ b : Byte, (0x80 ≤ b.val ∧ b.val ≤ 0xBF) ∨ 0xF8 ≤ b.val → Utf8CharLength b.val = 0) ∧
    Utf8CharLength PSF2_SEPARATOR = 0 ∧ Utf8CharLength 0xFE = 0 := by
  refine ⟨by decide!, by decide!, by decide, by decide⟩

/-- C18 (the cropped box lies inside the source raster), evaluated at an input where
the code departs from it.  `paddedWideFont` is accepted by `LoadPsf` and passes the
width guard; the row of glyph 0x20 has no pixel and a set padding bit.  The row loop
takes the row as used, the column loop leaves `startCol = endCol = UINT8_MAX`, and the
entry is `{0, 1, 1, 12, -1, 0}`: `xOffset` is `(int8_t)255 = -1`. -/
theorem padding_bit_negative_xOffset :
    (∃ psf, LoadPsf paddedWideFont = .ok psf ∧ psf.format = 2 ∧ psf.count = 127 ∧
      psf.height = 1 ∧ psf.width = 12 ∧ psf.widthBytes ≤ maxPsfByteWidth) ∧
    ∃ out g, main paddedWideFont = .ok out ∧ out.glyphs[0]? = some g ∧
      g = ⟨0, 1, 1, 12, -1, 0⟩ ∧ g.xOffset < 0 := by
  refine ⟨⟨_, rfl, by decide, by decide, by decide, by decide, by decide⟩, ?_⟩
  obtain ⟨out, hmain, hg⟩ := main_ok_of_eval paddedWideFont (fun o => o.glyphs[0]?)
    (some ⟨0, 1, 1, 12, -1, 0⟩) (by decide!)
  exact ⟨out, _, hmain, hg, rfl, by decide⟩

/-- C19 (the two variant-1 queries agree): for every font that `LoadPsf` accepts as
variant 1 with the table bit of its mode byte set, and every code point `cp` (different from the separator
or not), if `FindGlyphForUnicode` returns `g` and `g < count`, then
`FindUnicodeEntryForGlyph` returns for `g` a nonzero offset `o`, and `cp` is the 16-bit
entry at `o + 2 * d` for some `d`, with every entry from `o` up to there read below
`dataLen` and different from the separator. -/
theorem table_queries_agree (f : FileData) (psf : PSF) (cp g : Nat)
    (hload : LoadPsf f = .ok psf) (hfmt : psf.format = 1)
    (hflag : (f.byte 2).val &&& PSF1_MODEHASTAB ≠ 0)
    (hg : FindGlyphForUnicode psf cp = some g) (hgc : g < psf.count) :
    ∃ o d, FindUnicodeEntryForGlyph psf g = some o ∧ o ≠ 0 ∧
      psf.read16 (o + 2 * d) = some cp ∧
      ∀ j, j < d → ∃ x, psf.read16 (o + 2 * j) = some x ∧ x ≠ PSF1_SEPARATOR := by
  obtain ⟨hu, hlen⟩ := loadPsf_table_le hload
  obtain ⟨htab', hcount⟩ := loadPsf_v1_table hload hfmt
  have htab := htab'.2 hflag
  have hn : unitCount16 psf = (psf.dataLen - psf.unicodeTableOffset) / 2 := rfl
  obtain ⟨hfound, hnot⟩ := findGlyphForUnicode_v1 psf hlen hu hfmt htab cp
  by_cases hex : ∃ k, k < unitCount16 psf ∧ unit16 psf k = cp
  · classical
    have hk := Nat.find_spec hex
    have hmin : ∀ j, j < Nat.find hex → unit16 psf j ≠ cp := by
      intro j hj hc
      exact Nat.find_min hex hj ⟨by omega, hc⟩
    generalize Nat.find hex = k at hk hmin
    have hres := hfound k hk.1 hk.2 hmin
    rw [hg] at hres
    have hgk : g = countBelow (isSep16 psf) k := Option.some.inj hres
    obtain ⟨k', hk'k, hck', h0, hs⟩ := countBelow_reach (isSep16 psf) k g (by omega)
    have hentry := (findUnicodeEntry_v1 psf hlen hu hfmt htab g (by omega)).1 k'
      (by omega) hck' h0 hs
    have hnosep : ∀ j, k' ≤ j → j < k → isSep16 psf j = false := by
      intro j h1 h2
      by_contra hc
      have := countBelow_lt (isSep16 psf) k' j k h1 h2 (by simpa using hc)
      omega
    refine ⟨psf.unicodeTableOffset + 2 * k', k - k', hentry, by omega, ?_, ?_⟩
    · have : psf.unicodeTableOffset + 2 * k' + 2 * (k - k')
          = psf.unicodeTableOffset + 2 * k := by omega
      rw [this, read16_of_lt psf _ (by omega)]
      exact congrArg some hk.2
    · intro j hj
      refine ⟨unit16 psf (k' + j), ?_, ?_⟩
      · have : psf.unicodeTableOffset + 2 * k' + 2 * j
            = psf.unicodeTableOffset + 2 * (k' + j) := by omega
        rw [this, read16_of_lt psf _ (by omega)]
        rfl
      · have := hnosep (k' + j) (by omega) (by omega)
        simpa [isSep16] using this
  · have hno : ∀ k, k < unitCount16 psf → unit16 psf k ≠ cp :=
      fun k hk hc => hex ⟨k, hk, hc⟩
    have hres := hnot hno
    rw [hg] at hres
    have : g = UINT16_MAX := Option.some.inj hres
    have h16 : UINT16_MAX = 65535 := rfl
    omega

/-- C19 at `tableFont`: `0x0042` is found as glyph 1, whose entries start at byte 264,
where `0x0042` is the first entry. -/
theorem table_queries_agree_witness :
    LoadPsf tableFont = .ok tablePsf ∧ FindGlyphForUnicode tablePsf 0x42 = some 1 ∧
    ∃ o d, FindUnicodeEntryForGlyph tablePsf 1 = some o ∧ o ≠ 0 ∧
      tablePsf.read16 (o + 2 * d) = some 0x42 ∧
      ∀ j, j < d → ∃ x, tablePsf.read16 (o + 2 * j) = some x ∧ x ≠ PSF1_SEPARATOR :=
  ⟨rfl, by decide!,
   table_queries_agree tableFont tablePsf 0x42 1 rfl rfl (by decide) (by decide!)
     (by decide)⟩

/-- C20 (offset 0 marks an absent table), evaluated at an input where the code departs
from it.  `zeroOffsetFont` is a variant-2 header with `headersize = 0`, `length = 0` and
bit `PSF2_HAS_UNICODE_TABLE` of `flags` set.  `LoadPsf` has no check of `headersize`
against the size of the header: it accepts the file and stores
`unicodeTableOffset = 0 + 0 * 8 = 0`, the value that stands for "no table", so
`FindGlyphForUtf8` returns `UINT16_MAX` without a look at the bytes, also for the byte
`0x72` that is at offset 0. -/
theorem flagged_table_offset_zero :
    ∃ psf, LoadPsf zeroOffsetFont = .ok psf ∧ psf.format = 2 ∧
      le32 zeroOffsetFont.byte 12 &&& PSF2_HAS_UNICODE_TABLE ≠ 0 ∧
      psf.glyphDataOffset = 0 ∧ psf.count = 0 ∧ psf.unicodeTableOffset = 0 ∧
      (psf.data 0).val = 0x72 ∧
      FindGlyphForUtf8 psf (bytesOf [0x72]) = some UINT16_MAX :=
  ⟨_, rfl, by decide, by decide, by decide, by decide, by decide, by decide, by decide⟩

/-! ## Further properties: well-formed fonts and untruncated headers -/

/-- Round-trip of the crop on well-formed fonts: for every font accepted by `LoadPsf`
that passes the width guard, stores `widthBytes = ceil(width / 8)` and
`charSize = height * widthBytes`, has at most 128 rows and more than 0x7E glyphs, and
has no set padding bit in the glyphs 0x20..0x7E, and for every glyph code `0x20 + i` of
that range with a foreground pixel: `main` prints for it an entry whose box
`width x height` at `(xOffset, yOffset)` lies inside the raster, the bits of the printed
bytes, most significant first and row-major, are the source pixels of the box, and every
foreground pixel of the raster lies in the box. -/
theorem crop_roundtrip_wellFormed (f : FileData) (psf : PSF) (i : Nat)
    (hload : LoadPsf f = .ok psf) (hguard : psf.widthBytes ≤ maxPsfByteWidth)
    (hwbeq : psf.widthBytes = (psf.width + 7) / 8)
    (hcs : psf.charSize = psf.height * psf.widthBytes)
    (hh : psf.height ≤ 128) (hcount : last < psf.count)
    (hpad : ∀ code, first ≤ code → code ≤ last → NoPadding psf code)
    (hi : i < 95)
    (hfg : ∃ row col, row < psf.height ∧ col < psf.width ∧
      srcPixel psf (first + i) row col = true) :
    ∃ out g bytes, main f = .ok out ∧ out.glyphs[i]? = some g ∧
      out.bitmaps[i]? = some bytes ∧
      ∃ x0 y0 : Nat, g.xOffset = (x0 : Int) ∧ g.yOffset = (y0 : Int) ∧
        x0 + g.width ≤ psf.width ∧ y0 + g.height ≤ psf.height ∧
        (∀ r c, r < g.height → c < g.width →
          emittedBit bytes (r * g.width + c) = srcPixel psf (first + i) (y0 + r) (x0 + c)) ∧
        (∀ row col, row < psf.height → col < psf.width →
          srcPixel psf (first + i) row col = true →
          y0 ≤ row ∧ row < y0 + g.height ∧ x0 ≤ col ∧ col < x0 + g.width) := by
  obtain ⟨out, hmain, -, -, hall⟩ := main_spec f psf hload hguard hwbeq hcs hh hcount hpad
  obtain ⟨g, bytes, hg, hb, ⟨-, -, -, hbox⟩, -⟩ := hall i hi
  obtain ⟨x0, y0, hx, hy, -, -, hxw, hyh, hbits, hin, -⟩ := hbox hfg
  exact ⟨out, g, bytes, hmain, hg, hb, x0, y0, hx, hy, hxw, hyh, hbits, hin⟩

/-- The theorem `crop_roundtrip_wellFormed` at `singlePixelFont`, glyph 0x41 (`i = 33`). -/
theorem crop_roundtrip_wellFormed_witness :
    ∃ out g bytes, main singlePixelFont = .ok out ∧ out.glyphs[33]? = some g ∧
      out.bitmaps[33]? = some bytes ∧
      ∃ x0 y0 : Nat, g.xOffset = (x0 : Int) ∧ g.yOffset = (y0 : Int) ∧
        x0 + g.width ≤ singlePixelPsf.width ∧ y0 + g.height ≤ singlePixelPsf.height ∧
        (∀ r c, r < g.height → c < g.width →
          emittedBit bytes (r * g.width + c)
            = srcPixel singlePixelPsf (first + 33) (y0 + r) (x0 + c)) ∧
        (∀ row col, row < singlePixelPsf.height → col < singlePixelPsf.width →
          srcPixel singlePixelPsf (first + 33) row col = true →
          y0 ≤ row ∧ row < y0 + g.height ∧ x0 ≤ col ∧ col < x0 + g.width) :=
  crop_roundtrip_wellFormed singlePixelFont singlePixelPsf 33 rfl (by decide) (by decide)
    (by decide) (by decide) (by decide) (fun code _ _ => singlePixelFont_noPadding code)
    (by decide) ⟨0, 0, by decide, by decide, by decide⟩

/-- Blank glyph on well-formed fonts: under the conditions of
`crop_roundtrip_wellFormed`, a glyph code `0x20 + i` of the range without foreground
pixel gets `width = height = xOffset = yOffset = 0`, `xAdvance` = the font width, and
no bytes. -/
theorem blank_glyph_wellFormed (f : FileData) (psf : PSF) (i : Nat)
    (hload : LoadPsf f = .ok psf) (hguard : psf.widthBytes ≤ maxPsfByteWidth)
    (hwbeq : psf.widthBytes = (psf.width + 7) / 8)
    (hcs : psf.charSize = psf.height * psf.widthBytes)
    (hh : psf.height ≤ 128) (hcount : last < psf.count)
    (hpad : ∀ code, first ≤ code → code ≤ last → NoPadding psf code)
    (hi : i < 95)
    (hblank : ∀ row col, row < psf.height → col < psf.width →
      srcPixel psf (first + i) row col = false) :
    ∃ out g, main f = .ok out ∧ out.glyphs[i]? = some g ∧
      g.width = 0 ∧ g.height = 0 ∧ g.xOffset = 0 ∧ g.yOffset = 0 ∧
      g.xAdvance = psf.width ∧ out.bitmaps[i]? = some [] := by
  obtain ⟨out, hmain, -, -, hall⟩ := main_spec f psf hload hguard hwbeq hcs hh hcount hpad
  obtain ⟨g, bytes, hg, hb, ⟨hxa, -, hzero, -⟩, -⟩ := hall i hi
  obtain ⟨h1, h2, h3, h4, h5⟩ := hzero hblank
  exact ⟨out, g, hmain, hg, h1, h2, h3, h4, hxa, by rw [hb, h5]⟩

/-- The theorem `blank_glyph_wellFormed` at `singlePixelFont`, glyph 0x20 (`i = 0`). -/
theorem blank_glyph_wellFormed_witness :
    ∃ out g, main singlePixelFont = .ok out ∧ out.glyphs[0]? = some g ∧
      g.width = 0 ∧ g.height = 0 ∧ g.xOffset = 0 ∧ g.yOffset = 0 ∧
      g.xAdvance = singlePixelPsf.width ∧ out.bitmaps[0]? = some [] :=
  blank_glyph_wellFormed singlePixelFont singlePixelPsf 0 rfl (by decide) (by decide)
    (by decide) (by decide) (by decide) (fun code _ _ => singlePixelFont_noPadding code)
    (by decide) (fun row col h1 h2 => singlePixelFont_space_blank row h1 col h2)

/-- Monotonic bitmapOffset on well-formed fonts: under the conditions of
`crop_roundtrip_wellFormed`, entry 0 has `bitmapOffset = 0`, every glyph prints
`ceil(width * height / 8)` bytes for the `width` and `height` of its entry, and the
`bitmapOffset` of the next entry is larger by that number. -/
theorem bitmapOffset_running_total (f : FileData) (psf : PSF)
    (hload : LoadPsf f = .ok psf) (hguard : psf.widthBytes ≤ maxPsfByteWidth)
    (hwbeq : psf.widthBytes = (psf.width + 7) / 8)
    (hcs : psf.charSize = psf.height * psf.widthBytes)
    (hh : psf.height ≤ 128) (hcount : last < psf.count)
    (hpad : ∀ code, first ≤ code → code ≤ last → NoPadding psf code) :
    ∃ out, main f = .ok out ∧ out.glyphs.length = 95 ∧ out.bitmaps.length = 95 ∧
      (∃ g, out.glyphs[0]? = some g ∧ g.bitmapOffset = 0) ∧
      (∀ i, i < 95 → ∃ g bytes, out.glyphs[i]? = some g ∧ out.bitmaps[i]? = some bytes ∧
        bytes.length = (g.width * g.height + 7) / 8) ∧
      (∀ i, i < 94 → ∃ g g', out.glyphs[i]? = some g ∧ out.glyphs[i + 1]? = some g' ∧
        g'.bitmapOffset = g.bitmapOffset + (g.width * g.height + 7) / 8) := by
  obtain ⟨out, hmain, hgl, hbl, hall⟩ :=
    main_spec f psf hload hguard hwbeq hcs hh hcount hpad
  refine ⟨out, hmain, hgl, hbl, ?_, ?_, ?_⟩
  · obtain ⟨g, bytes, hg, -, -, ho⟩ := hall 0 (by omega)
    exact ⟨g, hg, by simpa using ho⟩
  · intro i hi
    obtain ⟨g, bytes, hg, hb, ⟨-, hlen, -⟩, -⟩ := hall i hi
    exact ⟨g, bytes, hg, hb, hlen⟩
  · intro i hi
    obtain ⟨g, bytes, hg, hb, ⟨-, hlen, -⟩, ho⟩ := hall i (by omega)
    obtain ⟨g', bytes', hg', -, -, ho'⟩ := hall (i + 1) (by omega)
    refine ⟨g, g', hg, hg', ?_⟩
    have htake : out.bitmaps.take (i + 1) = out.bitmaps.take i ++ [bytes] := by
      rw [List.take_succ, hb]
      rfl
    rw [ho', htake, List.map_append, List.sum_append, ← ho, ← hlen]
    simp

/-- The theorem `bitmapOffset_running_total` at `singlePixelFont`. -/
theorem bitmapOffset_running_total_witness :
    ∃ out, main singlePixelFont = .ok out ∧ out.glyphs.length = 95 ∧
      out.bitmaps.length = 95 ∧
      (∃ g, out.glyphs[0]? = some g ∧ g.bitmapOffset = 0) ∧
      (∀ i, i < 95 → ∃ g bytes, out.glyphs[i]? = some g ∧ out.bitmaps[i]? = some bytes ∧
        bytes.length = (g.width * g.height + 7) / 8) ∧
      (∀ i, i < 94 → ∃ g g', out.glyphs[i]? = some g ∧ out.glyphs[i + 1]? = some g' ∧
        g'.bitmapOffset = g.bitmapOffset + (g.width * g.height + 7) / 8) :=
  bitmapOffset_running_total singlePixelFont singlePixelPsf rfl (by decide) (by decide)
    (by decide) (by decide) (by decide) (fun code _ _ => singlePixelFont_noPadding code)

/-- Glyph reads stay inside the validated glyph data on well-formed fonts: under the
conditions of `crop_roundtrip_wellFormed`, every character code of the glyph loop is
below `count`, its glyph starts at or after `glyphDataOffset` and ends at or before
`glyphDataOffset + count * charSize`, which is within the bytes read, and the glyph loop
completes even when no byte at or beyond `glyphDataOffset + count * charSize` may be
read. -/
theorem glyph_reads_inside_glyph_data (f : FileData) (psf : PSF)
    (hload : LoadPsf f = .ok psf) (hguard : psf.widthBytes ≤ maxPsfByteWidth)
    (hwbeq : psf.widthBytes = (psf.width + 7) / 8)
    (hcs : psf.charSize = psf.height * psf.widthBytes)
    (hh : psf.height ≤ 128) (hcount : last < psf.count)
    (hpad : ∀ code, first ≤ code → code ≤ last → NoPadding psf code) :
    (∀ code, first ≤ code → code ≤ last →
      code < psf.count ∧
      psf.glyphDataOffset ≤ u16 (psf.glyphDataOffset + code * psf.charSize) ∧
      u16 (psf.glyphDataOffset + code * psf.charSize) + psf.charSize
        ≤ psf.glyphDataOffset + psf.count * psf.charSize) ∧
    psf.glyphDataOffset + psf.count * psf.charSize ≤ psf.dataLen ∧
    ∃ r, glyphLoop { psf with dataLen := psf.glyphDataOffset + psf.count * psf.charSize }
      (last - first + 1) 0 0 = some r := by
  obtain ⟨hb, hbuf, -, -⟩ := loadPsf_bounds hload
  have hcnt : (last + 1) * psf.charSize ≤ psf.count * psf.charSize :=
    Nat.mul_le_mul_right _ (by omega)
  refine ⟨?_, hb, ?_⟩
  · intro code _ h2
    have h3 : (code + 1) * psf.charSize ≤ psf.count * psf.charSize :=
      Nat.mul_le_mul_right _ (by omega)
    rw [Nat.add_mul, Nat.one_mul] at h3
    have hu : u16 (psf.glyphDataOffset + code * psf.charSize)
        = psf.glyphDataOffset + code * psf.charSize := by
      unfold PSF_BUFFER_SIZE at hbuf
      unfold u16; omega
    rw [hu]
    exact ⟨by omega, by omega, by omega⟩
  · obtain ⟨gs, bs, hloop, -⟩ := glyphLoop_wellFormed
      { psf with dataLen := psf.glyphDataOffset + psf.count * psf.charSize }
      (by simp only; omega) hguard (by simp only; omega) hcs hh (by simp only; omega)
      (by
        intro code h1 h2 row c hr hc1 hc2
        by_contra hx
        have hx' := srcPixel_of_restrict psf _ code row c hb (by simpa using hx)
        rw [hpad code h1 h2 row c hr hc1 hc2] at hx'
        cases hx')
    exact ⟨_, hloop⟩

/-- The theorem `glyph_reads_inside_glyph_data` at `singlePixelFont`. -/
theorem glyph_reads_inside_glyph_data_witness :
    (∀ code, first ≤ code → code ≤ last →
      code < singlePixelPsf.count ∧
      singlePixelPsf.glyphDataOffset
        ≤ u16 (singlePixelPsf.glyphDataOffset + code * singlePixelPsf.charSize) ∧
      u16 (singlePixelPsf.glyphDataOffset + code * singlePixelPsf.charSize)
          + singlePixelPsf.charSize
        ≤ singlePixelPsf.glyphDataOffset
          + singlePixelPsf.count * singlePixelPsf.charSize) ∧
    singlePixelPsf.glyphDataOffset + singlePixelPsf.count * singlePixelPsf.charSize
      ≤ singlePixelPsf.dataLen ∧
    ∃ r, glyphLoop
      { singlePixelPsf with
        dataLen := singlePixelPsf.glyphDataOffset
          + singlePixelPsf.count * singlePixelPsf.charSize }
      (last - first + 1) 0 0 = some r :=
  glyph_reads_inside_glyph_data singlePixelFont singlePixelPsf rfl (by decide) (by decide)
    (by decide) (by decide) (by decide) (fun code _ _ => singlePixelFont_noPadding code)

/-- The output of `main` for every accepted variant-1 font: `main` succeeds with 95
entries and 95 blocks; for each glyph code `0x20 + i` the entry and the block are as
`CropSpec` describes, and the `bitmapOffset` of the entry is the number of bytes of the
blocks before it. -/
theorem main_variant1 (f : FileData) (psf : PSF) (hload : LoadPsf f = .ok psf)
    (hfmt : psf.format = 1) :
    ∃ out, main f = .ok out ∧ out.glyphs.length = 95 ∧ out.bitmaps.length = 95 ∧
      ∀ i, i < 95 → ∃ g bytes, out.glyphs[i]? = some g ∧ out.bitmaps[i]? = some bytes ∧
        CropSpec psf (first + i) g bytes ∧
        g.bitmapOffset = ((out.bitmaps.take i).map List.length).sum := by
  obtain ⟨h1, h2, h3, h4, h5, h6⟩ := v1_wellFormed hload hfmt
  exact main_spec f psf hload h1 h2 h3 h4 h5 (fun code _ _ => h6 code)

/-- The theorem `main_variant1` at `singlePixelFont`. -/
theorem main_variant1_witness :
    ∃ out, main singlePixelFont = .ok out ∧ out.glyphs.length = 95 ∧
      out.bitmaps.length = 95 ∧
      ∀ i, i < 95 → ∃ g bytes, out.glyphs[i]? = some g ∧ out.bitmaps[i]? = some bytes ∧
        CropSpec singlePixelPsf (first + i) g bytes ∧
        g.bitmapOffset = ((out.bitmaps.take i).map List.length).sum :=
  main_variant1 singlePixelFont singlePixelPsf rfl rfl

/-- Bounds rejection when no header field is truncated: for every buffer of at least 32
bytes that starts with the variant-2 magic and whose headersize, length, height and
width fields and the product `height * ceil(width / 8)` are all below `2 ^ 16`, if
`headersize + length * height * ceil(width / 8)` exceeds the buffer length then
`LoadPsf` fails with "Incomplete glyph data". -/
theorem loadPsf_rejects_incomplete_glyph_data (f : FileData)
    (hmin : sizeofPsf2Header ≤ f.size) (hfit : f.size ≤ PSF_BUFFER_SIZE)
    (h0 : (f.byte 0).val = 0x72) (h1 : (f.byte 1).val = 0xb5)
    (h2 : (f.byte 2).val = 0x4a) (h3 : (f.byte 3).val = 0x86)
    (hhs : le32 f.byte 8 < 65536) (hcnt : le32 f.byte 16 < 65536)
    (hht : le32 f.byte 24 < 65536) (hwd : le32 f.byte 28 < 65536)
    (hcsz : le32 f.byte 24 * ((le32 f.byte 28 + 7) / 8) < 65536)
    (hbig : f.size < le32 f.byte 8
      + le32 f.byte 16 * le32 f.byte 24 * ((le32 f.byte 28 + 7) / 8)) :
    LoadPsf f = .error .incompleteGlyphData := by
  have hlen : min f.size PSF_BUFFER_SIZE = f.size := Nat.min_eq_left hfit
  have a1 : ¬ f.size < sizeofPsf1Header := by
    unfold sizeofPsf1Header; unfold sizeofPsf2Header at hmin; omega
  have a2 : ¬ (f.size = PSF_BUFFER_SIZE ∧ PSF_BUFFER_SIZE < f.size) := by omega
  have a3 : ¬ f.size < sizeofPsf2Header := by omega
  have m1 : ¬ ((f.byte 0).val = PSF1_MAGIC0 ∧ (f.byte 1).val = PSF1_MAGIC1) := by
    rintro ⟨x, -⟩; rw [h0] at x; exact absurd x (by decide)
  have m2 : (f.byte 0).val = PSF2_MAGIC0 ∧ (f.byte 1).val = PSF2_MAGIC1
      ∧ (f.byte 2).val = PSF2_MAGIC2 ∧ (f.byte 3).val = PSF2_MAGIC3 := ⟨h0, h1, h2, h3⟩
  have e1 : u16 (le32 f.byte 8) = le32 f.byte 8 := by unfold u16; omega
  have e2 : u16 (le32 f.byte 16) = le32 f.byte 16 := by unfold u16; omega
  have e3 : u16 (le32 f.byte 24) = le32 f.byte 24 := by unfold u16; omega
  have e4 : u16 (u32 (le32 f.byte 28 + 7) / 8) = (le32 f.byte 28 + 7) / 8 := by
    unfold u16 u32; omega
  have e5 : u16 (le32 f.byte 24 * ((le32 f.byte 28 + 7) / 8))
      = le32 f.byte 24 * ((le32 f.byte 28 + 7) / 8) := by unfold u16; omega
  have hprod : le32 f.byte 16 * (le32 f.byte 24 * ((le32 f.byte 28 + 7) / 8))
      ≤ 65535 * 65535 := Nat.mul_le_mul (by omega) (by omega)
  have e6 : u32 (le32 f.byte 8
      + u32 (le32 f.byte 16 * (le32 f.byte 24 * ((le32 f.byte 28 + 7) / 8))))
      = le32 f.byte 8 + le32 f.byte 16 * (le32 f.byte 24 * ((le32 f.byte 28 + 7) / 8)) := by
    unfold u32; omega
  rw [Nat.mul_assoc] at hbig
  have hrun : LoadPsf f = finishLoad f.byte f.size 2 (u16 (le32 f.byte 8))
      (u16 (le32 f.byte 16)) (u16 (le32 f.byte 24)) (u16 (le32 f.byte 28))
      (u16 (u32 (le32 f.byte 28 + 7) / 8))
      (le32 f.byte 12 &&& PSF2_HAS_UNICODE_TABLE != 0) := by
    have hdec : ¬ (PSF2_MAGIC0 = PSF1_MAGIC0 ∧ PSF2_MAGIC1 = PSF1_MAGIC1) := by decide
    simp only [LoadPsf, hlen, a1, a2, a3, m1, m2, hdec, if_true, if_false, and_self]
  rw [hrun, e1, e2, e3, e4]
  unfold finishLoad
  simp only [e5, e6]
  rw [if_pos (by omega)]

/-- The theorem `loadPsf_rejects_incomplete_glyph_data` at `headerOnlyFont`: the header declares `32 + 1 * 8 * 1 = 40` bytes, the file
has 32. -/
theorem loadPsf_rejects_incomplete_glyph_data_witness :
    headerOnlyFont.size
        < le32 headerOnlyFont.byte 8
          + le32 headerOnlyFont.byte 16 * le32 headerOnlyFont.byte 24
            * ((le32 headerOnlyFont.byte 28 + 7) / 8) ∧
      LoadPsf headerOnlyFont = .error .incompleteGlyphData :=
  ⟨by decide,
   loadPsf_rejects_incomplete_glyph_data headerOnlyFont (by decide) (by decide) (by decide)
    (by decide) (by decide) (by decide) (by decide) (by decide) (by decide) (by decide)
    (by decide) (by decide)⟩

/-- Metadata consistency when nothing is truncated: for every accepted buffer, the stored
`widthBytes` is `ceil(width / 8)` when the font is variant 1 or the width field of the
variant-2 header is below `2 ^ 16`, and the stored `charSize` is `height * widthBytes`
when that product is below `2 ^ 16`. -/
theorem loadPsf_metadata_consistent (f : FileData) (psf : PSF)
    (hload : LoadPsf f = .ok psf) :
    ((psf.format = 1 ∨ le32 f.byte 28 < 65536) →
      psf.widthBytes = (psf.width + 7) / 8) ∧
    (psf.height * psf.widthBytes < 65536 →
      psf.charSize = psf.height * psf.widthBytes) := by
  obtain ⟨-, -, hc | hc⟩ := loadPsf_ok_cases hload
  · obtain ⟨hpsf, -⟩ := finishLoad_fields hc.2.2
    subst hpsf
    refine ⟨fun _ => by simp, fun h => ?_⟩
    simp only at h ⊢
    unfold u16; omega
  · obtain ⟨hpsf, -⟩ := finishLoad_fields hc.2.2
    subst hpsf
    refine ⟨fun h => ?_, fun h => ?_⟩
    · rcases h with h | h
      · simp at h
      · simp only
        unfold u16 u32; omega
    · simp only at h ⊢
      generalize u16 (le32 f.byte 24) * u16 (u32 (le32 f.byte 28 + 7) / 8) = x at h ⊢
      unfold u16; omega

/-- The theorem `loadPsf_metadata_consistent` at `oneGlyphFont`, a variant-2 font. -/
theorem loadPsf_metadata_consistent_witness :
    LoadPsf oneGlyphFont = .ok oneGlyphPsf ∧
    ((oneGlyphPsf.format = 1 ∨ le32 oneGlyphFont.byte 28 < 65536) →
      oneGlyphPsf.widthBytes = (oneGlyphPsf.width + 7) / 8) ∧
    (oneGlyphPsf.height * oneGlyphPsf.widthBytes < 65536 →
      oneGlyphPsf.charSize = oneGlyphPsf.height * oneGlyphPsf.widthBytes) :=
  ⟨rfl, loadPsf_metadata_consistent oneGlyphFont oneGlyphPsf rfl⟩

/-- An index above `count` is rejected: `DisplayGlyph` returns `false` and writes
nothing, and `FindUnicodeEntryForGlyph` returns 0, both before any read of `data`. -/
theorem index_above_count_rejected (psf : PSF) (index : Nat) (h : psf.count < index) :
    DisplayGlyph psf index = some (false, []) ∧
    FindUnicodeEntryForGlyph psf index = some 0 := by
  constructor
  · unfold DisplayGlyph
    rw [if_pos h]
  · unfold FindUnicodeEntryForGlyph
    rw [if_pos (Or.inl h)]

/-- The theorem `index_above_count_rejected` at `utf8TableFont`, index 3. -/
theorem index_above_count_rejected_witness :
    utf8TablePsf.count < 3 ∧ DisplayGlyph utf8TablePsf 3 = some (false, []) ∧
    FindUnicodeEntryForGlyph utf8TablePsf 3 = some 0 :=
  ⟨by decide, index_above_count_rejected utf8TablePsf 3 (by decide)⟩

/-- The bounding box is minimal on well-formed fonts: under the conditions of
`crop_roundtrip_wellFormed`, for a glyph code `0x20 + i` of the range with a foreground
pixel, the source rows `yOffset` and `yOffset + height - 1` and the source columns
`xOffset` and `xOffset + width - 1` of the entry each have a foreground pixel. -/
theorem crop_box_minimal_wellFormed (f : FileData) (psf : PSF) (i : Nat)
    (hload : LoadPsf f = .ok psf) (hguard : psf.widthBytes ≤ maxPsfByteWidth)
    (hwbeq : psf.widthBytes = (psf.width + 7) / 8)
    (hcs : psf.charSize = psf.height * psf.widthBytes)
    (hh : psf.height ≤ 128) (hcount : last < psf.count)
    (hpad : ∀ code, first ≤ code → code ≤ last → NoPadding psf code)
    (hi : i < 95)
    (hfg : ∃ row col, row < psf.height ∧ col < psf.width ∧
      srcPixel psf (first + i) row col = true) :
    ∃ out g, main f = .ok out ∧ out.glyphs[i]? = some g ∧
      ∃ x0 y0 : Nat, g.xOffset = (x0 : Int) ∧ g.yOffset = (y0 : Int) ∧
        1 ≤ g.width ∧ 1 ≤ g.height ∧
        (∃ col, col < psf.width ∧ srcPixel psf (first + i) y0 col = true) ∧
        (∃ col, col < psf.width ∧
          srcPixel psf (first + i) (y0 + g.height - 1) col = true) ∧
        (∃ row, row < psf.height ∧ srcPixel psf (first + i) row x0 = true) ∧
        (∃ row, row < psf.height ∧
          srcPixel psf (first + i) row (x0 + g.width - 1) = true) := by
  obtain ⟨out, hmain, -, -, hall⟩ := main_spec f psf hload hguard hwbeq hcs hh hcount hpad
  obtain ⟨g, bytes, hg, -, ⟨-, -, -, hbox⟩, -⟩ := hall i hi
  obtain ⟨x0, y0, hx, hy, hw1, hh1, -, -, -, -, hc0, hc1, hr0, hr1⟩ := hbox hfg
  exact ⟨out, g, hmain, hg, x0, y0, hx, hy, hw1, hh1, hr0, hr1, hc0, hc1⟩

/-- The theorem `crop_box_minimal_wellFormed` at `singlePixelFont`, glyph 0x41
(`i = 33`). -/
theorem crop_box_minimal_wellFormed_witness :
    ∃ out g, main singlePixelFont = .ok out ∧ out.glyphs[33]? = some g ∧
      ∃ x0 y0 : Nat, g.xOffset = (x0 : Int) ∧ g.yOffset = (y0 : Int) ∧
        1 ≤ g.width ∧ 1 ≤ g.height ∧
        (∃ col, col < singlePixelPsf.width ∧
          srcPixel singlePixelPsf (first + 33) y0 col = true) ∧
        (∃ col, col < singlePixelPsf.width ∧
          srcPixel singlePixelPsf (first + 33) (y0 + g.height - 1) col = true) ∧
        (∃ row, row < singlePixelPsf.height ∧
          srcPixel singlePixelPsf (first + 33) row x0 = true) ∧
        (∃ row, row < singlePixelPsf.height ∧
          srcPixel singlePixelPsf (first + 33) row (x0 + g.width - 1) = true) :=
  crop_box_minimal_wellFormed singlePixelFont singlePixelPsf 33 rfl (by decide) (by decide)
    (by decide) (by decide) (by decide) (fun code _ _ => singlePixelFont_noPadding code)
    (by decide) ⟨0, 0, by decide, by decide, by decide⟩

/-- The width guard on fonts with at least one byte per row: for every accepted font
with `widthBytes` from 1 to 4 the width is at most 32 pixels, and every column below
the width has its byte index `col >> 3` below `widthBytes`, so below the four entries
of `colMask`. -/
theorem width_guard_bounds_columns (f : FileData) (psf : PSF)
    (hload : LoadPsf f = .ok psf) (h1 : 1 ≤ psf.widthBytes)
    (hguard : psf.widthBytes ≤ maxPsfByteWidth) :
    psf.width ≤ 32 ∧
    ∀ col, col < psf.width → col >>> 3 < psf.widthBytes ∧ col >>> 3 < 4 := by
  have hmax : maxPsfByteWidth = 4 := rfl
  obtain ⟨hw, -⟩ := loadPsf_width_le hload h1 hguard
  refine ⟨by omega, fun col hcol => ?_⟩
  have := shiftRight3_lt col psf.widthBytes (by omega)
  omega

/-- The theorem `width_guard_bounds_columns` at `singlePixelFont`. -/
theorem width_guard_bounds_columns_witness :
    LoadPsf singlePixelFont = .ok singlePixelPsf ∧ singlePixelPsf.width ≤ 32 ∧
    ∀ col, col < singlePixelPsf.width →
      col >>> 3 < singlePixelPsf.widthBytes ∧ col >>> 3 < 4 :=
  ⟨rfl, width_guard_bounds_columns singlePixelFont singlePixelPsf rfl (by decide)
    (by decide)⟩

/-- The repack stays inside the rows on well-formed fonts: under the conditions of
`crop_roundtrip_wellFormed`, every column `xOffset .. xOffset + width - 1` that the
repack reads for an entry has its byte index `col >> 3` below `widthBytes`. -/
theorem repack_columns_wellFormed (f : FileData) (psf : PSF) (i : Nat)
    (hload : LoadPsf f = .ok psf) (hguard : psf.widthBytes ≤ maxPsfByteWidth)
    (hwbeq : psf.widthBytes = (psf.width + 7) / 8)
    (hcs : psf.charSize = psf.height * psf.widthBytes)
    (hh : psf.height ≤ 128) (hcount : last < psf.count)
    (hpad : ∀ code, first ≤ code → code ≤ last → NoPadding psf code)
    (hi : i < 95) :
    ∃ out g, main f = .ok out ∧ out.glyphs[i]? = some g ∧
      ∃ x0 : Nat, g.xOffset = (x0 : Int) ∧
        ∀ col, x0 ≤ col → col < x0 + g.width → col >>> 3 < psf.widthBytes := by
  obtain ⟨out, hmain, -, -, hall⟩ := main_spec f psf hload hguard hwbeq hcs hh hcount hpad
  obtain ⟨g, bytes, hg, -, ⟨-, -, hzero, hbox⟩, -⟩ := hall i hi
  refine ⟨out, g, hmain, hg, ?_⟩
  by_cases hfg : ∃ row col, row < psf.height ∧ col < psf.width ∧
      srcPixel psf (first + i) row col = true
  · obtain ⟨x0, y0, hx, hy, hw1, hh1, hxw, hyh, -⟩ := hbox hfg
    refine ⟨x0, hx, fun col h1 h2 => ?_⟩
    exact shiftRight3_lt col psf.widthBytes (by omega)
  · have hblank : ∀ row col, row < psf.height → col < psf.width →
        srcPixel psf (first + i) row col = false := by
      intro row col h1 h2
      by_contra hc
      exact hfg ⟨row, col, h1, h2, by simpa using hc⟩
    obtain ⟨h1, h2, h3, h4, -⟩ := hzero hblank
    refine ⟨0, by rw [h3]; rfl, fun col _ hc => ?_⟩
    omega

/-- The theorem `repack_columns_wellFormed` at `singlePixelFont`, glyph 0x41
(`i = 33`). -/
theorem repack_columns_wellFormed_witness :
    ∃ out g, main singlePixelFont = .ok out ∧ out.glyphs[33]? = some g ∧
      ∃ x0 : Nat, g.xOffset = (x0 : Int) ∧
        ∀ col, x0 ≤ col → col < x0 + g.width → col >>> 3 < singlePixelPsf.widthBytes :=
  repack_columns_wellFormed singlePixelFont singlePixelPsf 33 rfl (by decide) (by decide)
    (by decide) (by decide) (by decide) (fun code _ _ => singlePixelFont_noPadding code)
    (by decide)

/-- The cropped box lies inside the raster on well-formed fonts: under the conditions of
`crop_roundtrip_wellFormed`, every entry that `main` prints has `xOffset ≥ 0`,
`yOffset ≥ 0`, `xOffset + width ≤` the font width, `yOffset + height ≤` the font
height, and `width` and `height` both 0 or both at least 1. -/
theorem crop_box_inside_wellFormed (f : FileData) (psf : PSF) (i : Nat)
    (hload : LoadPsf f = .ok psf) (hguard : psf.widthBytes ≤ maxPsfByteWidth)
    (hwbeq : psf.widthBytes = (psf.width + 7) / 8)
    (hcs : psf.charSize = psf.height * psf.widthBytes)
    (hh : psf.height ≤ 128) (hcount : last < psf.count)
    (hpad : ∀ code, first ≤ code → code ≤ last → NoPadding psf code)
    (hi : i < 95) :
    ∃ out g, main f = .ok out ∧ out.glyphs[i]? = some g ∧
      0 ≤ g.xOffset ∧ 0 ≤ g.yOffset ∧
      g.xOffset + (g.width : Int) ≤ (psf.width : Int) ∧
      g.yOffset + (g.height : Int) ≤ (psf.height : Int) ∧
      ((g.width = 0 ∧ g.height = 0) ∨ (1 ≤ g.width ∧ 1 ≤ g.height)) := by
  obtain ⟨out, hmain, -, -, hall⟩ := main_spec f psf hload hguard hwbeq hcs hh hcount hpad
  obtain ⟨g, bytes, hg, -, ⟨-, -, hzero, hbox⟩, -⟩ := hall i hi
  refine ⟨out, g, hmain, hg, ?_⟩
  by_cases hfg : ∃ row col, row < psf.height ∧ col < psf.width ∧
      srcPixel psf (first + i) row col = true
  · obtain ⟨x0, y0, hx, hy, hw1, hh1, hxw, hyh, -⟩ := hbox hfg
    rw [hx, hy]
    refine ⟨by omega, by omega, by omega, by omega, Or.inr ⟨hw1, hh1⟩⟩
  · have hblank : ∀ row col, row < psf.height → col < psf.width →
        srcPixel psf (first + i) row col = false := by
      intro row col h1 h2
      by_contra hc
      exact hfg ⟨row, col, h1, h2, by simpa using hc⟩
    obtain ⟨h1, h2, h3, h4, -⟩ := hzero hblank
    rw [h1, h2, h3, h4]
    refine ⟨by omega, by omega, by omega, by omega, Or.inl ⟨rfl, rfl⟩⟩

/-- The theorem `crop_box_inside_wellFormed` at `singlePixelFont`, glyph 0x41
(`i = 33`). -/
theorem crop_box_inside_wellFormed_witness :
    ∃ out g, main singlePixelFont = .ok out ∧ out.glyphs[33]? = some g ∧
      0 ≤ g.xOffset ∧ 0 ≤ g.yOffset ∧
      g.xOffset + (g.width : Int) ≤ (singlePixelPsf.width : Int) ∧
      g.yOffset + (g.height : Int) ≤ (singlePixelPsf.height : Int) ∧
      ((g.width = 0 ∧ g.height = 0) ∨ (1 ≤ g.width ∧ 1 ≤ g.height)) :=
  crop_box_inside_wellFormed singlePixelFont singlePixelPsf 33 rfl (by decide) (by decide)
    (by decide) (by decide) (by decide) (fun code _ _ => singlePixelFont_noPadding code)
    (by decide)

/-- A declared table has a nonzero offset when the glyph data does not start at byte 0
or is not empty: for every accepted font whose table bit is set (bit `PSF1_MODEHASTAB`
of the mode byte for variant 1, bit `PSF2_HAS_UNICODE_TABLE` of `flags` for variant 2),
`unicodeTableOffset` is nonzero for variant 1, and for variant 2 whenever
`glyphDataOffset` or `count * charSize` is nonzero. -/
theorem declared_table_offset_nonzero (f : FileData) (psf : PSF)
    (hload : LoadPsf f = .ok psf) :
    (psf.format = 1 → (f.byte 2).val &&& PSF1_MODEHASTAB ≠ 0 →
      psf.unicodeTableOffset ≠ 0) ∧
    (psf.format = 2 → le32 f.byte 12 &&& PSF2_HAS_UNICODE_TABLE ≠ 0 →
      psf.glyphDataOffset ≠ 0 ∨ psf.count * psf.charSize ≠ 0 →
      psf.unicodeTableOffset ≠ 0) := by
  constructor
  · intro hfmt hflag
    exact (loadPsf_v1_table hload hfmt).1.2 hflag
  · intro hfmt hflag hpos
    have key : ∀ off count cs : Nat, off < 65536 → count < 65536 → cs < 65536 →
        u32 (off + u32 (count * cs)) = off + count * cs := by
      intro off count cs h1 h2 h3
      have : count * cs ≤ 65535 * 65535 := Nat.mul_le_mul (by omega) (by omega)
      unfold u32; omega
    obtain ⟨-, -, hc | hc⟩ := loadPsf_ok_cases hload
    · obtain ⟨hpsf, -⟩ := finishLoad_fields hc.2.2
      subst hpsf
      simp at hfmt
    · obtain ⟨hpsf, -⟩ := finishLoad_fields hc.2.2
      have hk := key (u16 (le32 f.byte 8)) (u16 (le32 f.byte 16))
        (u16 (u16 (le32 f.byte 24) * u16 (u32 (le32 f.byte 28 + 7) / 8)))
        (by unfold u16; omega) (by unfold u16; omega) (by unfold u16; omega)
      have hb : (le32 f.byte 12 &&& PSF2_HAS_UNICODE_TABLE != 0) = true := by
        simpa using hflag
      subst hpsf
      simp only [hb, if_true, hk] at hpos ⊢
      have hmul : ∀ a b : Nat, a * b ≠ 0 → 0 < a * b := fun a b h => Nat.pos_of_ne_zero h
      rcases hpos with hpos | hpos
      · omega
      · have := hmul _ _ hpos
        omega

/-- The theorem `declared_table_offset_nonzero` at `tableFont` (variant 1) and at
`utf8TableFont` (variant 2). -/
theorem declared_table_offset_nonzero_witness :
    LoadPsf tableFont = .ok tablePsf ∧ tablePsf.unicodeTableOffset ≠ 0 ∧
    LoadPsf utf8TableFont = .ok utf8TablePsf ∧ utf8TablePsf.unicodeTableOffset ≠ 0 :=
  ⟨rfl, (declared_table_offset_nonzero tableFont tablePsf rfl).1 rfl (by decide), rfl,
   (declared_table_offset_nonzero utf8TableFont utf8TablePsf rfl).2 rfl (by decide)
     (Or.inl (by decide))⟩

end Psf2GfxFont
